import Mathlib

/-!
# czsfiber: a shallow embedding of `src/src/fiber.cpp`

The C++ file keeps its state in process globals (`HEAD`, `TAIL`, `QUEUE_LOCK`),
in thread-locals of the one worker that is executing (`HELD_LOCK`, `EXEC_FIBER`,
`P_BASE`, `P_STACK`) and in heap objects (`Fiber`, `Barrier`, `Semaphore`).
Here all of it is one explicit `State`; every function of the source becomes a
function on `State`.  Pointers are `Option Nat` (`none` is `nullptr`), heaps are
partial maps from addresses, and a call has result `Except Fault _`: an error
means the C++ call has no completed, defined result.
-/

namespace czsfiber

/-! ## Data model -/

/-- `static const uint64_t STACK_SIZE = 1024 * 128;` -/
def STACK_SIZE : Nat := 1024 * 128

/-- `enum FiberStatus`. -/
inductive FiberStatus where
  | New
  | Active
  | Blocked
  | Done
  deriving DecidableEq, Repr

/-- `enum YieldType`. -/
inductive YieldType where
  | Acquire
  | Block
  | Return
  deriving DecidableEq, Repr

/-- `struct Fiber` without the bytes of `m_stack`: the saved stack and base
pointer, the task (a function address) and its parameter, the completion
signal (`Sync*`), the status and the intrusive `next` link. -/
structure Fiber where
  m_fiberStack : Nat
  m_fiberBase : Nat
  m_task : Nat
  m_param : Nat
  m_signal : Option Nat
  m_status : FiberStatus
  next : Option Nat
  deriving DecidableEq, Repr

/-- `struct TaskDecl`: a task function address and its parameter. -/
structure TaskDecl where
  m_task : Nat
  m_param : Nat
  deriving DecidableEq, Repr

/-- Modelled from the spec: `fiber.hpp`, which declares `Barrier`, is not part
of the sources.  The fields are the ones `fiber.cpp` uses (`m_lock`, `m_value`,
`m_head`, `m_tail`); the counter is the spec's "integer counter", kept as an
unbounded `Int` because its declared width is unknown. -/
structure Barrier where
  m_lock : Bool
  m_value : Int
  m_head : Option Nat
  m_tail : Option Nat
  deriving DecidableEq, Repr

/-- Modelled from the spec: `fiber.hpp`, which declares `Semaphore`, is not
part of the sources.  Same fields as `Barrier`, as used by `fiber.cpp`. -/
structure Semaphore where
  m_lock : Bool
  m_value : Int
  m_head : Option Nat
  m_tail : Option Nat
  deriving DecidableEq, Repr

/-- An object behind a `Sync*`: `fiber->m_signal->signal()` dispatches on it. -/
inductive Sync where
  | barrier (b : Barrier)
  | semaphore (m : Semaphore)
  deriving DecidableEq, Repr

/-- Why a call has no completed result. -/
inductive Fault where
  /-- A null pointer is dereferenced. -/
  | nullDeref
  /-- A pointer to no live object of the expected type is dereferenced. -/
  | dangling
  /-- A `test_and_set` loop finds the flag set; in this one-worker model nobody
  clears it, so the loop never ends. -/
  | spin
  /-- An array is indexed outside its bounds. -/
  | outOfBounds
  deriving DecidableEq, Repr

/-- The whole program state seen by one worker thread.  `rsp` and `rbp` are the
worker's stack and base pointer registers; a lock pointer (`HELD_LOCK`) is the
address of the `Sync` object that owns the flag. -/
structure State where
  fibers : Nat → Option Fiber
  syncs : Nat → Option Sync
  QUEUE_LOCK : Bool
  HEAD : Option Nat
  TAIL : Option Nat
  HELD_LOCK : Option Nat
  EXEC_FIBER : Option Nat
  P_BASE : Nat
  P_STACK : Nat
  rsp : Nat
  rbp : Nat

/-- Store a fiber record at address `a`. -/
def State.setFiber (s : State) (a : Nat) (f : Fiber) : State :=
  { s with fibers := fun x => if x = a then some f else s.fibers x }

/-- Release the storage of the fiber at address `a` (`delete`). -/
def State.freeFiber (s : State) (a : Nat) : State :=
  { s with fibers := fun x => if x = a then none else s.fibers x }

/-- Store a synchronisation object at address `a`. -/
def State.setSync (s : State) (a : Nat) (o : Sync) : State :=
  { s with syncs := fun x => if x = a then some o else s.syncs x }

/-- Dereference a `Fiber*`. -/
def derefFiber (s : State) (p : Option Nat) : Except Fault (Nat × Fiber) :=
  match p with
  | none => .error .nullDeref
  | some a =>
    match s.fibers a with
    | none => .error .dangling
    | some f => .ok (a, f)

/-- Dereference a `Barrier*` (the `this` of a `Barrier` method). -/
def derefBarrier (s : State) (a : Nat) : Except Fault Barrier :=
  match s.syncs a with
  | some (.barrier b) => .ok b
  | _ => .error .dangling

/-- Dereference a `Semaphore*` (the `this` of a `Semaphore` method). -/
def derefSemaphore (s : State) (a : Nat) : Except Fault Semaphore :=
  match s.syncs a with
  | some (.semaphore m) => .ok m
  | _ => .error .dangling

/-! ## The ready queue -/

/-- `acquireLock`: `while(QUEUE_LOCK.test_and_set(...));`. -/
def acquireLock (s : State) : Except Fault State :=
  if s.QUEUE_LOCK then .error .spin else .ok { s with QUEUE_LOCK := true }

/-- `releaseLock`: `QUEUE_LOCK.clear();`. -/
def releaseLock (s : State) : State :=
  { s with QUEUE_LOCK := false }

/-- `append(Fiber* head, Fiber* tail)`. -/
def append (head tail : Option Nat) (s : State) : Except Fault State := do
  let (t, tf) ← derefFiber s tail
  let s := s.setFiber t { tf with next := none }
  let s ← acquireLock s
  let s ←
    match s.TAIL with
    | none => pure { s with HEAD := head, TAIL := tail }
    | some T => do
      let (_, Tf) ← derefFiber s (some T)
      pure { s.setFiber T { Tf with next := head } with TAIL := tail }
  pure (releaseLock s)

/-- `acquireNext()`: the returned pointer and the state afterwards. -/
def acquireNext (s : State) : Except Fault (Option Nat × State) := do
  let s ← acquireLock s
  let fiber := s.HEAD
  let s ←
    match fiber with
    | none => pure s
    | some _ =>
      if s.HEAD = s.TAIL then
        pure { s with HEAD := none, TAIL := none }
      else do
        let (_, f) ← derefFiber s fiber
        pure { s with HEAD := f.next }
  pure (fiber, releaseLock s)

/-! ## Control transfer and the yield engine -/

/-- Where execution continues when a modelled call is over.  A context switch
does not return to its caller, so the calls that end in `yield` report where
control went. -/
inductive Control where
  /-- The call returned to its own caller, on the stack it was called on. -/
  | returned
  /-- After a switch back to the worker's saved context, `yield` returned into
  the worker's code (nothing was dispatched). -/
  | worker
  /-- The fiber at this address was `New`: `execFiber()` runs on its stack. -/
  | enter (fiber : Nat)
  /-- The fiber at this address was `Blocked`: the `yield` it had parked in
  returns into it. -/
  | resume (fiber : Nat)
  deriving DecidableEq, Repr

/-- `PUSHA`: five 8-byte pushes move `rsp` down by 40, modulo `2 ^ 64` (a 64-bit
register): `rsp - 40` when `rsp ≥ 40`. -/
def pusha (s : State) : State :=
  { s with rsp := (2 ^ 64 - 40 + s.rsp) % 2 ^ 64 }

/-- `POPA`: five 8-byte pops move `rsp` up by 40 (64-bit register). -/
def popa (s : State) : State :=
  { s with rsp := (s.rsp + 40) % 2 ^ 64 }

/-- `yield`, `case Block`, lines 241-252: push the callee-saved registers and
store the stack and base pointer into the current fiber's own slot. -/
def yieldSave (s : State) : Except Fault State := do
  let fiber := s.EXEC_FIBER
  let s := pusha s
  let p_stack := s.rsp
  let p_base := s.rbp
  let (a, f) ← derefFiber s fiber
  pure (s.setFiber a { f with m_fiberStack := p_stack, m_fiberBase := p_base })

/-- `yield`, line 253: `HELD_LOCK->clear();`. -/
def yieldClearHeld (s : State) : Except Fault State :=
  match s.HELD_LOCK with
  | none => .error .nullDeref
  | some l =>
    match s.syncs l with
    | some (.barrier b) => .ok (s.setSync l (.barrier { b with m_lock := false }))
    | some (.semaphore m) => .ok (s.setSync l (.semaphore { m with m_lock := false }))
    | none => .error .dangling

/-- `EXEC_FIBER = p;`. -/
def State.setExec (s : State) (p : Option Nat) : State :=
  { s with EXEC_FIBER := p }

/-- `HELD_LOCK = p;`. -/
def State.setHeld (s : State) (p : Option Nat) : State :=
  { s with HELD_LOCK := p }

/-- `movq p_stack, %rsp; movq p_base, %rbp`: load the two registers. -/
def State.loadRegs (s : State) (p_stack p_base : Nat) : State :=
  { s with rsp := p_stack, rbp := p_base }

/-- `P_STACK = p_stack; P_BASE = p_base;` for the values just read from `rsp`
and `rbp`, lines 290-297. -/
def saveWorker (s : State) : State :=
  { s with P_STACK := s.rsp, P_BASE := s.rbp }

/-- `yield`, `case Return`, lines 256-266: load `rsp`/`rbp` from `P_STACK`/`P_BASE`
and pop the callee-saved registers. -/
def yieldRestore (s : State) : State :=
  popa (s.loadRegs s.P_STACK s.P_BASE)

/-- `yield`, lines 268-278: the switch on `EXEC_FIBER->m_status` (`Done`:
`delete EXEC_FIBER`; `Blocked`: `HELD_LOCK = nullptr`), then
`EXEC_FIBER = nullptr`. -/
def yieldRetire (s : State) : Except Fault State := do
  let (a, f) ← derefFiber s s.EXEC_FIBER
  let s :=
    match f.m_status with
    | .Done => s.freeFiber a
    | .Blocked => s.setHeld none
    | _ => s
  pure (s.setExec none)

/-- `yield`, `case Acquire`, lines 281-336.  `back` is where the `return` of
line 284 (and the end of the function) leads: the caller in Acquire mode, the
worker's code after the fall-through from Block or Return. -/
def yieldAcquire (back : Control) (s : State) : Except Fault (State × Control) := do
  let (fiber, s) ← acquireNext s
  match fiber with
  | none => pure (s, back)
  | some a =>
    let s := saveWorker (pusha s)
    let (_, f) ← derefFiber s fiber
    let p_stack := f.m_fiberStack
    let p_base := f.m_fiberBase
    let s := s.setExec fiber
    match f.m_status with
    | .New =>
      let s := s.setFiber a { f with m_status := .Active }
      pure (s.loadRegs p_stack p_base, .enter a)
    | .Blocked =>
      let s := s.setFiber a { f with m_status := .Active }
      pure (popa (s.loadRegs p_stack p_base), .resume a)
    | _ => pure (s, back)

/-- The statement groups of `yield` above `case Acquire`, in the order of the
source text. -/
inductive YieldStep where
  /-- Lines 241-252: `PUSHA`, and `rsp`, `rbp` stored into the fiber's slot. -/
  | save
  /-- Line 253: `HELD_LOCK->clear();`. -/
  | clearHeld
  /-- Lines 256-266: `rsp`, `rbp` loaded from `P_STACK`, `P_BASE`, and `POPA`. -/
  | restore
  /-- Lines 268-278: the switch on the status, and `EXEC_FIBER = nullptr`. -/
  | retire
  deriving DecidableEq, Repr

/-- What a statement group of `yield` does to the state. -/
def YieldStep.run : YieldStep → State → Except Fault State
  | .save, s => yieldSave s
  | .clearHeld, s => yieldClearHeld s
  | .restore, s => pure (yieldRestore s)
  | .retire, s => yieldRetire s

/-- The statement groups that `switch (ty)` executes before control reaches
`case Acquire`: the switch jumps to the label of `ty`, and no case above
`case Acquire` ends in `break`, so each falls through into the next. -/
def yieldPrologue : YieldType → List YieldStep
  | .Block => [.save, .clearHeld, .restore, .retire]
  | .Return => [.restore, .retire]
  | .Acquire => []

/-- Execute statement groups one after the other.  The result is the state
after the last one, with the record of each group executed and the state it
left, in the order of execution. -/
def runSteps : List YieldStep → State → Except Fault (List (YieldStep × State) × State)
  | [], s => pure ([], s)
  | p :: ps, s => do
    let s₁ ← p.run s
    let (tr, s₂) ← runSteps ps s₁
    pure ((p, s₁) :: tr, s₂)

/-- The part of `yield(ty)` above `case Acquire`: the state in which
`case Acquire` is reached, and the record of the statement groups executed on
the way with the state each of them left. -/
def yieldTrace (ty : YieldType) (s : State) :
    Except Fault (List (YieldStep × State) × State) :=
  runSteps (yieldPrologue ty) s

/-- Where the `return` of line 284 and the end of `yield` lead: to the caller of
`yield` in Acquire mode, into the worker's code after the switch of contexts of
Block and Return mode. -/
def YieldType.back : YieldType → Control
  | .Acquire => .returned
  | _ => .worker

/-- `yield(YieldType ty)`: the three cases of the switch, each falling through
to the next. -/
def yield (ty : YieldType) (s : State) : Except Fault (State × Control) := do
  let (_, s) ← yieldTrace ty s
  yieldAcquire ty.back s

/-- The call `yield(ty)` that ends a function, or none: the function returns. -/
def tailYield (r : State × Option YieldType) : Except Fault (State × Control) :=
  match r.2 with
  | none => pure (r.1, .returned)
  | some ty => yield ty r.1

/-! ## Barrier -/

/-- The condition `m_value > 0 && --m_value == 0` of `Barrier::signal`: its
truth value and the barrier after its side effect (the decrement is evaluated
only when `m_value > 0`). -/
def Barrier.countDown (b : Barrier) : Bool × Barrier :=
  if b.m_value > 0 then
    let b := { b with m_value := b.m_value - 1 }
    (decide (b.m_value = 0), b)
  else
    (false, b)

/-- `Barrier::signal()` on the barrier at address `self`. -/
def Barrier.signal (self : Nat) (s : State) : Except Fault State := do
  let b ← derefBarrier s self
  if b.m_lock then throw Fault.spin
  let b := { b with m_lock := true }
  let (zero, b) := Barrier.countDown b
  if zero then
    let head := b.m_head
    let tail := b.m_tail
    let s := s.setSync self (.barrier { b with m_head := none, m_tail := none, m_lock := false })
    if head = none then
      pure s
    else
      append head tail s
  else
    pure (s.setSync self (.barrier { b with m_lock := false }))

/-- `Barrier::wait()`, lines 120-142: everything before the call of `yield`.
The second component is `some Block` when line 143 is reached and `none` when
the function returns at line 126. -/
def Barrier.waitPark (self : Nat) (s : State) : Except Fault (State × Option YieldType) := do
  let fiber := s.EXEC_FIBER
  let b ← derefBarrier s self
  if b.m_lock then throw Fault.spin
  let b := { b with m_lock := true }
  if b.m_value = 0 then
    pure (s.setSync self (.barrier { b with m_lock := false }), none)
  else
    let s := s.setSync self (.barrier b)
    let (a, f) ← derefFiber s fiber
    let s := s.setFiber a { f with m_status := .Blocked }
    let s ←
      match b.m_tail with
      | none => pure (s.setSync self (.barrier { b with m_head := fiber, m_tail := fiber }))
      | some t => do
        let (_, tf) ← derefFiber s (some t)
        let s := s.setFiber t { tf with next := fiber }
        pure (s.setSync self (.barrier { b with m_tail := fiber }))
    pure ({ s with HELD_LOCK := some self }, some .Block)

/-- `Barrier::wait()`. -/
def Barrier.wait (self : Nat) (s : State) : Except Fault (State × Control) := do
  tailYield (← Barrier.waitPark self s)

/-! ## Semaphore -/

/-- `Semaphore::signal()` on the semaphore at address `self`. -/
def Semaphore.signal (self : Nat) (s : State) : Except Fault State := do
  let m ← derefSemaphore s self
  if m.m_lock then throw Fault.spin
  let m := { m with m_lock := true }
  if m.m_head ≠ none then
    let head := m.m_head
    let tail := m.m_tail
    let m ←
      if m.m_head = m.m_tail then
        pure { m with m_head := none, m_tail := none }
      else do
        let (_, hf) ← derefFiber s head
        pure { m with m_head := hf.next }
    let s := s.setSync self (.semaphore { m with m_lock := false })
    append head tail s
  else
    pure (s.setSync self (.semaphore { m with m_value := m.m_value + 1, m_lock := false }))

/-- `Semaphore::wait()`, lines 174-196: everything before the call of `yield`.
The second component is `some Block` when line 197 is reached and `none` when
the function returns at line 180. -/
def Semaphore.waitPark (self : Nat) (s : State) : Except Fault (State × Option YieldType) := do
  let m ← derefSemaphore s self
  if m.m_lock then throw Fault.spin
  let m := { m with m_lock := true }
  if m.m_value > 0 then
    pure (s.setSync self (.semaphore { m with m_value := m.m_value - 1, m_lock := false }), none)
  else
    let s := s.setSync self (.semaphore m)
    let fiber := s.EXEC_FIBER
    let (a, f) ← derefFiber s fiber
    let s := s.setFiber a { f with m_status := .Blocked }
    let s ←
      match m.m_tail with
      | none => pure (s.setSync self (.semaphore { m with m_head := fiber, m_tail := fiber }))
      | some t => do
        let (_, tf) ← derefFiber s (some t)
        pure (s.setFiber t { tf with next := fiber })
    pure ({ s with HELD_LOCK := some self }, some .Block)

/-- `Semaphore::wait()`. -/
def Semaphore.wait (self : Nat) (s : State) : Except Fault (State × Control) := do
  tailYield (← Semaphore.waitPark self s)

/-! ## Running fibers and submitting tasks -/

/-- The virtual call `m_signal->signal()` through a `Sync*`. -/
def Sync.signal (self : Nat) (s : State) : Except Fault State :=
  match s.syncs self with
  | some (.barrier _) => Barrier.signal self s
  | some (.semaphore _) => Semaphore.signal self s
  | none => .error .dangling

/-- `execFiber()`, lines 224-228, for the local `fiber`: what happens once the
task function has returned, up to the call of `yield(Return)`. -/
def execFiberDone (fiber : Option Nat) (s : State) : Except Fault State := do
  let (_, f) ← derefFiber s fiber
  let s ←
    match f.m_signal with
    | none => pure s
    | some sig => Sync.signal sig s
  let (a, f) ← derefFiber s fiber
  pure (s.setFiber a { f with m_status := .Done })

/-- `execFiber()`, lines 224-229, for the local `fiber`: everything after the
return of the task function, the final `yield(Return)` included. -/
def execFiberEnd (fiber : Option Nat) (s : State) : Except Fault (State × Control) := do
  let s ← execFiberDone fiber s
  yield .Return s

/-- `execFiber()`.  The task is user code behind a function address; `task`
gives, for an address and a parameter, the effect of that call on the state
from its start to its return. -/
def execFiber (task : Nat → Nat → State → Except Fault State) (s : State) :
    Except Fault (State × Control) := do
  let fiber := s.EXEC_FIBER
  let (_, f) ← derefFiber s fiber
  let s ← task f.m_task f.m_param s
  execFiberEnd fiber s

/-- Modelled from the spec: the constructor of `Barrier` is in the absent
`fiber.hpp`; a new barrier has no waiters and a clear flag.  Its counter is
assigned by `runTasks`. -/
def Barrier.new : Barrier :=
  { m_lock := false, m_value := 0, m_head := none, m_tail := none }

/-- Read slot `i` of the local array `fibers`. -/
def slot (fibers : List (Option Nat)) (i : Nat) : Except Fault (Option Nat) :=
  match fibers[i]? with
  | none => .error .outOfBounds
  | some p => .ok p

/-- One iteration of the loop of `runTasks`, lines 355-369, for index `i`.
`alloc i` is the address `new Fiber` returns and `junk i` the indeterminate
contents of the new object. -/
def runTasksBody (alloc : Nat → Nat) (junk : Nat → Fiber) (decl : List TaskDecl)
    (barrier : Option Nat) (i : Nat) (fibers : List (Option Nat)) (s : State) :
    Except Fault (List (Option Nat) × State) := do
  let fiber := alloc i
  let f := junk i
  let f := { f with m_fiberStack := fiber + STACK_SIZE }
  let f := { f with m_fiberBase := f.m_fiberStack }
  let d ← match decl[i]? with
    | none => throw Fault.outOfBounds
    | some d => pure d
  let f := { f with m_task := d.m_task, m_param := d.m_param, m_signal := barrier,
                    m_status := .New }
  let s := s.setFiber fiber f
  if fibers.length ≤ i then throw Fault.outOfBounds
  let fibers := fibers.set i (some fiber)
  if i > 0 then
    let prev ← slot fibers (i - 1)
    let (p, pf) ← derefFiber s prev
    pure (fibers, s.setFiber p { pf with next := some fiber })
  else
    pure (fibers, s)

/-- The loop `for (uint64_t i = 0; i < numTasks; i++)` of `runTasks`, with `n`
iterations left to run from index `i`. -/
def runTasksLoop (alloc : Nat → Nat) (junk : Nat → Fiber) (decl : List TaskDecl)
    (barrier : Option Nat) : Nat → Nat → List (Option Nat) → State →
    Except Fault (List (Option Nat) × State)
  | 0, _, fibers, s => pure (fibers, s)
  | n + 1, i, fibers, s => do
    let (fibers, s) ← runTasksBody alloc junk decl barrier i fibers s
    runTasksLoop alloc junk decl barrier n (i + 1) fibers s

/-- The last statement of `runTasks`, line 372:
`append(fibers[0], fibers[numTasks - 1]);`, where `numTasks - 1` is computed in
`uint64_t`, that is modulo `2 ^ 64`. -/
def runTasksAppend (numTasks : Nat) (fibers : List (Option Nat)) (s : State) :
    Except Fault State := do
  let head ← slot fibers 0
  let tail ← slot fibers ((2 ^ 64 - 1 + numTasks) % 2 ^ 64)
  append head tail s

/-- `runTasks(decl, numTasks, p_barrier)`.  `p_barrier` says whether the
out-pointer is non-null; the result carries the pointer stored through it.
`balloc` is the address `new Barrier` returns.  The local array `fibers` has
`numTasks` slots (their indeterminate initial contents are never read before
they are written; they are `none` here). -/
def runTasks (alloc : Nat → Nat) (junk : Nat → Fiber) (balloc : Nat)
    (decl : List TaskDecl) (numTasks : Nat) (p_barrier : Bool) (s : State) :
    Except Fault (State × Option Nat) := do
  let (barrier, s) :=
    if p_barrier then
      (some balloc, s.setSync balloc (.barrier { Barrier.new with m_value := numTasks }))
    else
      (none, s)
  let fibers := List.replicate numTasks (none : Option Nat)
  let (fibers, s) ← runTasksLoop alloc junk decl barrier numTasks 0 fibers s
  let s ← runTasksAppend numTasks fibers s
  pure (s, barrier)

/-! ## Intrusive lists as abstract sequences -/

/-- The `next` link stored at address `a`; `none` also when no fiber lives at `a`. -/
def nextOf (h : Nat → Option Fiber) (a : Nat) : Option Nat :=
  (h a).bind Fiber.next

/-- Each fiber of the list has the next fiber of the list as its `next` link.
The link of the last one is not constrained. -/
def Linked (h : Nat → Option Fiber) : List Nat → Prop
  | [] => True
  | [_] => True
  | a :: b :: r => nextOf h a = some b ∧ Linked h (b :: r)

instance Linked.instDecidable (h : Nat → Option Fiber) : (l : List Nat) → Decidable (Linked h l)
  | [] => isTrue trivial
  | [_] => isTrue trivial
  | _ :: b :: r => @instDecidableAnd _ _ _ (Linked.instDecidable h (b :: r))

/-- The intrusive FIFO with head pointer `head` and tail pointer `tail` holds
exactly the fibers `l`, in this order: `head` is the first and `tail` the last
element (both null for the empty list), the elements are distinct live fibers,
and each one's `next` link is its successor in `l`. -/
def IsQueue (h : Nat → Option Fiber) (head tail : Option Nat) (l : List Nat) : Prop :=
  head = l.head? ∧ tail = l.getLast? ∧ l.Nodup ∧ (∀ a ∈ l, (h a).isSome = true) ∧ Linked h l

instance IsQueue.instDecidable (h : Nat → Option Fiber) (head tail : Option Nat)
    (l : List Nat) : Decidable (IsQueue h head tail l) :=
  inferInstanceAs (Decidable (_ ∧ _ ∧ _ ∧ _ ∧ _))

/-- The fiber heap `h'` holds the same fibers as `h`, at the same addresses and
with the same fields, except possibly for their `next` links. -/
def SameFibersUpToNext (h h' : Nat → Option Fiber) : Prop :=
  ∀ a, (h' a).map (fun f => { f with next := none }) =
       (h a).map (fun f => { f with next := none })

/-! ## Definitions used to state the properties of `runTasks` -/

/-- The fiber record `runTasks` builds in iteration `i` for the declaration `d`,
before any `next` link is written: lines 357-363. -/
def taskFiber (alloc : Nat → Nat) (junk : Nat → Fiber) (barrier : Option Nat) (i : Nat)
    (d : TaskDecl) : Fiber :=
  { junk i with
    m_fiberStack := alloc i + STACK_SIZE, m_fiberBase := alloc i + STACK_SIZE,
    m_task := d.m_task, m_param := d.m_param, m_signal := barrier, m_status := .New }

/-- The state of the loop of `runTasks` after `k` iterations, started in `s0`
with an array of `N` slots: slots `0..k-1` hold the new addresses, only the
fiber heap differs from `s0`, and it differs exactly at the new addresses,
where fiber `j` is the record built for declaration `j`, linked to fiber `j+1`
once that one exists. -/
def LoopInv (alloc : Nat → Nat) (junk : Nat → Fiber) (decl : List TaskDecl)
    (barrier : Option Nat) (N : Nat) (s0 : State) (k : Nat) (fibers : List (Option Nat))
    (s : State) : Prop :=
  fibers.length = N ∧ (∀ j, j < k → fibers[j]? = some (some (alloc j))) ∧
  s = { s0 with fibers := s.fibers } ∧
  (∀ x, (∀ j, j < k → x ≠ alloc j) → s.fibers x = s0.fibers x) ∧
  (∀ j, j < k → ∃ d, decl[j]? = some d ∧
    s.fibers (alloc j) = some { taskFiber alloc junk barrier j d with
      next := if j + 1 < k then some (alloc (j + 1)) else (junk j).next })

/-- `n` successive calls of `acquireNext`: the pointers they return, in call
order, and the state after the last one. -/
def acquireMany : Nat → State → Except Fault (List (Option Nat) × State)
  | 0, s => pure ([], s)
  | n + 1, s => do
    let (p, s) ← acquireNext s
    let (ps, s) ← acquireMany n s
    pure (p :: ps, s)

/-- The object with its spin flag cleared. -/
def Sync.unlock : Sync → Sync
  | .barrier b => .barrier { b with m_lock := false }
  | .semaphore m => .semaphore { m with m_lock := false }

/-- The status a fiber has after `yield` has dispatched it: `New` and `Blocked`
become `Active`, the other two are left alone by the switch of line 304. -/
def dispatchedStatus : FiberStatus → FiberStatus
  | .New => .Active
  | .Blocked => .Active
  | st => st

/-- Where control goes when `yield` has dispatched a fiber with this status. -/
def dispatchedControl (back : Control) (g : Nat) : FiberStatus → Control
  | .New => .enter g
  | .Blocked => .resume g
  | _ => back

/-! ## Definitions used to state the barrier properties -/

/-- The counter of the barrier at address `b`, when a barrier lives there. -/
def counterOf (s : State) (b : Nat) : Option Int :=
  match s.syncs b with
  | some (.barrier B) => some B.m_value
  | _ => none

/-- `Completions b k s s'`: the program went from `s` to `s'`, and on the way
exactly `k` fibers whose completion signal is the barrier `b` finished their
task in `execFiber` (lines 224-229 ran for them); whatever else happened in
between did not change the counter of `b` (no other `signal` on `b`). -/
inductive Completions (b : Nat) : Nat → State → State → Prop where
  | start (s : State) : Completions b 0 s s
  | other {k : Nat} {s s₁ s₂ : State} :
      Completions b k s s₁ → counterOf s₂ b = counterOf s₁ b → Completions b k s s₂
  | finish {k : Nat} {s s₁ s₂ : State} (f : Nat) (ff : Fiber) (c : Control) :
      Completions b k s s₁ → s₁.fibers f = some ff → ff.m_signal = some b →
      execFiberEnd (some f) s₁ = .ok (s₂, c) → Completions b (k + 1) s s₂

/-- One step of the life of the barrier `b`: a completed call of
`Barrier::wait`, a completed call of `Barrier::signal`, or anything else that
leaves the barrier object alone. -/
inductive BarrierStep (b : Nat) : State → State → Prop where
  | wait {s s' : State} {c : Control} : Barrier.wait b s = .ok (s', c) → BarrierStep b s s'
  | signal {s s' : State} : Barrier.signal b s = .ok s' → BarrierStep b s s'
  | other {s s' : State} : s'.syncs b = s.syncs b → BarrierStep b s s'

/-! ## Definitions used to state the status and semaphore properties -/

/-- The status of the fiber at address `a`, when a fiber lives there. -/
def statusOf (s : State) (a : Nat) : Option FiberStatus :=
  (s.fibers a).map Fiber.m_status

/-- Modelled from the spec: the constructor of `Semaphore` is in the absent
`fiber.hpp`; the spec has a semaphore "default-constructed with counter 0", and
a new one has no waiters and a clear flag.  The caller may then assign an
initial counter. -/
def Semaphore.new : Semaphore :=
  { m_lock := false, m_value := 0, m_head := none, m_tail := none }

/-- The semaphore invariant of the spec: the counter is not negative, and a
positive counter goes with an empty waiter list (`m_head` is null, which is
what `Semaphore::signal` tests). -/
def SemaphoreInv (M : Semaphore) : Prop :=
  0 ≤ M.m_value ∧ (0 < M.m_value → M.m_head = none)

instance SemaphoreInv.instDecidable (M : Semaphore) : Decidable (SemaphoreInv M) :=
  inferInstanceAs (Decidable (_ ∧ (_ → _)))

/-- One step of the life of the semaphore `m`: a completed call of
`Semaphore::wait`, a completed call of `Semaphore::signal`, or anything else
that leaves the semaphore object alone. -/
inductive SemaphoreStep (m : Nat) : State → State → Prop where
  | wait {s s' : State} {c : Control} : Semaphore.wait m s = .ok (s', c) → SemaphoreStep m s s'
  | signal {s s' : State} : Semaphore.signal m s = .ok s' → SemaphoreStep m s s'
  | other {s s' : State} : s'.syncs m = s.syncs m → SemaphoreStep m s s'

/-- What has happened on a semaphore: the completed `signal` calls, the `wait`
calls that returned to their caller at once, the `wait` calls that parked
their fiber, and the `signal` calls that found a waiter and released the
waiter list to the ready queue instead of incrementing the counter. -/
structure Tally where
  signals : Nat
  returned : Nat
  parked : Nat
  released : Nat
  deriving DecidableEq, Repr

/-- Whether the semaphore at `m` has a waiter, as `Semaphore::signal` tests it:
`m_head != nullptr`. -/
def hasWaiter (s : State) (m : Nat) : Bool :=
  match s.syncs m with
  | some (.semaphore M) => M.m_head.isSome
  | _ => false

/-- `SemaphoreRun m s t s'`: the program went from `s` to `s'` by completed
`Semaphore::wait` and `Semaphore::signal` calls on the semaphore `m` (and steps
that leave the semaphore object alone), and `t` tallies these calls.  A `wait`
has returned at once exactly when control is back at its caller
(`Control.returned`); otherwise it has parked its fiber. -/
inductive SemaphoreRun (m : Nat) : State → Tally → State → Prop where
  | start (s : State) : SemaphoreRun m s ⟨0, 0, 0, 0⟩ s
  | other {s s₁ s₂ : State} {t : Tally} :
      SemaphoreRun m s t s₁ → s₂.syncs m = s₁.syncs m → SemaphoreRun m s t s₂
  | waitReturned {s s₁ s₂ : State} {t : Tally} :
      SemaphoreRun m s t s₁ → Semaphore.wait m s₁ = .ok (s₂, .returned) →
      SemaphoreRun m s { t with returned := t.returned + 1 } s₂
  | waitParked {s s₁ s₂ : State} {t : Tally} {c : Control} :
      SemaphoreRun m s t s₁ → Semaphore.wait m s₁ = .ok (s₂, c) → c ≠ .returned →
      SemaphoreRun m s { t with parked := t.parked + 1 } s₂
  | signal {s s₁ s₂ : State} {t : Tally} :
      SemaphoreRun m s t s₁ → Semaphore.signal m s₁ = .ok s₂ →
      SemaphoreRun m s { t with signals := t.signals + 1,
                                released := t.released + (if hasWaiter s₁ m then 1 else 0) } s₂

/-! ## Definitions used to state the properties of `yield` -/

/-- The spin flag of the object behind a `Sync*`. -/
def Sync.locked : Sync → Bool
  | .barrier b => b.m_lock
  | .semaphore m => m.m_lock

/-- The head and tail pointer of the waiter list of the object behind a `Sync*`. -/
def Sync.waiters : Sync → Option Nat × Option Nat
  | .barrier b => (b.m_head, b.m_tail)
  | .semaphore m => (m.m_head, m.m_tail)

/-- The fiber at address `a` is on the waiter list (from `m_head` through
`m_tail`) of some synchronisation object. -/
def OnWaiterList (s : State) (a : Nat) : Prop :=
  ∃ o obj l, s.syncs o = some obj ∧
    IsQueue s.fibers obj.waiters.1 obj.waiters.2 l ∧ a ∈ l

/-! ## Definitions used to state the status transitions -/

/-- The status transitions of the spec: `New → Active`, `Active → Blocked`,
`Active → Done`, `Blocked → Active`; a status may also stay as it is. -/
def Allowed (a b : FiberStatus) : Prop :=
  a = b ∨ (a = .New ∧ b = .Active) ∨ (a = .Active ∧ b = .Blocked) ∨
    (a = .Active ∧ b = .Done) ∨ (a = .Blocked ∧ b = .Active)

instance Allowed.instDecidable (a b : FiberStatus) : Decidable (Allowed a b) :=
  inferInstanceAs (Decidable (_ ∨ _ ∨ _ ∨ _ ∨ _))

/-- The object behind a `Sync*` without its flag and its counter: its kind and
the head and tail pointer of its waiter list. -/
def Sync.shape : Sync → Sync
  | .barrier b => .barrier { m_lock := false, m_value := 0, m_head := b.m_head, m_tail := b.m_tail }
  | .semaphore m =>
    .semaphore { m_lock := false, m_value := 0, m_head := m.m_head, m_tail := m.m_tail }

/-- The head and tail pointer of the list with index `i`: the ready queue for
`none`, the waiter list of the object at address `o` for `some o`. -/
def listPtrs (s : State) : Option Nat → Option (Option Nat × Option Nat)
  | none => some (s.HEAD, s.TAIL)
  | some o => (s.syncs o).map Sync.waiters

/-- `WellFormed s L`: the lists of the state `s` are intact, and `L` gives
their contents.  The ready queue and the waiter list of every object are
well-formed intrusive lists, no fiber is on two lists, the fibers on the ready
queue are `New` or `Blocked` and the waiting ones are `Blocked`, a semaphore
has `m_head = m_tail`, and the queue flag is free. -/
structure WellFormed (s : State) (L : Option Nat → List Nat) : Prop where
  queue : ∀ i p, listPtrs s i = some p → IsQueue s.fibers p.1 p.2 (L i)
  empty : ∀ i, listPtrs s i = none → L i = []
  disjoint : ∀ i j a, i ≠ j → a ∈ L i → a ∉ L j
  ready : ∀ a, a ∈ L none → statusOf s a = some .New ∨ statusOf s a = some .Blocked
  waiting : ∀ o a, a ∈ L (some o) → statusOf s a = some .Blocked
  single : ∀ o m, s.syncs o = some (.semaphore m) → m.m_head = m.m_tail
  lock : s.QUEUE_LOCK = false

/-- One operation of the library, completed: `runTasks` (for at most `2 ^ 64 - 1`
declarations and fiber addresses from `new` that are fresh and distinct),
`yield` in any mode, `Semaphore::wait` and `Barrier::wait` called by the
worker's current fiber while it is `Active`, `Semaphore::signal`,
`Barrier::signal`, and the part of `execFiber` after the return of the task of
a fiber that is `Active`. -/
inductive Operation : State → State → Prop where
  | runTasks {s s' : State} (alloc : Nat → Nat) (junk : Nat → Fiber) (balloc : Nat)
      (decl : List TaskDecl) (N : Nat) (p_barrier : Bool) (b : Option Nat) :
      N < 2 ^ 64 → decl.length = N →
      (∀ i j, i < N → j < N → alloc i = alloc j → i = j) →
      (∀ j, j < N → s.fibers (alloc j) = none) →
      czsfiber.runTasks alloc junk balloc decl N p_barrier s = .ok (s', b) → Operation s s'
  | yield {s s' : State} (ty : YieldType) (c : Control) :
      czsfiber.yield ty s = .ok (s', c) → Operation s s'
  | semaphoreWait {s s' : State} (m f : Nat) (c : Control) :
      s.EXEC_FIBER = some f → statusOf s f = some .Active →
      Semaphore.wait m s = .ok (s', c) → Operation s s'
  | barrierWait {s s' : State} (b f : Nat) (c : Control) :
      s.EXEC_FIBER = some f → statusOf s f = some .Active →
      Barrier.wait b s = .ok (s', c) → Operation s s'
  | semaphoreSignal {s s' : State} (m : Nat) :
      Semaphore.signal m s = .ok s' → Operation s s'
  | barrierSignal {s s' : State} (b : Nat) :
      Barrier.signal b s = .ok s' → Operation s s'
  | execFiber {s s' : State} (f : Nat) (c : Control) :
      statusOf s f = some .Active → execFiberEnd (some f) s = .ok (s', c) → Operation s s'

/-- The contents of the lists of `demoState`: the ready queue `[1, 2]` and the
waiters `[3, 4]` of the barrier `0`. -/
def demoLists : Option Nat → List Nat
  | none => [1, 2]
  | some 0 => [3, 4]
  | _ => []

/-! ## Concrete states on which the theorems are instantiated -/

/-- A fiber record with the given status and `next` link and zero elsewhere. -/
def mkFiber (status : FiberStatus) (next : Option Nat) : Fiber :=
  { m_fiberStack := 0, m_fiberBase := 0, m_task := 0, m_param := 0, m_signal := none,
    m_status := status, next := next }

/-- A state with the ready queue `[1, 2]`, the barrier `0` (counter 1) on which
the fibers `[3, 4]` wait, the idle semaphore `1` (counter 0), and the `Active`
fiber `5` running on the worker. -/
def demoState : State :=
  { fibers := fun a =>
      if a = 1 then some (mkFiber .New (some 2))
      else if a = 2 then some (mkFiber .New none)
      else if a = 3 then some (mkFiber .Blocked (some 4))
      else if a = 4 then some (mkFiber .Blocked none)
      else if a = 5 then some (mkFiber .Active none)
      else none
    syncs := fun a =>
      if a = 0 then some (.barrier { m_lock := false, m_value := 1, m_head := some 3, m_tail := some 4 })
      else if a = 1 then some (.semaphore { m_lock := false, m_value := 0, m_head := none, m_tail := none })
      else none
    QUEUE_LOCK := false
    HEAD := some 1
    TAIL := some 2
    HELD_LOCK := none
    EXEC_FIBER := some 5
    P_BASE := 1000
    P_STACK := 960
    rsp := 5000
    rbp := 5040 }

/-- The state `demoState` with an empty ready queue. -/
def demoEmpty : State :=
  { demoState with HEAD := none, TAIL := none }

/-- A state in which the fiber `1` waits on the semaphore `0` (counter 0), the
ready queue is empty and the `Active` fiber `2` runs on the worker. -/
def oneWaiter : State :=
  { fibers := fun a =>
      if a = 1 then some (mkFiber .Blocked none)
      else if a = 2 then some (mkFiber .Active none)
      else none
    syncs := fun a =>
      if a = 0 then
        some (.semaphore { m_lock := false, m_value := 0, m_head := some 1, m_tail := some 1 })
      else none
    QUEUE_LOCK := false
    HEAD := none
    TAIL := none
    HELD_LOCK := none
    EXEC_FIBER := some 2
    P_BASE := 1000
    P_STACK := 960
    rsp := 5000
    rbp := 5040 }

/-- Two task declarations. -/
def demoDecl : List TaskDecl :=
  [{ m_task := 7, m_param := 70 }, { m_task := 8, m_param := 80 }]

/-- An allocator that hands out the addresses `10, 11, ...`. -/
def demoAlloc (i : Nat) : Nat := 10 + i

/-- Indeterminate contents of a fresh fiber object. -/
def demoJunk (_ : Nat) : Fiber := mkFiber .Done (some 99)

/-- The state a completed call leaves; `demoEmpty` stands in when the call has
no completed result. -/
def stateAfter {α : Type} (r : Except Fault (State × α)) : State :=
  match r with
  | .ok (s, _) => s
  | .error _ => demoEmpty

/-- The state a completed call without a result value leaves; `demoEmpty`
stands in when the call has no completed result. -/
def stateOf (r : Except Fault State) : State :=
  match r with
  | .ok s => s
  | .error _ => demoEmpty

/-- The state after two tasks have been submitted, with a barrier at address
`20`, to the empty ready queue of a worker that runs no fiber. -/
def submitted : State :=
  stateAfter (runTasks demoAlloc demoJunk 20 demoDecl 2 true
    { demoEmpty with EXEC_FIBER := none })

/-- The state after the worker has dispatched the first submitted fiber. -/
def firstRunning : State := stateAfter (yield .Acquire submitted)

/-- The state after the first fiber has finished in `execFiber`. -/
def firstDone : State := stateAfter (execFiberEnd (some 10) firstRunning)

/-- The state after the second fiber has finished in `execFiber`. -/
def bothDone : State := stateAfter (execFiberEnd (some 11) firstDone)

/-- The state `demoState` with the counter of its semaphore `1` set to 1. -/
def semOne : State :=
  demoState.setSync 1 (.semaphore { Semaphore.new with m_value := 1 })

/-- The state after the current fiber of `semOne` has taken the one unit of the
semaphore `1`: its `wait` returned at once. -/
def semTaken : State := stateAfter (Semaphore.wait 1 semOne)

/-- The state after the current fiber of `semTaken` has called `wait` again and
parked; the worker is now running the fiber `1`. -/
def semParked : State := stateAfter (Semaphore.wait 1 semTaken)

/-- The state after a `signal` in `semParked` has released the parked fiber. -/
def semReleased : State := stateOf (Semaphore.signal 1 semParked)

/-- The state after the current fiber of `demoState` has run the part of
`Barrier::wait` before `yield` on the barrier `0`: it is parked behind the
waiters `3` and `4`, and the flag of the barrier is held. -/
def barParked : State := stateAfter (Barrier.waitPark 0 demoState)

/-- The state after the first submitted fiber, running in `firstRunning`, has
signalled its barrier and has been marked `Done`, before its final
`yield(Return)`. -/
def firstMarked : State := stateOf (execFiberDone (some 10) firstRunning)

/-! ## Lemmas on intrusive lists -/

theorem linked_tail {h : Nat → Option Fiber} {a : Nat} {r : List Nat}
    (hl : Linked h (a :: r)) : Linked h r := by
  cases r with
  | nil => trivial
  | cons b r => exact hl.2

theorem linked_of_agree {h h' : Nat → Option Fiber} :
    ∀ {l : List Nat}, (∀ a ∈ l.dropLast, nextOf h' a = nextOf h a) → Linked h l → Linked h' l
  | [], _, _ => trivial
  | [_], _, _ => trivial
  | a :: b :: r, hag, hl => by
    refine ⟨?_, linked_of_agree (fun x hx => hag x ?_) hl.2⟩
    · rw [hag a (by simp)]
      exact hl.1
    · simp only [List.dropLast_cons₂, List.mem_cons]
      exact Or.inr hx

theorem linked_append {h : Nat → Option Fiber} :
    ∀ {l₁ l₂ : List Nat}, Linked h l₁ → Linked h l₂ →
      (∀ a b, l₁.getLast? = some a → l₂.head? = some b → nextOf h a = some b) →
      Linked h (l₁ ++ l₂)
  | [], _, _, h₂, _ => by simpa using h₂
  | [a], [], _, _, _ => trivial
  | [a], b :: r, _, h₂, hj => ⟨hj a b rfl rfl, h₂⟩
  | a :: c :: r, l₂, h₁, h₂, hj => by
    refine ⟨h₁.1, @linked_append h (c :: r) l₂ h₁.2 h₂ (fun x y hx hy => hj x y ?_ hy)⟩
    simpa [List.getLast?_cons_cons] using hx

theorem not_mem_dropLast_of_getLast {l : List Nat} (hn : l.Nodup) {a : Nat}
    (ha : l.getLast? = some a) : a ∉ l.dropLast := by
  have hl : l.dropLast ++ [a] = l := List.dropLast_append_getLast? a ha
  rw [← hl] at hn
  intro hmem
  have := List.disjoint_of_nodup_append hn hmem
  simp at this

theorem mem_of_mem_dropLast {l : List Nat} {a : Nat} (ha : a ∈ l.dropLast) : a ∈ l :=
  List.dropLast_subset l ha

theorem isQueue_tail {h : Nat → Option Fiber} {hd tl : Option Nat} {a b : Nat} {r : List Nat}
    (hq : IsQueue h hd tl (a :: b :: r)) : IsQueue h (some b) tl (b :: r) := by
  obtain ⟨_, qt, qnd, qlive, qlk⟩ := hq
  exact ⟨rfl, by simpa [List.getLast?_cons_cons] using qt, (List.nodup_cons.mp qnd).2,
    fun x hx => qlive x (List.mem_cons_of_mem _ hx), qlk.2⟩

theorem isQueue_unique {h : Nat → Option Fiber} :
    ∀ {l₁ l₂ : List Nat} {hd tl : Option Nat},
      IsQueue h hd tl l₁ → IsQueue h hd tl l₂ → l₁ = l₂
  | [], l₂, hd, tl, h₁, h₂ => by
    have : l₂.head? = none := by rw [← h₂.1, h₁.1]; rfl
    exact (List.head?_eq_none_iff.mp this).symm
  | [a], l₂, hd, tl, h₁, h₂ => by
    have hh : l₂.head? = some a := by rw [← h₂.1, h₁.1]; rfl
    have ht : l₂.getLast? = some a := by rw [← h₂.2.1, h₁.2.1]; rfl
    match l₂, hh, ht, h₂ with
    | [x], hh, _, _ => simpa using hh.symm
    | x :: y :: r, hh, ht, h₂ =>
      exfalso
      have hx : x = a := by simpa using hh
      subst hx
      rw [List.getLast?_cons_cons] at ht
      exact (List.nodup_cons.mp h₂.2.2.1).1 (List.mem_of_getLast?_eq_some ht)
  | a :: b :: r, l₂, hd, tl, h₁, h₂ => by
    have hh : l₂.head? = some a := by rw [← h₂.1, h₁.1]; rfl
    match l₂, hh, h₂ with
    | [x], hh, h₂ =>
      exfalso
      have hx : x = a := by simpa using hh
      subst hx
      have ht : (x :: b :: r).getLast? = some x := by rw [← h₁.2.1, h₂.2.1]; rfl
      rw [List.getLast?_cons_cons] at ht
      exact (List.nodup_cons.mp h₁.2.2.1).1 (List.mem_of_getLast?_eq_some ht)
    | x :: y :: r₂, hh, h₂ =>
      have hx : x = a := by simpa using hh
      subst hx
      have hy : y = b := by
        have e₁ := h₁.2.2.2.2.1
        have e₂ := h₂.2.2.2.2.1
        rw [e₁] at e₂
        exact (Option.some.inj e₂).symm
      subst hy
      rw [isQueue_unique (isQueue_tail h₁) (isQueue_tail h₂)]

theorem nextOf_setFiber_ne (s : State) {a x : Nat} (f : Fiber) (hx : x ≠ a) :
    nextOf (s.setFiber a f).fibers x = nextOf s.fibers x := by
  simp [nextOf, State.setFiber, hx]

theorem nextOf_setFiber_eq (s : State) (a : Nat) (f : Fiber) :
    nextOf (s.setFiber a f).fibers a = f.next := by
  simp [nextOf, State.setFiber]

theorem isSome_setFiber (s : State) (a : Nat) (f : Fiber) {x : Nat}
    (h : (s.fibers x).isSome = true) : ((s.setFiber a f).fibers x).isSome = true := by
  unfold State.setFiber
  dsimp only
  split <;> simp [h]

theorem sameUpToNext_setFiber (s : State) (a : Nat) (f : Fiber) (n : Option Nat)
    (hf : s.fibers a = some f) :
    SameFibersUpToNext s.fibers (s.setFiber a { f with next := n }).fibers := by
  intro x
  by_cases hx : x = a
  · subst hx; simp [State.setFiber, hf]
  · simp [State.setFiber, hx]

theorem SameFibersUpToNext.trans {h₁ h₂ h₃ : Nat → Option Fiber}
    (h₁₂ : SameFibersUpToNext h₁ h₂) (h₂₃ : SameFibersUpToNext h₂ h₃) :
    SameFibersUpToNext h₁ h₃ := fun a => (h₂₃ a).trans (h₁₂ a)

/-! ## The ready queue: `append` and `acquireNext` -/

/-- What `append` does to a well-formed queue `q` and a well-formed segment `seg`
disjoint from it. -/
theorem append_ok (s : State) (q seg : List Nat) (head tail : Nat)
    (hlock : s.QUEUE_LOCK = false)
    (hq : IsQueue s.fibers s.HEAD s.TAIL q)
    (hseg : IsQueue s.fibers (some head) (some tail) seg)
    (hdisj : ∀ a ∈ seg, a ∉ q) :
    ∃ s', append (some head) (some tail) s = .ok s' ∧
      IsQueue s'.fibers s'.HEAD s'.TAIL (q ++ seg) ∧
      s'.TAIL = some tail ∧ (s'.fibers tail).isSome = true ∧ nextOf s'.fibers tail = none ∧
      SameFibersUpToNext s.fibers s'.fibers ∧
      s' = { s with fibers := s'.fibers, HEAD := s'.HEAD, TAIL := s'.TAIL } := by
  obtain ⟨qh, qt, qnd, qlive, qlk⟩ := hq
  obtain ⟨sh, st, snd, slive, slk⟩ := hseg
  have htmem : tail ∈ seg := List.mem_of_getLast?_eq_some st.symm
  have hsne : seg ≠ [] := List.ne_nil_of_mem htmem
  obtain ⟨tf, htf⟩ := Option.isSome_iff_exists.mp (slive tail htmem)
  have hndapp : (q ++ seg).Nodup :=
    List.Nodup.append qnd snd (fun a haq has => hdisj a has haq)
  have hlast : (q ++ seg).getLast? = some tail := by
    rw [List.getLast?_append_of_ne_nil _ hsne, ← st]
  set s₁ := s.setFiber tail { tf with next := none } with hs₁
  have hseg₁ : Linked s₁.fibers seg := by
    refine linked_of_agree (fun a ha => nextOf_setFiber_ne s _ ?_) slk
    intro h; subst h
    exact not_mem_dropLast_of_getLast snd st.symm ha
  cases hT : s.TAIL with
  | none =>
    have hqnil : q = [] := by
      rw [hT] at qt
      exact List.getLast?_eq_none_iff.mp qt.symm
    subst hqnil
    have hH : s.HEAD = none := by simpa using qh
    refine ⟨{ s₁ with HEAD := some head, TAIL := some tail }, ?_, ?_, rfl, ?_, ?_, ?_, ?_⟩
    · simp [append, derefFiber, htf, acquireLock, hlock, bind, Except.bind, pure, Except.pure,
        releaseLock, State.setFiber, hT, hs₁]
    · refine ⟨by simpa using sh, by simpa using st, by simpa using snd, ?_, by simpa using hseg₁⟩
      intro a ha
      exact isSome_setFiber _ _ _ (slive a (by simpa using ha))
    · simp [hs₁, State.setFiber]
    · simp [hs₁, nextOf, State.setFiber]
    · exact sameUpToNext_setFiber s tail tf none htf
    · cases s; simp_all [State.setFiber]
  | some T =>
    rw [hT] at qt
    have hTmem : T ∈ q := List.mem_of_getLast?_eq_some qt.symm
    have hTne : T ≠ tail := fun h => hdisj tail htmem (h ▸ hTmem)
    obtain ⟨Tf, hTf⟩ := Option.isSome_iff_exists.mp (qlive T hTmem)
    have hTf₁ : s₁.fibers T = some Tf := by simp [hs₁, State.setFiber, hTne, hTf]
    set s₂ := s₁.setFiber T { Tf with next := some head } with hs₂
    refine ⟨{ s₂ with TAIL := some tail }, ?_, ?_, rfl, ?_, ?_, ?_, ?_⟩
    · simp [append, derefFiber, htf, acquireLock, hlock, bind, Except.bind, pure, Except.pure,
        releaseLock, State.setFiber, hT, hs₁, hs₂, hTne, hTf]
    · refine ⟨?_, hlast.symm, hndapp, ?_, ?_⟩
      · have hqne : q ≠ [] := List.ne_nil_of_mem hTmem
        obtain ⟨a, r, rfl⟩ := List.exists_cons_of_ne_nil hqne
        simpa [hs₂, hs₁, State.setFiber] using qh
      · intro a ha
        have hlv : (s.fibers a).isSome = true := by
          rcases List.mem_append.mp ha with h | h
          · exact qlive a h
          · exact slive a h
        exact isSome_setFiber _ _ _ (isSome_setFiber _ _ _ hlv)
      · refine linked_append ?_ ?_ ?_
        · refine linked_of_agree (fun a ha => ?_) qlk
          have haT : a ≠ T := by
            intro h; subst h
            exact not_mem_dropLast_of_getLast qnd qt.symm ha
          have hat : a ≠ tail := by
            intro h; subst h
            exact hdisj _ htmem (mem_of_mem_dropLast ha)
          rw [hs₂, nextOf_setFiber_ne _ _ haT, hs₁, nextOf_setFiber_ne _ _ hat]
        · refine linked_of_agree (fun a ha => ?_) hseg₁
          have haT : a ≠ T := by
            intro h; subst h
            exact hdisj _ (mem_of_mem_dropLast ha) hTmem
          rw [hs₂, nextOf_setFiber_ne _ _ haT]
        · intro a b ha hb
          have haT : a = T := by
            rw [← qt] at ha; exact (Option.some.inj ha).symm
          have hbh : b = head := by
            rw [← sh] at hb; exact (Option.some.inj hb).symm
          subst haT; subst hbh
          rw [hs₂, nextOf_setFiber_eq]
    · simp [hs₂, hs₁, State.setFiber, hTne.symm]
    · simp [hs₂, hs₁, nextOf, State.setFiber, hTne.symm]
    · exact (sameUpToNext_setFiber s tail tf none htf).trans
        (sameUpToNext_setFiber s₁ T Tf (some head) hTf₁)
    · cases s; simp_all [State.setFiber]

/-- What `acquireNext` does to a well-formed queue `q`. -/
theorem acquireNext_ok (s : State) (q : List Nat)
    (hlock : s.QUEUE_LOCK = false)
    (hq : IsQueue s.fibers s.HEAD s.TAIL q) :
    (q = [] → acquireNext s = .ok (none, s)) ∧
    (∀ a r, q = a :: r → ∃ s', acquireNext s = .ok (some a, s') ∧
      IsQueue s'.fibers s'.HEAD s'.TAIL r ∧
      ((s'.HEAD = none ∧ s'.TAIL = none) ↔ r = []) ∧
      s' = { s with HEAD := s'.HEAD, TAIL := s'.TAIL }) := by
  obtain ⟨qh, qt, qnd, qlive, qlk⟩ := hq
  constructor
  · rintro rfl
    have hH : s.HEAD = none := by simpa using qh
    simp [acquireNext, acquireLock, hlock, bind, Except.bind, pure, Except.pure, hH, releaseLock]
    cases s; simp_all
  · rintro a r rfl
    have hH : s.HEAD = some a := by simpa using qh
    cases r with
    | nil =>
      have hT : s.TAIL = some a := by simpa using qt
      refine ⟨{ s with HEAD := none, TAIL := none }, ?_, ?_, by simp, by simp⟩
      · simp [acquireNext, acquireLock, hlock, bind, Except.bind, pure, Except.pure, hH, hT,
          releaseLock]
      · simp [IsQueue, Linked]
    | cons b r =>
      have hT : s.TAIL = (b :: r).getLast? := by simpa [List.getLast?_cons_cons] using qt
      have hne : s.HEAD ≠ s.TAIL := by
        rw [hH, hT]
        intro h
        have hmem : a ∈ b :: r := List.mem_of_getLast?_eq_some h.symm
        exact (List.nodup_cons.mp qnd).1 hmem
      obtain ⟨af, haf⟩ := Option.isSome_iff_exists.mp (qlive a (by simp))
      have hnext : af.next = some b := by
        have := qlk.1
        simpa [nextOf, haf] using this
      refine ⟨{ s with HEAD := some b }, ?_, ?_, ?_, by simp⟩
      · simp [acquireNext, acquireLock, hlock, bind, Except.bind, pure, Except.pure, hH,
          releaseLock, derefFiber, haf, hnext]
        have : ¬ (some a = s.TAIL) := by rw [← hH]; exact hne
        simp [this]
      · exact ⟨by simp, hT, (List.nodup_cons.mp qnd).2,
          fun x hx => qlive x (List.mem_cons_of_mem _ hx), qlk.2⟩
      · simp

/-- C2: for every ready-queue content `q` (empty or not) and every segment `seg`
linked by `next` from `head` to `tail` and disjoint from `q`, `append(head, tail)`
completes and leaves the ready queue (`HEAD` through `TAIL`) equal to `q`
followed by `seg`, with `TAIL` the segment's tail and that tail's `next` link
null.  The list `q ++ seg` is the only content the resulting queue has, and
nothing but `next` links, `HEAD` and `TAIL` changes. -/
theorem append_splices_segment (s : State) (q seg : List Nat) (head tail : Nat)
    (hlock : s.QUEUE_LOCK = false)
    (hq : IsQueue s.fibers s.HEAD s.TAIL q)
    (hseg : IsQueue s.fibers (some head) (some tail) seg)
    (hdisj : ∀ a ∈ seg, a ∉ q) :
    ∃ s', append (some head) (some tail) s = .ok s' ∧
      IsQueue s'.fibers s'.HEAD s'.TAIL (q ++ seg) ∧
      (∀ l, IsQueue s'.fibers s'.HEAD s'.TAIL l → l = q ++ seg) ∧
      s'.TAIL = some tail ∧ (s'.fibers tail).isSome = true ∧ nextOf s'.fibers tail = none ∧
      SameFibersUpToNext s.fibers s'.fibers ∧
      s' = { s with fibers := s'.fibers, HEAD := s'.HEAD, TAIL := s'.TAIL } := by
  obtain ⟨s', hs', hq', hrest⟩ := append_ok s q seg head tail hlock hq hseg hdisj
  exact ⟨s', hs', hq', fun l hl => isQueue_unique hl hq', hrest⟩

/-- C2 at the ready queue `[1, 2]` and the segment `[3, 4]`. -/
theorem append_splices_segment_witness :
    ∃ s', append (some 3) (some 4) demoState = .ok s' ∧
      IsQueue s'.fibers s'.HEAD s'.TAIL ([1, 2] ++ [3, 4]) ∧
      (∀ l, IsQueue s'.fibers s'.HEAD s'.TAIL l → l = [1, 2] ++ [3, 4]) ∧
      s'.TAIL = some 4 ∧ (s'.fibers 4).isSome = true ∧ nextOf s'.fibers 4 = none ∧
      SameFibersUpToNext demoState.fibers s'.fibers ∧
      s' = { demoState with fibers := s'.fibers, HEAD := s'.HEAD, TAIL := s'.TAIL } :=
  append_splices_segment demoState [1, 2] [3, 4] 3 4 rfl (by decide) (by decide) (by decide)

/-- C3: for every well-formed ready queue `q`, `acquireNext` returns null and
leaves the whole state unchanged when `q` is empty; otherwise it returns the
first fiber and leaves the queue equal to the remaining fibers in their
original order, changing only `HEAD` and `TAIL`, which are both null exactly
when the returned fiber was the only one. -/
theorem acquireNext_pops_front (s : State) (q : List Nat)
    (hlock : s.QUEUE_LOCK = false)
    (hq : IsQueue s.fibers s.HEAD s.TAIL q) :
    (q = [] → acquireNext s = .ok (none, s)) ∧
    (∀ a r, q = a :: r → ∃ s', acquireNext s = .ok (some a, s') ∧
      IsQueue s'.fibers s'.HEAD s'.TAIL r ∧
      (∀ l, IsQueue s'.fibers s'.HEAD s'.TAIL l → l = r) ∧
      ((s'.HEAD = none ∧ s'.TAIL = none) ↔ r = []) ∧
      s' = { s with HEAD := s'.HEAD, TAIL := s'.TAIL }) := by
  refine ⟨(acquireNext_ok s q hlock hq).1, fun a r hqa => ?_⟩
  obtain ⟨s', hs', hq', hrest⟩ := (acquireNext_ok s q hlock hq).2 a r hqa
  exact ⟨s', hs', hq', fun l hl => isQueue_unique hl hq', hrest⟩

/-- C3 at the ready queue `[1, 2]`. -/
theorem acquireNext_pops_front_witness :
    (([1, 2] : List Nat) = [] → acquireNext demoState = .ok (none, demoState)) ∧
    (∀ a r, [1, 2] = a :: r → ∃ s', acquireNext demoState = .ok (some a, s') ∧
      IsQueue s'.fibers s'.HEAD s'.TAIL r ∧
      (∀ l, IsQueue s'.fibers s'.HEAD s'.TAIL l → l = r) ∧
      ((s'.HEAD = none ∧ s'.TAIL = none) ↔ r = []) ∧
      s' = { demoState with HEAD := s'.HEAD, TAIL := s'.TAIL }) :=
  acquireNext_pops_front demoState [1, 2] rfl (by decide)

/-! ## `runTasks` -/

theorem runTasksBody_ok (alloc : Nat → Nat) (junk : Nat → Fiber) (decl : List TaskDecl)
    (barrier : Option Nat) (N : Nat) (s0 : State)
    (hdecl : decl.length = N)
    (hinj : ∀ i j, i < N → j < N → alloc i = alloc j → i = j)
    (k : Nat) (hk : k < N) (fibers : List (Option Nat)) (s : State)
    (hinv : LoopInv alloc junk decl barrier N s0 k fibers s) :
    ∃ fibers' s', runTasksBody alloc junk decl barrier k fibers s = .ok (fibers', s') ∧
      LoopInv alloc junk decl barrier N s0 (k + 1) fibers' s' := by
  obtain ⟨hlen, hslots, hframe, hold, hnew⟩ := hinv
  have hdk : k < decl.length := by omega
  have hd : decl[k]? = some decl[k] := List.getElem?_eq_getElem hdk
  have hlk : ¬ fibers.length ≤ k := by omega
  rcases Nat.eq_zero_or_pos k with hk0 | hkpos
  · subst hk0
    refine ⟨fibers.set 0 (some (alloc 0)),
      s.setFiber (alloc 0) (taskFiber alloc junk barrier 0 decl[0]), ?_, ?_⟩
    · simp [runTasksBody, hd, hlk, bind, Except.bind, pure, Except.pure, taskFiber]
    · refine ⟨by simpa using hlen, ?_, ?_, ?_, ?_⟩
      · intro j hj
        have : j = 0 := by omega
        subst this
        simp [List.getElem?_set, hlen]; omega
      · rw [hframe]; simp [State.setFiber]
      · intro x hx
        have hx0 : x ≠ alloc 0 := hx 0 (by omega)
        simp only [State.setFiber, hx0, if_false]
        exact hold x (fun j hj => absurd hj (by omega))
      · intro j hj
        have : j = 0 := by omega
        subst this
        exact ⟨decl[0], hd, by simp [State.setFiber, taskFiber]⟩
  · obtain ⟨dp, hdp, hprev⟩ := hnew (k - 1) (by omega)
    have hk1N : k - 1 < N := by omega
    have hkk1 : k - 1 ≠ k := by omega
    have hne : alloc (k - 1) ≠ alloc k := fun h => hkk1 (hinj (k - 1) k hk1N hk h)
    have hslot : (fibers.set k (some (alloc k)))[k - 1]? = some (some (alloc (k - 1))) := by
      have hkk : k ≠ k - 1 := by omega
      rw [List.getElem?_set_ne hkk]
      exact hslots (k - 1) (by omega)
    have hk1 : ¬ (k - 1 + 1 < k) := by omega
    simp only [hk1, if_false] at hprev
    refine ⟨fibers.set k (some (alloc k)),
      (s.setFiber (alloc k) (taskFiber alloc junk barrier k decl[k])).setFiber (alloc (k - 1))
        { taskFiber alloc junk barrier (k - 1) dp with next := some (alloc k) }, ?_, ?_⟩
    · simp [runTasksBody, hd, hlk, bind, Except.bind, pure, Except.pure, hkpos, slot, hslot,
        derefFiber, State.setFiber, hne, hprev, taskFiber]
    · refine ⟨by simpa using hlen, ?_, ?_, ?_, ?_⟩
      · intro j hj
        by_cases hjk : j = k
        · subst hjk; simp [List.getElem?_set, hlen]; omega
        · rw [List.getElem?_set_ne (Ne.symm hjk)]
          exact hslots j (by omega)
      · rw [hframe]; simp [State.setFiber]
      · intro x hx
        have hxk : x ≠ alloc k := hx k (by omega)
        have hxk1 : x ≠ alloc (k - 1) := hx (k - 1) (by omega)
        simp only [State.setFiber, hxk, hxk1, if_false]
        exact hold x (fun j hj => hx j (by omega))
      · intro j hj
        by_cases hjk : j = k
        · subst hjk
          refine ⟨decl[j], hd, ?_⟩
          simp [State.setFiber, hne.symm, taskFiber]
        · by_cases hjk1 : j = k - 1
          · subst hjk1
            refine ⟨dp, hdp, ?_⟩
            have : k - 1 + 1 < k + 1 := by omega
            simp [State.setFiber, this, Nat.sub_add_cancel hkpos]
          · obtain ⟨d, hdj, hfj⟩ := hnew j (by omega)
            refine ⟨d, hdj, ?_⟩
            have h1 : alloc j ≠ alloc k := fun h => hjk (hinj j k (by omega) hk h)
            have h2 : alloc j ≠ alloc (k - 1) := fun h => hjk1 (hinj j (k - 1) (by omega) (by omega) h)
            have h3 : j + 1 < k := by omega
            have h4 : j + 1 < k + 1 := by omega
            simp only [State.setFiber, h1, h2, if_false, hfj, h3, h4, if_true]

theorem runTasksLoop_ok (alloc : Nat → Nat) (junk : Nat → Fiber) (decl : List TaskDecl)
    (barrier : Option Nat) (N : Nat) (s0 : State)
    (hdecl : decl.length = N)
    (hinj : ∀ i j, i < N → j < N → alloc i = alloc j → i = j) :
    ∀ (n k : Nat) (fibers : List (Option Nat)) (s : State), k + n ≤ N →
      LoopInv alloc junk decl barrier N s0 k fibers s →
      ∃ fibers' s', runTasksLoop alloc junk decl barrier n k fibers s = .ok (fibers', s') ∧
        LoopInv alloc junk decl barrier N s0 (k + n) fibers' s'
  | 0, k, fibers, s, _, hinv => ⟨fibers, s, rfl, hinv⟩
  | n + 1, k, fibers, s, hkn, hinv => by
    obtain ⟨f₁, s₁, hb, hinv₁⟩ :=
      runTasksBody_ok alloc junk decl barrier N s0 hdecl hinj k (by omega) fibers s hinv
    obtain ⟨f₂, s₂, hl, hinv₂⟩ :=
      runTasksLoop_ok alloc junk decl barrier N s0 hdecl hinj n (k + 1) f₁ s₁ (by omega) hinv₁
    refine ⟨f₂, s₂, ?_, ?_⟩
    · simp [runTasksLoop, hb, bind, Except.bind, hl]
    · have : k + 1 + n = k + (n + 1) := by omega
      rw [← this]; exact hinv₂


theorem isQueue_congr {h h' : Nat → Option Fiber} {hd tl : Option Nat} {l : List Nat}
    (hag : ∀ a ∈ l, h' a = h a) (hq : IsQueue h hd tl l) : IsQueue h' hd tl l := by
  obtain ⟨qh, qt, qnd, qlive, qlk⟩ := hq
  refine ⟨qh, qt, qnd, fun a ha => by rw [hag a ha]; exact qlive a ha, ?_⟩
  refine linked_of_agree (fun a ha => ?_) qlk
  simp only [nextOf, hag a (mem_of_mem_dropLast ha)]

theorem linked_map_range {h : Nat → Option Fiber} (alloc : Nat → Nat) :
    ∀ N : Nat, (∀ j, j + 1 < N → nextOf h (alloc j) = some (alloc (j + 1))) →
      Linked h ((List.range N).map alloc)
  | 0, _ => trivial
  | n + 1, hn => by
    rw [List.range_succ, List.map_append]
    refine linked_append (linked_map_range alloc n (fun j hj => hn j (by omega))) trivial ?_
    intro a b ha hb
    rw [List.getLast?_map, List.getLast?_range] at ha
    have hb' : b = alloc n := by simpa using hb.symm
    subst hb'
    rcases Nat.eq_zero_or_pos n with h0 | hpos
    · subst h0; simp at ha
    · have hn0 : n ≠ 0 := by omega
      simp only [hn0, if_false, Option.map_some', Option.some.injEq] at ha
      subst ha
      have := hn (n - 1) (by omega)
      rwa [Nat.sub_add_cancel hpos] at this

theorem runTasks_ok (alloc : Nat → Nat) (junk : Nat → Fiber) (balloc : Nat)
    (decl : List TaskDecl) (N : Nat) (p_barrier : Bool) (s : State) (q : List Nat)
    (hN : 1 ≤ N) (hN64 : N < 2 ^ 64) (hdecl : decl.length = N)
    (hinj : ∀ i j, i < N → j < N → alloc i = alloc j → i = j)
    (hfresh : ∀ j, j < N → s.fibers (alloc j) = none)
    (hlock : s.QUEUE_LOCK = false)
    (hq : IsQueue s.fibers s.HEAD s.TAIL q) :
    ∃ s', runTasks alloc junk balloc decl N p_barrier s =
        .ok (s', if p_barrier then some balloc else none) ∧
      IsQueue s'.fibers s'.HEAD s'.TAIL (q ++ (List.range N).map alloc) ∧
      (∀ j, j < N → ∃ d f, decl[j]? = some d ∧ s'.fibers (alloc j) = some f ∧
        { f with next := none } =
          { taskFiber alloc junk (if p_barrier then some balloc else none) j d with
            next := none }) ∧
      (∀ x, (∀ j, j < N → x ≠ alloc j) →
        (s'.fibers x).map (fun f => { f with next := none }) =
          (s.fibers x).map (fun f => { f with next := none })) ∧
      s' = { (if p_barrier then
                s.setSync balloc (.barrier { Barrier.new with m_value := N })
              else s) with fibers := s'.fibers, HEAD := s'.HEAD, TAIL := s'.TAIL } := by
  set barrier : Option Nat := if p_barrier then some balloc else none with hbar
  set s₁ : State := if p_barrier then
      s.setSync balloc (.barrier { Barrier.new with m_value := N }) else s with hs₁
  have hs₁f : s₁.fibers = s.fibers := by
    rw [hs₁]; split <;> rfl
  have hs₁H : s₁.HEAD = s.HEAD := by rw [hs₁]; split <;> rfl
  have hs₁T : s₁.TAIL = s.TAIL := by rw [hs₁]; split <;> rfl
  have hs₁L : s₁.QUEUE_LOCK = false := by rw [hs₁]; split <;> simp [State.setSync, hlock]
  have hinit : LoopInv alloc junk decl barrier N s₁ 0 (List.replicate N none) s₁ :=
    ⟨by simp, fun j hj => absurd hj (by omega), rfl, fun _ _ => rfl,
      fun j hj => absurd hj (by omega)⟩
  obtain ⟨fibers, sN, hloop, hlen, hslots, hframe, hold, hnew⟩ :=
    runTasksLoop_ok alloc junk decl barrier N s₁ hdecl hinj N 0 _ s₁ (by omega) hinit
  simp only [Nat.zero_add] at hslots hold hnew
  have hNL : sN.QUEUE_LOCK = false := by rw [hframe]; exact hs₁L
  have hqlive : ∀ a ∈ q, ∀ j, j < N → a ≠ alloc j := by
    intro a ha j hj h
    have := hq.2.2.2.1 a ha
    rw [h, hfresh j hj] at this
    simp at this
  have hqN : IsQueue sN.fibers sN.HEAD sN.TAIL q := by
    have hH : sN.HEAD = s.HEAD := by rw [hframe]; exact hs₁H
    have hT : sN.TAIL = s.TAIL := by rw [hframe]; exact hs₁T
    rw [hH, hT]
    refine isQueue_congr (fun a ha => ?_) hq
    rw [hold a (hqlive a ha), hs₁f]
  have hnext : ∀ j, j + 1 < N → nextOf sN.fibers (alloc j) = some (alloc (j + 1)) := by
    intro j hj
    obtain ⟨d, _, hf⟩ := hnew j (by omega)
    simp [nextOf, hf, hj]
  have hN0 : N ≠ 0 := by omega
  have hsegN : IsQueue sN.fibers (some (alloc 0)) (some (alloc (N - 1)))
      ((List.range N).map alloc) := by
    refine ⟨?_, ?_, ?_, ?_, linked_map_range alloc N hnext⟩
    · simp [List.head?_range, hN0]
    · simp [List.getLast?_range, hN0]
    · refine List.Nodup.map_on ?_ (List.nodup_range N)
      intro x hx y hy hxy
      exact hinj x y (List.mem_range.mp hx) (List.mem_range.mp hy) hxy
    · intro a ha
      obtain ⟨j, hj, rfl⟩ := List.mem_map.mp ha
      obtain ⟨d, _, hf⟩ := hnew j (List.mem_range.mp hj)
      simp [hf]
  have hdisj : ∀ a ∈ (List.range N).map alloc, a ∉ q := by
    intro a ha haq
    obtain ⟨j, hj, rfl⟩ := List.mem_map.mp ha
    exact hqlive _ haq j (List.mem_range.mp hj) rfl
  obtain ⟨s', happ, hq', _, _, _, hsame, hfr⟩ :=
    append_ok sN q _ (alloc 0) (alloc (N - 1)) hNL hqN hsegN hdisj
  have hidx : (18446744073709551615 + N) % 18446744073709551616 = N - 1 := by omega
  refine ⟨s', ?_, hq', ?_, ?_, ?_⟩
  · have h0 : fibers[0]? = some (some (alloc 0)) := hslots 0 (by omega)
    have h1 : fibers[N - 1]? = some (some (alloc (N - 1))) := hslots (N - 1) (by omega)
    have e : (if p_barrier = true then
        (some balloc, s.setSync balloc (.barrier { Barrier.new with m_value := N }))
        else (none, s)) = (barrier, s₁) := by
      cases p_barrier <;> simp [hbar, hs₁]
    unfold runTasks
    rw [e]
    simp [hloop, bind, Except.bind, pure, Except.pure, runTasksAppend, slot, h0, hidx, h1, happ]
  · intro j hj
    obtain ⟨d, hd, hf⟩ := hnew j hj
    have := hsame (alloc j)
    rw [hf] at this
    cases hfj : s'.fibers (alloc j) with
    | none => simp [hfj] at this
    | some f =>
      refine ⟨d, f, hd, rfl, ?_⟩
      simpa [hfj] using this
  · intro x hx
    rw [hsame x, hold x hx, hs₁f]
  · rw [hfr, hframe]

theorem acquireMany_ok : ∀ (l : List Nat) (s : State), s.QUEUE_LOCK = false →
    IsQueue s.fibers s.HEAD s.TAIL l →
    acquireMany l.length s = .ok (l.map some, { s with HEAD := none, TAIL := none })
  | [], s, _, hq => by
    have hH : s.HEAD = none := by simpa using hq.1
    have hT : s.TAIL = none := by simpa using hq.2.1
    simp only [List.length_nil, acquireMany, List.map_nil, pure, Except.pure]
    congr 2
    cases s; simp_all
  | a :: r, s, hlock, hq => by
    obtain ⟨s', hs', hq', _, hfr⟩ := (acquireNext_ok s (a :: r) hlock hq).2 a r rfl
    have hl' : s'.QUEUE_LOCK = false := by rw [hfr]; exact hlock
    have ih := acquireMany_ok r s' hl' hq'
    simp only [List.length_cons, acquireMany, hs', bind, Except.bind, ih, pure, Except.pure,
      List.map_cons]
    congr 2
    rw [hfr]

/-- C1: for every `N ≥ 1` (a `uint64_t`), every array of `N` task declarations
and every prior ready-queue content `q`, `runTasks` completes and leaves the
ready queue equal to `q` followed by the `N` new fibers in declaration order as
one contiguous run; the `i`-th new fiber has status `New` and carries the
`i`-th declaration's task function and parameter.  Hence on an initially empty
queue `N` successive `acquireNext` calls return the new fibers in submission
order (and empty the queue). -/
theorem runTasks_fifo (alloc : Nat → Nat) (junk : Nat → Fiber) (balloc : Nat)
    (decl : List TaskDecl) (N : Nat) (p_barrier : Bool) (s : State) (q : List Nat)
    (hN : 1 ≤ N) (hN64 : N < 2 ^ 64) (hdecl : decl.length = N)
    (hinj : ∀ i j, i < N → j < N → alloc i = alloc j → i = j)
    (hfresh : ∀ j, j < N → s.fibers (alloc j) = none)
    (hlock : s.QUEUE_LOCK = false)
    (hq : IsQueue s.fibers s.HEAD s.TAIL q) :
    ∃ s' b, runTasks alloc junk balloc decl N p_barrier s = .ok (s', b) ∧
      IsQueue s'.fibers s'.HEAD s'.TAIL (q ++ (List.range N).map alloc) ∧
      (∀ i, i < N → ∃ d f, decl[i]? = some d ∧ s'.fibers (alloc i) = some f ∧
        f.m_status = .New ∧ f.m_task = d.m_task ∧ f.m_param = d.m_param) ∧
      (q = [] → acquireMany N s' =
        .ok ((List.range N).map (fun i => some (alloc i)),
             { s' with HEAD := none, TAIL := none })) := by
  obtain ⟨s', hrun, hq', hnew, _, hfr⟩ :=
    runTasks_ok alloc junk balloc decl N p_barrier s q hN hN64 hdecl hinj hfresh hlock hq
  refine ⟨s', _, hrun, hq', ?_, ?_⟩
  · intro i hi
    obtain ⟨d, f, hd, hf, hrec⟩ := hnew i hi
    refine ⟨d, f, hd, hf, ?_⟩
    have h1 := congrArg Fiber.m_status hrec
    have h2 := congrArg Fiber.m_task hrec
    have h3 := congrArg Fiber.m_param hrec
    simp only [taskFiber] at h1 h2 h3
    exact ⟨h1, h2, h3⟩
  · rintro rfl
    have hl' : s'.QUEUE_LOCK = false := by
      rw [hfr]; cases p_barrier <;> simp [State.setSync, hlock]
    have := acquireMany_ok _ s' hl' hq'
    simpa using this

/-- C1 for two tasks submitted to an empty ready queue. -/
theorem runTasks_fifo_witness :
    ∃ s' b, runTasks demoAlloc demoJunk 20 demoDecl 2 true demoEmpty = .ok (s', b) ∧
      IsQueue s'.fibers s'.HEAD s'.TAIL ([] ++ (List.range 2).map demoAlloc) ∧
      (∀ i, i < 2 → ∃ d f, demoDecl[i]? = some d ∧ s'.fibers (demoAlloc i) = some f ∧
        f.m_status = .New ∧ f.m_task = d.m_task ∧ f.m_param = d.m_param) ∧
      (([] : List Nat) = [] → acquireMany 2 s' =
        .ok ((List.range 2).map (fun i => some (demoAlloc i)),
             { s' with HEAD := none, TAIL := none })) :=
  runTasks_fifo demoAlloc demoJunk 20 demoDecl 2 true demoEmpty [] (by decide) (by decide)
    rfl (fun i j _ _ h => by simpa [demoAlloc] using h) (by decide) rfl (by decide)

/-! ## Barrier -/

theorem setSync_self (s : State) (a : Nat) (o : Sync) (h : s.syncs a = some o) :
    s.setSync a o = s := by
  have : (fun x => if x = a then some o else s.syncs x) = s.syncs := by
    funext x
    by_cases hx : x = a
    · subst hx; simp [h]
    · simp [hx]
  cases s
  simp_all [State.setSync]

theorem isQueue_snoc {h h' : Nat → Option Fiber} {hd tl : Option Nat} {W : List Nat} {f : Nat}
    (hq : IsQueue h hd tl W) (hfW : f ∉ W)
    (hlive : ∀ a ∈ W, (h' a).isSome = true) (hflive : (h' f).isSome = true)
    (hnext : ∀ a ∈ W.dropLast, nextOf h' a = nextOf h a)
    (hlast : ∀ t, tl = some t → nextOf h' t = some f) :
    IsQueue h' (W ++ [f]).head? (some f) (W ++ [f]) := by
  obtain ⟨_, qt, qnd, _, qlk⟩ := hq
  refine ⟨rfl, by simp, ?_, ?_, ?_⟩
  · exact List.Nodup.append qnd (List.nodup_singleton f) (by simpa using hfW)
  · intro a ha
    rcases List.mem_append.mp ha with h1 | h1
    · exact hlive a h1
    · have : a = f := by simpa using h1
      subst this; exact hflive
  · refine linked_append (linked_of_agree hnext qlk) trivial ?_
    intro a b ha hb
    have hb' : b = f := by simpa using hb.symm
    subst hb'
    exact hlast a (by rw [qt, ha])

/-- What `Barrier::signal` does, by cases on the counter. -/
theorem barrier_signal_ok (self : Nat) (s : State) (B : Barrier)
    (hB : s.syncs self = some (.barrier B)) (hlock : B.m_lock = false) :
    (B.m_value ≤ 0 → Barrier.signal self s = .ok s) ∧
    (B.m_value > 1 → Barrier.signal self s =
      .ok (s.setSync self (.barrier { B with m_value := B.m_value - 1 }))) ∧
    (B.m_value = 1 → ∀ W q, IsQueue s.fibers B.m_head B.m_tail W →
      IsQueue s.fibers s.HEAD s.TAIL q → (∀ a ∈ W, a ∉ q) → s.QUEUE_LOCK = false →
      ∃ s', Barrier.signal self s = .ok s' ∧
        s'.syncs = (s.setSync self (.barrier
          { m_lock := false, m_value := 0, m_head := none, m_tail := none })).syncs ∧
        IsQueue s'.fibers s'.HEAD s'.TAIL (q ++ W) ∧
        SameFibersUpToNext s.fibers s'.fibers ∧
        s' = { s with fibers := s'.fibers, syncs := s'.syncs, HEAD := s'.HEAD,
                      TAIL := s'.TAIL }) := by
  refine ⟨fun hv => ?_, fun hv => ?_, fun hv W q hW hq hdisj hql => ?_⟩
  · have hv' : ¬ B.m_value > 0 := by omega
    simp [Barrier.signal, derefBarrier, hB, hlock, bind, Except.bind, pure, Except.pure,
      Barrier.countDown, hv']
    exact setSync_self s self _ (by rw [hB, ← hlock])
  · have hv' : B.m_value > 0 := by omega
    have hv'' : ¬ B.m_value - 1 = 0 := by omega
    simp [Barrier.signal, derefBarrier, hB, hlock, bind, Except.bind, pure, Except.pure,
      Barrier.countDown, hv', hv'']
  · set s₁ := s.setSync self (.barrier
      { m_lock := false, m_value := 0, m_head := none, m_tail := none }) with hs₁
    cases hh : B.m_head with
    | none =>
      have hWnil : W = [] := by
        have := hW.1; rw [hh] at this
        exact List.head?_eq_none_iff.mp this.symm
      subst hWnil
      refine ⟨s₁, ?_, rfl, by simpa [hs₁, State.setSync] using hq,
        fun a => by simp [hs₁, State.setSync], by simp [hs₁, State.setSync]⟩
      simp [Barrier.signal, derefBarrier, hB, hlock, bind, Except.bind, pure, Except.pure,
        Barrier.countDown, hv, hh, hs₁]
    | some a =>
      have hWne : W ≠ [] := by
        intro h; subst h
        have := hW.1; rw [hh] at this; simp at this
      obtain ⟨t, ht⟩ : ∃ t, B.m_tail = some t := by
        have := hW.2.1
        cases hl : W.getLast? with
        | none => exact absurd (List.getLast?_eq_none_iff.mp hl) hWne
        | some t => exact ⟨t, by rw [this, hl]⟩
      rw [hh, ht] at hW
      obtain ⟨s', hs', hq', _, _, _, hsame, hfr⟩ :=
        append_ok s₁ q W a t (by simpa [hs₁, State.setSync] using hql)
          (by simpa [hs₁, State.setSync] using hq) (by simpa [hs₁, State.setSync] using hW) hdisj
      refine ⟨s', ?_, by rw [hfr], hq', by simpa [hs₁, State.setSync] using hsame, ?_⟩
      · simp [Barrier.signal, derefBarrier, hB, hlock, bind, Except.bind, pure, Except.pure,
          Barrier.countDown, hv, hh, ht, ← hs₁, hs']
      · rw [hfr]; simp [hs₁, State.setSync]

/-- What the part of `Barrier::wait` before `yield` does. -/
theorem barrier_waitPark_ok (self : Nat) (s : State) (B : Barrier)
    (hB : s.syncs self = some (.barrier B)) (hlock : B.m_lock = false) :
    (B.m_value = 0 → Barrier.waitPark self s = .ok (s, none)) ∧
    (B.m_value ≠ 0 → ∀ f ff W, s.EXEC_FIBER = some f → s.fibers f = some ff →
      IsQueue s.fibers B.m_head B.m_tail W → f ∉ W →
      ∃ s', Barrier.waitPark self s = .ok (s', some .Block) ∧
        s'.fibers f = some { ff with m_status := .Blocked } ∧
        s'.syncs = (s.setSync self (.barrier
          { m_lock := true, m_value := B.m_value, m_head := (W ++ [f]).head?,
            m_tail := some f })).syncs ∧
        IsQueue s'.fibers (W ++ [f]).head? (some f) (W ++ [f]) ∧
        (∀ x, x ≠ f → (s'.fibers x).map (fun r => { r with next := none }) =
          (s.fibers x).map (fun r => { r with next := none })) ∧
        s' = { s with fibers := s'.fibers, syncs := s'.syncs, HELD_LOCK := some self }) := by
  refine ⟨fun hv => ?_, fun hv f ff W hE hf hW hfW => ?_⟩
  · simp [Barrier.waitPark, derefBarrier, hB, hlock, bind, Except.bind, pure, Except.pure, hv]
    exact setSync_self s self _ (by rw [hB, ← hlock, ← hv])
  · cases ht : B.m_tail with
    | none =>
      have hWnil : W = [] := by
        have := hW.2.1; rw [ht] at this
        exact List.getLast?_eq_none_iff.mp this.symm
      subst hWnil
      refine ⟨{ s.setFiber f { ff with m_status := .Blocked } with
          syncs := (s.setSync self (.barrier
            { m_lock := true, m_value := B.m_value, m_head := ([] ++ [f]).head?,
              m_tail := some f })).syncs, HELD_LOCK := some self }, ?_, ?_, rfl, ?_, ?_, ?_⟩
      · simp [Barrier.waitPark, derefBarrier, hB, hlock, bind, Except.bind, pure, Except.pure,
          hv, hE, derefFiber, State.setSync, hf, ht, State.setFiber]
        funext x
        by_cases hx : x = self <;> simp [hx]
      · simp [State.setFiber]
      · simp [IsQueue, Linked, State.setFiber]
      · intro x hx
        simp [State.setFiber, hx]
      · simp [State.setFiber]
    | some t =>
      rw [ht] at hW
      have htW : t ∈ W := List.mem_of_getLast?_eq_some hW.2.1.symm
      have htf : t ≠ f := fun h => hfW (h ▸ htW)
      obtain ⟨tf, htfib⟩ := Option.isSome_iff_exists.mp (hW.2.2.2.1 t htW)
      have hhead : (W ++ [f]).head? = B.m_head := by
        obtain ⟨a, r, rfl⟩ := List.exists_cons_of_ne_nil (List.ne_nil_of_mem htW)
        simpa using hW.1.symm
      set s₁ := (s.setFiber f { ff with m_status := .Blocked }).setFiber t
        { tf with next := some f } with hs₁
      refine ⟨{ s₁ with syncs := (s.setSync self (.barrier
          { m_lock := true, m_value := B.m_value, m_head := (W ++ [f]).head?,
            m_tail := some f })).syncs, HELD_LOCK := some self }, ?_, ?_, rfl, ?_, ?_, ?_⟩
      · simp [Barrier.waitPark, derefBarrier, hB, hlock, bind, Except.bind, pure, Except.pure,
          hv, hE, derefFiber, State.setSync, hf, ht, State.setFiber, htf, htfib, hs₁, hhead]
        funext x
        by_cases hx : x = self <;> simp [hx]
      · simp [hs₁, State.setFiber, htf.symm]
      · refine isQueue_snoc hW hfW (fun a ha => ?_) ?_ (fun a ha => ?_) (fun u hu => ?_)
        · exact isSome_setFiber _ _ _ (isSome_setFiber _ _ _ (hW.2.2.2.1 a ha))
        · simp [hs₁, State.setFiber, htf.symm]
        · have hat : a ≠ t := by
            intro h; subst h
            exact not_mem_dropLast_of_getLast hW.2.2.1 hW.2.1.symm ha
          have haf : a ≠ f := fun h => hfW (h ▸ mem_of_mem_dropLast ha)
          show nextOf s₁.fibers a = _
          rw [hs₁, nextOf_setFiber_ne _ _ hat, nextOf_setFiber_ne _ _ haf]
        · have : u = t := (Option.some.inj hu).symm
          subst this
          show nextOf s₁.fibers u = _
          rw [hs₁, nextOf_setFiber_eq]
      · intro x hx
        by_cases hxt : x = t
        · subst hxt; simp [hs₁, State.setFiber, htfib]
        · simp [hs₁, State.setFiber, hx, hxt]
      · simp [hs₁, State.setFiber]

/-! ## Field by field: what each elementary update changes -/

theorem pusha_proj (s : State) :
    (pusha s).fibers = s.fibers ∧
    (pusha s).syncs = s.syncs ∧
    (pusha s).QUEUE_LOCK = s.QUEUE_LOCK ∧
    (pusha s).HEAD = s.HEAD ∧
    (pusha s).TAIL = s.TAIL ∧
    (pusha s).HELD_LOCK = s.HELD_LOCK ∧
    (pusha s).EXEC_FIBER = s.EXEC_FIBER ∧
    (pusha s).P_BASE = s.P_BASE ∧
    (pusha s).P_STACK = s.P_STACK ∧
    (pusha s).rsp = (2 ^ 64 - 40 + s.rsp) % 2 ^ 64 ∧
    (pusha s).rbp = s.rbp :=
  ⟨rfl, rfl, rfl, rfl, rfl, rfl, rfl, rfl, rfl, rfl, rfl⟩

theorem popa_proj (s : State) :
    (popa s).fibers = s.fibers ∧
    (popa s).syncs = s.syncs ∧
    (popa s).QUEUE_LOCK = s.QUEUE_LOCK ∧
    (popa s).HEAD = s.HEAD ∧
    (popa s).TAIL = s.TAIL ∧
    (popa s).HELD_LOCK = s.HELD_LOCK ∧
    (popa s).EXEC_FIBER = s.EXEC_FIBER ∧
    (popa s).P_BASE = s.P_BASE ∧
    (popa s).P_STACK = s.P_STACK ∧
    (popa s).rsp = (s.rsp + 40) % 2 ^ 64 ∧
    (popa s).rbp = s.rbp :=
  ⟨rfl, rfl, rfl, rfl, rfl, rfl, rfl, rfl, rfl, rfl, rfl⟩

theorem setExec_proj (s : State) (p : Option Nat) :
    (s.setExec p).fibers = s.fibers ∧
    (s.setExec p).syncs = s.syncs ∧
    (s.setExec p).QUEUE_LOCK = s.QUEUE_LOCK ∧
    (s.setExec p).HEAD = s.HEAD ∧
    (s.setExec p).TAIL = s.TAIL ∧
    (s.setExec p).HELD_LOCK = s.HELD_LOCK ∧
    (s.setExec p).EXEC_FIBER = p ∧
    (s.setExec p).P_BASE = s.P_BASE ∧
    (s.setExec p).P_STACK = s.P_STACK ∧
    (s.setExec p).rsp = s.rsp ∧
    (s.setExec p).rbp = s.rbp :=
  ⟨rfl, rfl, rfl, rfl, rfl, rfl, rfl, rfl, rfl, rfl, rfl⟩

theorem setHeld_proj (s : State) (p : Option Nat) :
    (s.setHeld p).fibers = s.fibers ∧
    (s.setHeld p).syncs = s.syncs ∧
    (s.setHeld p).QUEUE_LOCK = s.QUEUE_LOCK ∧
    (s.setHeld p).HEAD = s.HEAD ∧
    (s.setHeld p).TAIL = s.TAIL ∧
    (s.setHeld p).HELD_LOCK = p ∧
    (s.setHeld p).EXEC_FIBER = s.EXEC_FIBER ∧
    (s.setHeld p).P_BASE = s.P_BASE ∧
    (s.setHeld p).P_STACK = s.P_STACK ∧
    (s.setHeld p).rsp = s.rsp ∧
    (s.setHeld p).rbp = s.rbp :=
  ⟨rfl, rfl, rfl, rfl, rfl, rfl, rfl, rfl, rfl, rfl, rfl⟩

theorem loadRegs_proj (s : State) (a b : Nat) :
    (s.loadRegs a b).fibers = s.fibers ∧
    (s.loadRegs a b).syncs = s.syncs ∧
    (s.loadRegs a b).QUEUE_LOCK = s.QUEUE_LOCK ∧
    (s.loadRegs a b).HEAD = s.HEAD ∧
    (s.loadRegs a b).TAIL = s.TAIL ∧
    (s.loadRegs a b).HELD_LOCK = s.HELD_LOCK ∧
    (s.loadRegs a b).EXEC_FIBER = s.EXEC_FIBER ∧
    (s.loadRegs a b).P_BASE = s.P_BASE ∧
    (s.loadRegs a b).P_STACK = s.P_STACK ∧
    (s.loadRegs a b).rsp = a ∧
    (s.loadRegs a b).rbp = b :=
  ⟨rfl, rfl, rfl, rfl, rfl, rfl, rfl, rfl, rfl, rfl, rfl⟩

theorem saveWorker_proj (s : State) :
    (saveWorker s).fibers = s.fibers ∧
    (saveWorker s).syncs = s.syncs ∧
    (saveWorker s).QUEUE_LOCK = s.QUEUE_LOCK ∧
    (saveWorker s).HEAD = s.HEAD ∧
    (saveWorker s).TAIL = s.TAIL ∧
    (saveWorker s).HELD_LOCK = s.HELD_LOCK ∧
    (saveWorker s).EXEC_FIBER = s.EXEC_FIBER ∧
    (saveWorker s).P_BASE = s.rbp ∧
    (saveWorker s).P_STACK = s.rsp ∧
    (saveWorker s).rsp = s.rsp ∧
    (saveWorker s).rbp = s.rbp :=
  ⟨rfl, rfl, rfl, rfl, rfl, rfl, rfl, rfl, rfl, rfl, rfl⟩

theorem yieldRestore_proj (s : State) :
    (yieldRestore s).fibers = s.fibers ∧
    (yieldRestore s).syncs = s.syncs ∧
    (yieldRestore s).QUEUE_LOCK = s.QUEUE_LOCK ∧
    (yieldRestore s).HEAD = s.HEAD ∧
    (yieldRestore s).TAIL = s.TAIL ∧
    (yieldRestore s).HELD_LOCK = s.HELD_LOCK ∧
    (yieldRestore s).EXEC_FIBER = s.EXEC_FIBER ∧
    (yieldRestore s).P_BASE = s.P_BASE ∧
    (yieldRestore s).P_STACK = s.P_STACK ∧
    (yieldRestore s).rsp = (s.P_STACK + 40) % 2 ^ 64 ∧
    (yieldRestore s).rbp = s.P_BASE :=
  ⟨rfl, rfl, rfl, rfl, rfl, rfl, rfl, rfl, rfl, rfl, rfl⟩

theorem releaseLock_proj (s : State) :
    (releaseLock s).fibers = s.fibers ∧
    (releaseLock s).syncs = s.syncs ∧
    (releaseLock s).QUEUE_LOCK = false ∧
    (releaseLock s).HEAD = s.HEAD ∧
    (releaseLock s).TAIL = s.TAIL ∧
    (releaseLock s).HELD_LOCK = s.HELD_LOCK ∧
    (releaseLock s).EXEC_FIBER = s.EXEC_FIBER ∧
    (releaseLock s).P_BASE = s.P_BASE ∧
    (releaseLock s).P_STACK = s.P_STACK ∧
    (releaseLock s).rsp = s.rsp ∧
    (releaseLock s).rbp = s.rbp :=
  ⟨rfl, rfl, rfl, rfl, rfl, rfl, rfl, rfl, rfl, rfl, rfl⟩

theorem setFiber_proj (s : State) (a : Nat) (f : Fiber) :
    (s.setFiber a f).syncs = s.syncs ∧
    (s.setFiber a f).QUEUE_LOCK = s.QUEUE_LOCK ∧
    (s.setFiber a f).HEAD = s.HEAD ∧
    (s.setFiber a f).TAIL = s.TAIL ∧
    (s.setFiber a f).HELD_LOCK = s.HELD_LOCK ∧
    (s.setFiber a f).EXEC_FIBER = s.EXEC_FIBER ∧
    (s.setFiber a f).P_BASE = s.P_BASE ∧
    (s.setFiber a f).P_STACK = s.P_STACK ∧
    (s.setFiber a f).rsp = s.rsp ∧
    (s.setFiber a f).rbp = s.rbp :=
  ⟨rfl, rfl, rfl, rfl, rfl, rfl, rfl, rfl, rfl, rfl⟩

theorem freeFiber_proj (s : State) (a : Nat) :
    (s.freeFiber a).syncs = s.syncs ∧
    (s.freeFiber a).QUEUE_LOCK = s.QUEUE_LOCK ∧
    (s.freeFiber a).HEAD = s.HEAD ∧
    (s.freeFiber a).TAIL = s.TAIL ∧
    (s.freeFiber a).HELD_LOCK = s.HELD_LOCK ∧
    (s.freeFiber a).EXEC_FIBER = s.EXEC_FIBER ∧
    (s.freeFiber a).P_BASE = s.P_BASE ∧
    (s.freeFiber a).P_STACK = s.P_STACK ∧
    (s.freeFiber a).rsp = s.rsp ∧
    (s.freeFiber a).rbp = s.rbp :=
  ⟨rfl, rfl, rfl, rfl, rfl, rfl, rfl, rfl, rfl, rfl⟩

theorem setSync_proj (s : State) (a : Nat) (o : Sync) :
    (s.setSync a o).fibers = s.fibers ∧
    (s.setSync a o).QUEUE_LOCK = s.QUEUE_LOCK ∧
    (s.setSync a o).HEAD = s.HEAD ∧
    (s.setSync a o).TAIL = s.TAIL ∧
    (s.setSync a o).HELD_LOCK = s.HELD_LOCK ∧
    (s.setSync a o).EXEC_FIBER = s.EXEC_FIBER ∧
    (s.setSync a o).P_BASE = s.P_BASE ∧
    (s.setSync a o).P_STACK = s.P_STACK ∧
    (s.setSync a o).rsp = s.rsp ∧
    (s.setSync a o).rbp = s.rbp :=
  ⟨rfl, rfl, rfl, rfl, rfl, rfl, rfl, rfl, rfl, rfl⟩

theorem setFiber_same (s : State) (a : Nat) (f : Fiber) :
    (s.setFiber a f).fibers a = some f := by
  simp only [State.setFiber, if_true]

theorem setFiber_other (s : State) {a x : Nat} (f : Fiber) (hx : x ≠ a) :
    (s.setFiber a f).fibers x = s.fibers x := by
  simp only [State.setFiber, hx, if_false]

theorem freeFiber_same (s : State) (a : Nat) : (s.freeFiber a).fibers a = none := by
  simp only [State.freeFiber, if_true]

theorem freeFiber_other (s : State) {a x : Nat} (hx : x ≠ a) :
    (s.freeFiber a).fibers x = s.fibers x := by
  simp only [State.freeFiber, hx, if_false]

theorem setSync_same (s : State) (a : Nat) (o : Sync) : (s.setSync a o).syncs a = some o := by
  simp only [State.setSync, if_true]

theorem setSync_other (s : State) {a x : Nat} (o : Sync) (hx : x ≠ a) :
    (s.setSync a o).syncs x = s.syncs x := by
  simp only [State.setSync, hx, if_false]

theorem derefFiber_ok (s : State) {a : Nat} {f : Fiber} (h : s.fibers a = some f) :
    derefFiber s (some a) = .ok (a, f) := by
  simp only [derefFiber, h]

/-! ## The yield engine -/

/-- What the Acquire part of `yield` does on a well-formed ready queue. -/
theorem yieldAcquire_ok (back : Control) (s : State) (q : List Nat)
    (hlock : s.QUEUE_LOCK = false) (hq : IsQueue s.fibers s.HEAD s.TAIL q) :
    (q = [] → yieldAcquire back s = .ok (s, back)) ∧
    (∀ g r, q = g :: r → ∃ gf, s.fibers g = some gf ∧
      ∃ s', yieldAcquire back s = .ok (s', dispatchedControl back g gf.m_status) ∧
        IsQueue s'.fibers s'.HEAD s'.TAIL r ∧
        s'.EXEC_FIBER = some g ∧
        s'.fibers g = some { gf with m_status := dispatchedStatus gf.m_status } ∧
        (∀ x, x ≠ g → s'.fibers x = s.fibers x) ∧
        s'.P_STACK = (2 ^ 64 - 40 + s.rsp) % 2 ^ 64 ∧ s'.P_BASE = s.rbp ∧
        s'.syncs = s.syncs ∧ s'.QUEUE_LOCK = false ∧ s'.HELD_LOCK = s.HELD_LOCK ∧
        s'.rsp = (match gf.m_status with
          | .New => gf.m_fiberStack
          | .Blocked => (gf.m_fiberStack + 40) % 2 ^ 64
          | _ => (2 ^ 64 - 40 + s.rsp) % 2 ^ 64) ∧
        s'.rbp = (match gf.m_status with
          | .New => gf.m_fiberBase
          | .Blocked => gf.m_fiberBase
          | _ => s.rbp)) := by
  constructor
  · intro hnil
    have h := (acquireNext_ok s q hlock hq).1 hnil
    simp only [yieldAcquire, h, bind, Except.bind, pure, Except.pure]
  · intro g r hgr
    obtain ⟨s₁, h₁, hq₁, _, hfr⟩ := (acquireNext_ok s q hlock hq).2 g r hgr
    subst hgr
    obtain ⟨gf, hgf⟩ := Option.isSome_iff_exists.mp (hq.2.2.2.1 g (by simp))
    have hgr : g ∉ r := (List.nodup_cons.mp hq.2.2.1).1
    have hf₁ : s₁.fibers = s.fibers := by rw [hfr]
    have hsy₁ : s₁.syncs = s.syncs := by rw [hfr]
    have hql₁ : s₁.QUEUE_LOCK = false := by rw [hfr]; exact hlock
    have hhl₁ : s₁.HELD_LOCK = s.HELD_LOCK := by rw [hfr]
    have hrsp : s₁.rsp = s.rsp := by rw [hfr]
    have hrbp : s₁.rbp = s.rbp := by rw [hfr]
    have hd : derefFiber (saveWorker (pusha s₁)) (some g) = .ok (g, gf) :=
      derefFiber_ok _ (by simp only [saveWorker_proj, pusha_proj, hf₁, hgf])
    refine ⟨gf, hgf, ?_⟩
    have key : ∀ (h' : Nat → Option Fiber),
        (∀ x, x ≠ g → h' x = s.fibers x) → IsQueue h' s₁.HEAD s₁.TAIL r := by
      intro h' hag
      refine isQueue_congr (fun a ha => ?_) hq₁
      rw [hf₁]
      exact hag a (fun h => hgr (h ▸ ha))
    cases hst : gf.m_status with
    | New =>
      refine ⟨(((saveWorker (pusha s₁)).setExec (some g)).setFiber g
          { gf with m_status := .Active }).loadRegs gf.m_fiberStack gf.m_fiberBase,
        ?_, ?_, ?_, ?_, ?_, ?_, ?_, ?_, ?_, ?_, ?_, ?_⟩
      · simp only [yieldAcquire, h₁, bind, Except.bind, pure, Except.pure, hd, hst,
          dispatchedControl]
      · simp only [loadRegs_proj, popa_proj, setFiber_proj, setExec_proj, saveWorker_proj, pusha_proj]
        exact key _ (fun x hx => by
          simp only [loadRegs_proj, popa_proj, setFiber_proj, setExec_proj, saveWorker_proj, pusha_proj, setFiber_other _ _ hx, hf₁])
      · simp only [loadRegs_proj, popa_proj, setFiber_proj, setExec_proj, saveWorker_proj, pusha_proj]
      · simp only [loadRegs_proj, popa_proj, setFiber_proj, setExec_proj, saveWorker_proj, pusha_proj, setFiber_same, dispatchedStatus]
      · intro x hx
        simp only [loadRegs_proj, popa_proj, setFiber_proj, setExec_proj, saveWorker_proj, pusha_proj, setFiber_other _ _ hx, hf₁]
      · simp only [loadRegs_proj, popa_proj, setFiber_proj, setExec_proj, saveWorker_proj, pusha_proj, hrsp]
      · simp only [loadRegs_proj, popa_proj, setFiber_proj, setExec_proj, saveWorker_proj, pusha_proj, hrbp]
      · simp only [loadRegs_proj, popa_proj, setFiber_proj, setExec_proj, saveWorker_proj, pusha_proj, hsy₁]
      · simp only [loadRegs_proj, popa_proj, setFiber_proj, setExec_proj, saveWorker_proj, pusha_proj, hql₁]
      · simp only [loadRegs_proj, popa_proj, setFiber_proj, setExec_proj, saveWorker_proj, pusha_proj, hhl₁]
      · simp only [loadRegs_proj, popa_proj, setFiber_proj, setExec_proj, saveWorker_proj, pusha_proj, hrsp]
      · simp only [loadRegs_proj, popa_proj, setFiber_proj, setExec_proj, saveWorker_proj, pusha_proj, hrbp]
    | Blocked =>
      refine ⟨popa ((((saveWorker (pusha s₁)).setExec (some g)).setFiber g
          { gf with m_status := .Active }).loadRegs gf.m_fiberStack gf.m_fiberBase),
        ?_, ?_, ?_, ?_, ?_, ?_, ?_, ?_, ?_, ?_, ?_, ?_⟩
      · simp only [yieldAcquire, h₁, bind, Except.bind, pure, Except.pure, hd, hst,
          dispatchedControl]
      · simp only [loadRegs_proj, popa_proj, setFiber_proj, setExec_proj, saveWorker_proj, pusha_proj]
        exact key _ (fun x hx => by
          simp only [loadRegs_proj, popa_proj, setFiber_proj, setExec_proj, saveWorker_proj, pusha_proj, setFiber_other _ _ hx, hf₁])
      · simp only [loadRegs_proj, popa_proj, setFiber_proj, setExec_proj, saveWorker_proj, pusha_proj]
      · simp only [loadRegs_proj, popa_proj, setFiber_proj, setExec_proj, saveWorker_proj, pusha_proj, setFiber_same, dispatchedStatus]
      · intro x hx
        simp only [loadRegs_proj, popa_proj, setFiber_proj, setExec_proj, saveWorker_proj, pusha_proj, setFiber_other _ _ hx, hf₁]
      · simp only [loadRegs_proj, popa_proj, setFiber_proj, setExec_proj, saveWorker_proj, pusha_proj, hrsp]
      · simp only [loadRegs_proj, popa_proj, setFiber_proj, setExec_proj, saveWorker_proj, pusha_proj, hrbp]
      · simp only [loadRegs_proj, popa_proj, setFiber_proj, setExec_proj, saveWorker_proj, pusha_proj, hsy₁]
      · simp only [loadRegs_proj, popa_proj, setFiber_proj, setExec_proj, saveWorker_proj, pusha_proj, hql₁]
      · simp only [loadRegs_proj, popa_proj, setFiber_proj, setExec_proj, saveWorker_proj, pusha_proj, hhl₁]
      · simp only [loadRegs_proj, popa_proj, setFiber_proj, setExec_proj, saveWorker_proj, pusha_proj, hrsp]
      · simp only [loadRegs_proj, popa_proj, setFiber_proj, setExec_proj, saveWorker_proj, pusha_proj, hrbp]
    | Active =>
      refine ⟨(saveWorker (pusha s₁)).setExec (some g),
        ?_, ?_, ?_, ?_, ?_, ?_, ?_, ?_, ?_, ?_, ?_, ?_⟩
      · simp only [yieldAcquire, h₁, bind, Except.bind, pure, Except.pure, hd, hst,
          dispatchedControl]
      · simp only [loadRegs_proj, popa_proj, setFiber_proj, setExec_proj, saveWorker_proj, pusha_proj]
        exact key _ (fun x _ => by simp only [loadRegs_proj, popa_proj, setFiber_proj, setExec_proj, saveWorker_proj, pusha_proj, hf₁])
      · simp only [loadRegs_proj, popa_proj, setFiber_proj, setExec_proj, saveWorker_proj, pusha_proj]
      · simp only [loadRegs_proj, popa_proj, setFiber_proj, setExec_proj, saveWorker_proj, pusha_proj, hf₁, hgf, dispatchedStatus, ← hst]
      · intro x _
        simp only [loadRegs_proj, popa_proj, setFiber_proj, setExec_proj, saveWorker_proj, pusha_proj, hf₁]
      · simp only [loadRegs_proj, popa_proj, setFiber_proj, setExec_proj, saveWorker_proj, pusha_proj, hrsp]
      · simp only [loadRegs_proj, popa_proj, setFiber_proj, setExec_proj, saveWorker_proj, pusha_proj, hrbp]
      · simp only [loadRegs_proj, popa_proj, setFiber_proj, setExec_proj, saveWorker_proj, pusha_proj, hsy₁]
      · simp only [loadRegs_proj, popa_proj, setFiber_proj, setExec_proj, saveWorker_proj, pusha_proj, hql₁]
      · simp only [loadRegs_proj, popa_proj, setFiber_proj, setExec_proj, saveWorker_proj, pusha_proj, hhl₁]
      · simp only [loadRegs_proj, popa_proj, setFiber_proj, setExec_proj, saveWorker_proj, pusha_proj, hrsp]
      · simp only [loadRegs_proj, popa_proj, setFiber_proj, setExec_proj, saveWorker_proj, pusha_proj, hrbp]
    | Done =>
      refine ⟨(saveWorker (pusha s₁)).setExec (some g),
        ?_, ?_, ?_, ?_, ?_, ?_, ?_, ?_, ?_, ?_, ?_, ?_⟩
      · simp only [yieldAcquire, h₁, bind, Except.bind, pure, Except.pure, hd, hst,
          dispatchedControl]
      · simp only [loadRegs_proj, popa_proj, setFiber_proj, setExec_proj, saveWorker_proj, pusha_proj]
        exact key _ (fun x _ => by simp only [loadRegs_proj, popa_proj, setFiber_proj, setExec_proj, saveWorker_proj, pusha_proj, hf₁])
      · simp only [loadRegs_proj, popa_proj, setFiber_proj, setExec_proj, saveWorker_proj, pusha_proj]
      · simp only [loadRegs_proj, popa_proj, setFiber_proj, setExec_proj, saveWorker_proj, pusha_proj, hf₁, hgf, dispatchedStatus, ← hst]
      · intro x _
        simp only [loadRegs_proj, popa_proj, setFiber_proj, setExec_proj, saveWorker_proj, pusha_proj, hf₁]
      · simp only [loadRegs_proj, popa_proj, setFiber_proj, setExec_proj, saveWorker_proj, pusha_proj, hrsp]
      · simp only [loadRegs_proj, popa_proj, setFiber_proj, setExec_proj, saveWorker_proj, pusha_proj, hrbp]
      · simp only [loadRegs_proj, popa_proj, setFiber_proj, setExec_proj, saveWorker_proj, pusha_proj, hsy₁]
      · simp only [loadRegs_proj, popa_proj, setFiber_proj, setExec_proj, saveWorker_proj, pusha_proj, hql₁]
      · simp only [loadRegs_proj, popa_proj, setFiber_proj, setExec_proj, saveWorker_proj, pusha_proj, hhl₁]
      · simp only [loadRegs_proj, popa_proj, setFiber_proj, setExec_proj, saveWorker_proj, pusha_proj, hrsp]
      · simp only [loadRegs_proj, popa_proj, setFiber_proj, setExec_proj, saveWorker_proj, pusha_proj, hrbp]

theorem yieldClearHeld_ok (s : State) (l : Nat) (o : Sync)
    (hH : s.HELD_LOCK = some l) (hl : s.syncs l = some o) :
    yieldClearHeld s = .ok (s.setSync l o.unlock) := by
  cases o <;> simp only [yieldClearHeld, hH, hl, Sync.unlock]

theorem yieldSave_ok (s : State) (f : Nat) (ff : Fiber)
    (hE : s.EXEC_FIBER = some f) (hf : s.fibers f = some ff) :
    yieldSave s = .ok ((pusha s).setFiber f
      { ff with m_fiberStack := (2 ^ 64 - 40 + s.rsp) % 2 ^ 64, m_fiberBase := s.rbp }) := by
  have hd : derefFiber (pusha s) (some f) = .ok (f, ff) :=
    derefFiber_ok _ (by simp only [pusha_proj, hf])
  simp only [yieldSave, hE, hd, bind, Except.bind, pure, Except.pure, pusha_proj]

/-- The state `yieldRetire` leaves for a current fiber with this status. -/
theorem yieldRetire_ok (s : State) (f : Nat) (ff : Fiber)
    (hE : s.EXEC_FIBER = some f) (hf : s.fibers f = some ff) :
    yieldRetire s = .ok ((match ff.m_status with
      | .Done => s.freeFiber f
      | .Blocked => s.setHeld none
      | _ => s).setExec none) := by
  unfold yieldRetire
  rw [hE, derefFiber_ok s hf]
  rfl

theorem yieldRetire_blocked (s : State) (f : Nat) (ff : Fiber)
    (hE : s.EXEC_FIBER = some f) (hf : s.fibers f = some ff) (hst : ff.m_status = .Blocked) :
    yieldRetire s = .ok ((s.setHeld none).setExec none) := by
  rw [yieldRetire_ok s f ff hE hf, hst]

theorem yieldRetire_done (s : State) (f : Nat) (ff : Fiber)
    (hE : s.EXEC_FIBER = some f) (hf : s.fibers f = some ff) (hst : ff.m_status = .Done) :
    yieldRetire s = .ok ((s.freeFiber f).setExec none) := by
  rw [yieldRetire_ok s f ff hE hf, hst]

/-- The statement groups of Block mode, executed in order. -/
theorem yieldTrace_block (s : State) :
    yieldTrace .Block s = (do
      let s₁ ← yieldSave s
      let s₂ ← yieldClearHeld s₁
      let s₄ ← yieldRetire (yieldRestore s₂)
      pure ([(YieldStep.save, s₁), (.clearHeld, s₂), (.restore, yieldRestore s₂),
        (.retire, s₄)], s₄)) := by
  simp only [yieldTrace, yieldPrologue, runSteps, YieldStep.run, bind, Except.bind, pure,
    Except.pure]
  cases yieldSave s with
  | error e => rfl
  | ok s₁ =>
    dsimp only
    cases yieldClearHeld s₁ with
    | error e => rfl
    | ok s₂ =>
      dsimp only
      cases yieldRetire (yieldRestore s₂) with
      | error e => rfl
      | ok s₄ => rfl

/-- The statement groups of Return mode, executed in order. -/
theorem yieldTrace_return (s : State) :
    yieldTrace .Return s = (do
      let s₄ ← yieldRetire (yieldRestore s)
      pure ([(YieldStep.restore, yieldRestore s), (.retire, s₄)], s₄)) := by
  simp only [yieldTrace, yieldPrologue, runSteps, YieldStep.run, bind, Except.bind, pure,
    Except.pure]
  cases yieldRetire (yieldRestore s) with
  | error e => rfl
  | ok s₄ => rfl

/-- `yield(Block)` as the sequence of its statement groups. -/
theorem yield_block_def (s : State) :
    yield .Block s = (do
      let s ← yieldSave s
      let s ← yieldClearHeld s
      let s ← yieldRetire (yieldRestore s)
      yieldAcquire .worker s) := by
  simp only [yield, yieldTrace_block, bind, Except.bind, pure, Except.pure]
  cases yieldSave s with
  | error e => rfl
  | ok s₁ =>
    dsimp only
    cases yieldClearHeld s₁ with
    | error e => rfl
    | ok s₂ =>
      dsimp only
      cases yieldRetire (yieldRestore s₂) with
      | error e => rfl
      | ok s₄ => rfl

/-- `yield(Return)` as the sequence of its statement groups. -/
theorem yield_return_def (s : State) :
    yield .Return s = (do
      let s ← yieldRetire (yieldRestore s)
      yieldAcquire .worker s) := by
  simp only [yield, yieldTrace_return, bind, Except.bind, pure, Except.pure]
  cases yieldRetire (yieldRestore s) with
  | error e => rfl
  | ok s₄ => rfl

/-- `yield(Acquire)`, that is `yield()`, is the Acquire part alone. -/
theorem yield_acquire_def (s : State) : yield .Acquire s = yieldAcquire .returned s := rfl

/-- The Block case of `yield` up to the fall-through into Acquire: the state in
which the Acquire part starts. -/
theorem yield_block_eq (s : State) (f l : Nat) (ff : Fiber) (o : Sync)
    (hE : s.EXEC_FIBER = some f) (hf : s.fibers f = some ff) (hst : ff.m_status = .Blocked)
    (hH : s.HELD_LOCK = some l) (hl : s.syncs l = some o) :
    yield .Block s = yieldAcquire .worker
      (((yieldRestore (((pusha s).setFiber f
          { ff with m_fiberStack := (2 ^ 64 - 40 + s.rsp) % 2 ^ 64,
                    m_fiberBase := s.rbp }).setSync l o.unlock)).setHeld none).setExec none) := by
  have h1 := yieldSave_ok s f ff hE hf
  have h2 := yieldClearHeld_ok ((pusha s).setFiber f
      { ff with m_fiberStack := (2 ^ 64 - 40 + s.rsp) % 2 ^ 64, m_fiberBase := s.rbp }) l o
      (by simp only [setFiber_proj, pusha_proj, hH])
      (by simp only [setFiber_proj, pusha_proj, hl])
  have h3 := yieldRetire_blocked (yieldRestore (((pusha s).setFiber f
      { ff with m_fiberStack := (2 ^ 64 - 40 + s.rsp) % 2 ^ 64,
                m_fiberBase := s.rbp }).setSync l o.unlock)) f
      { ff with m_fiberStack := (2 ^ 64 - 40 + s.rsp) % 2 ^ 64, m_fiberBase := s.rbp }
      (by simp only [yieldRestore_proj, setSync_proj, setFiber_proj, pusha_proj, hE])
      (by simp only [yieldRestore_proj, setSync_proj, setFiber_same]) hst
  simp only [yield_block_def, h1, h2, h3, bind, Except.bind]

/-- The Return case of `yield` for a current fiber that is `Done`, up to the
fall-through into Acquire. -/
theorem yield_return_eq (s : State) (f : Nat) (ff : Fiber)
    (hE : s.EXEC_FIBER = some f) (hf : s.fibers f = some ff) (hst : ff.m_status = .Done) :
    yield .Return s = yieldAcquire .worker (((yieldRestore s).freeFiber f).setExec none) := by
  have h3 := yieldRetire_done (yieldRestore s) f ff
      (by simp only [yieldRestore_proj, hE]) (by simp only [yieldRestore_proj, hf]) hst
  simp only [yield_return_def, h3, bind, Except.bind]

/-- What `yield(Block)` does when called by the current fiber `f`, already
marked `Blocked`, with the flag of `l` held and a well-formed ready queue. -/
theorem yield_block_ok (s : State) (f l : Nat) (ff : Fiber) (o : Sync) (q : List Nat)
    (hE : s.EXEC_FIBER = some f) (hf : s.fibers f = some ff) (hst : ff.m_status = .Blocked)
    (hH : s.HELD_LOCK = some l) (hl : s.syncs l = some o)
    (hlock : s.QUEUE_LOCK = false) (hq : IsQueue s.fibers s.HEAD s.TAIL q) (hfq : f ∉ q) :
    ∃ s' c, yield .Block s = .ok (s', c) ∧
      s'.syncs = (s.setSync l o.unlock).syncs ∧
      s'.HELD_LOCK = none ∧ s'.QUEUE_LOCK = false ∧
      s'.fibers f = some { ff with m_fiberStack := (2 ^ 64 - 40 + s.rsp) % 2 ^ 64,
                                   m_fiberBase := s.rbp } ∧
      IsQueue s'.fibers s'.HEAD s'.TAIL q.tail ∧
      s'.EXEC_FIBER = q.head? ∧
      (q = [] → c = .worker) ∧
      (∀ g r, q = g :: r → ∃ gf, s.fibers g = some gf ∧
        c = dispatchedControl .worker g gf.m_status ∧
        s'.fibers g = some { gf with m_status := dispatchedStatus gf.m_status }) ∧
      (∀ x, x ≠ f → q.head? ≠ some x → s'.fibers x = s.fibers x) := by
  rw [yield_block_eq s f l ff o hE hf hst hH hl]
  set s₄ : State := (((yieldRestore (((pusha s).setFiber f
      { ff with m_fiberStack := (2 ^ 64 - 40 + s.rsp) % 2 ^ 64,
                m_fiberBase := s.rbp }).setSync l o.unlock)).setHeld none).setExec none)
    with hs₄
  have hf₄ : ∀ x, x ≠ f → s₄.fibers x = s.fibers x := by
    intro x hx
    simp only [hs₄, setExec_proj, setHeld_proj, yieldRestore_proj, setSync_proj,
      setFiber_other _ _ hx, pusha_proj]
  have hff₄ : s₄.fibers f = some { ff with
      m_fiberStack := (2 ^ 64 - 40 + s.rsp) % 2 ^ 64, m_fiberBase := s.rbp } := by
    simp only [hs₄, setExec_proj, setHeld_proj, yieldRestore_proj, setSync_proj, setFiber_same]
  have hH₄ : s₄.HEAD = s.HEAD := by
    simp only [hs₄, setExec_proj, setHeld_proj, yieldRestore_proj, setSync_proj, setFiber_proj,
      pusha_proj]
  have hT₄ : s₄.TAIL = s.TAIL := by
    simp only [hs₄, setExec_proj, setHeld_proj, yieldRestore_proj, setSync_proj, setFiber_proj,
      pusha_proj]
  have hq₄ : IsQueue s₄.fibers s₄.HEAD s₄.TAIL q := by
    rw [hH₄, hT₄]
    exact isQueue_congr (fun a ha => hf₄ a (fun h => hfq (h ▸ ha))) hq
  have hl₄ : s₄.QUEUE_LOCK = false := by
    simp only [hs₄, setExec_proj, setHeld_proj, yieldRestore_proj, setSync_proj, setFiber_proj,
      pusha_proj, hlock]
  have hsy₄ : s₄.syncs = (s.setSync l o.unlock).syncs := by
    simp only [hs₄, setExec_proj, setHeld_proj, yieldRestore_proj]
    rfl
  have hhl₄ : s₄.HELD_LOCK = none := by
    simp only [hs₄, setExec_proj, setHeld_proj]
  have hex₄ : s₄.EXEC_FIBER = none := by
    simp only [hs₄, setExec_proj]
  have hA := yieldAcquire_ok .worker s₄ q hl₄ hq₄
  cases q with
  | nil =>
    exact ⟨s₄, .worker, hA.1 rfl, hsy₄, hhl₄, hl₄, hff₄, hq₄, hex₄, fun _ => rfl,
      fun g r h => absurd h (List.cons_ne_nil g r).symm, fun x hx _ => hf₄ x hx⟩
  | cons g r =>
    obtain ⟨gf, hgf, s', hy, hq', hE', hg', hoth, _, _, hsy', hql', hhl', _, _⟩ := hA.2 g r rfl
    have hgf' : g ≠ f := fun h => hfq (by simp only [h, List.mem_cons, true_or])
    rw [hf₄ g hgf'] at hgf
    refine ⟨s', _, hy, hsy'.trans hsy₄, hhl'.trans hhl₄, hql', ?_, hq', hE', ?_, ?_, ?_⟩
    · rw [hoth f hgf'.symm]; exact hff₄
    · intro h; exact absurd h (List.cons_ne_nil g r)
    · intro g' r' h
      obtain ⟨h1, _⟩ := List.cons.inj h
      subst h1
      exact ⟨gf, hgf, rfl, hg'⟩
    · intro x hx hxg
      have hxg' : x ≠ g := fun h => hxg (by simp only [h, List.head?_cons])
      rw [hoth x hxg', hf₄ x hx]

/-! ## Semaphore -/

/-- What `Semaphore::signal` does on a semaphore with at most one waiter. -/
theorem semaphore_signal_ok (self : Nat) (s : State) (M : Semaphore)
    (hM : s.syncs self = some (.semaphore M)) (hlock : M.m_lock = false) :
    (M.m_head = none → Semaphore.signal self s =
      .ok (s.setSync self (.semaphore { M with m_value := M.m_value + 1 }))) ∧
    (∀ a q, M.m_head = some a → M.m_tail = some a → (s.fibers a).isSome = true →
      s.QUEUE_LOCK = false → IsQueue s.fibers s.HEAD s.TAIL q → a ∉ q →
      ∃ s', Semaphore.signal self s = .ok s' ∧
        s'.syncs = (s.setSync self (.semaphore
          { M with m_head := none, m_tail := none })).syncs ∧
        IsQueue s'.fibers s'.HEAD s'.TAIL (q ++ [a]) ∧
        s'.TAIL = some a ∧ nextOf s'.fibers a = none ∧
        SameFibersUpToNext s.fibers s'.fibers ∧
        s' = { s with fibers := s'.fibers, syncs := s'.syncs, HEAD := s'.HEAD,
                      TAIL := s'.TAIL }) := by
  refine ⟨fun hh => ?_, fun a q hh ht hlive hql hq haq => ?_⟩
  · simp [Semaphore.signal, derefSemaphore, hM, hlock, hh, bind, Except.bind, pure,
      Except.pure]
  · set s₁ := s.setSync self (.semaphore { M with m_head := none, m_tail := none }) with hs₁
    have hseg : IsQueue s₁.fibers (some a) (some a) [a] := by
      simp [IsQueue, Linked, hs₁, State.setSync, hlive]
    obtain ⟨s', hs', hq', hT, _, hnx, hsame, hfr⟩ :=
      append_ok s₁ q [a] a a (by simpa [hs₁, State.setSync] using hql)
        (by simpa [hs₁, State.setSync] using hq) hseg (by simpa using haq)
    refine ⟨s', ?_, by rw [hfr], hq', hT, hnx, by simpa [hs₁, State.setSync] using hsame, ?_⟩
    · have e : s.setSync self (.semaphore
          { m_lock := false, m_value := M.m_value, m_head := none, m_tail := none }) = s₁ := by
        rw [hs₁]; congr 3; rw [← hlock]
      simp [Semaphore.signal, derefSemaphore, hM, hlock, hh, ht, bind, Except.bind, pure,
        Except.pure, e, hs']
    · rw [hfr]; simp [hs₁, State.setSync]

/-- What the part of `Semaphore::wait` before `yield` does. -/
theorem semaphore_waitPark_ok (self : Nat) (s : State) (M : Semaphore)
    (hM : s.syncs self = some (.semaphore M)) (hlock : M.m_lock = false) :
    (M.m_value > 0 → Semaphore.waitPark self s =
      .ok (s.setSync self (.semaphore { M with m_value := M.m_value - 1 }), none)) ∧
    (M.m_value ≤ 0 → ∀ f ff, s.EXEC_FIBER = some f → s.fibers f = some ff →
      (M.m_tail = none → Semaphore.waitPark self s =
        .ok ({ s.setFiber f { ff with m_status := .Blocked } with
                syncs := (s.setSync self (.semaphore
                  { M with m_lock := true, m_head := some f, m_tail := some f })).syncs,
                HELD_LOCK := some self }, some .Block)) ∧
      (∀ t tf, M.m_tail = some t → t ≠ f → s.fibers t = some tf →
        Semaphore.waitPark self s =
        .ok ({ (s.setFiber f { ff with m_status := .Blocked }).setFiber t
                  { tf with next := some f } with
                syncs := (s.setSync self (.semaphore { M with m_lock := true })).syncs,
                HELD_LOCK := some self }, some .Block))) := by
  refine ⟨fun hv => ?_, fun hv f ff hE hf => ⟨fun ht => ?_, fun t tf ht htf htfib => ?_⟩⟩
  · simp [Semaphore.waitPark, derefSemaphore, hM, hlock, hv, bind, Except.bind, pure,
      Except.pure]
  · have hv' : ¬ M.m_value > 0 := by omega
    simp [Semaphore.waitPark, derefSemaphore, hM, hlock, hv', bind, Except.bind, pure,
      Except.pure, hE, derefFiber, State.setSync, State.setFiber, hf, ht]
    funext x
    by_cases hx : x = self <;> simp [hx]
  · have hv' : ¬ M.m_value > 0 := by omega
    simp [Semaphore.waitPark, derefSemaphore, hM, hlock, hv', bind, Except.bind, pure,
      Except.pure, hE, derefFiber, State.setSync, State.setFiber, hf, ht, htf, htfib]

/-- C4 (the code fails the claim): in the state `oneWaiter` the semaphore `0`
has counter 0 and the waiter list `[1]`, and the current fiber `2` calls
`Semaphore::wait`.  The call marks `2` Blocked and links it behind fiber `1`,
but leaves `m_tail` at `1`: the waiter FIFO (`m_head` through `m_tail`) is
still `[1]` and not `[1, 2]`.  The next `signal` moves fiber `1` to the ready
queue and empties the list, the one after it only increments the counter, and
fiber `2` stays Blocked on no list. -/
theorem semaphore_wait_keeps_old_tail :
    ∃ s₁ c s₂ s₃, Semaphore.wait 0 oneWaiter = .ok (s₁, c) ∧
      s₁.syncs 0 = some (.semaphore
        { m_lock := false, m_value := 0, m_head := some 1, m_tail := some 1 }) ∧
      (s₁.fibers 2).map Fiber.m_status = some .Blocked ∧
      nextOf s₁.fibers 1 = some 2 ∧
      IsQueue s₁.fibers (some 1) (some 1) [1] ∧
      ¬ IsQueue s₁.fibers (some 1) (some 1) [1, 2] ∧
      Semaphore.signal 0 s₁ = .ok s₂ ∧ Semaphore.signal 0 s₂ = .ok s₃ ∧
      IsQueue s₃.fibers s₃.HEAD s₃.TAIL [1] ∧
      s₃.syncs 0 = some (.semaphore
        { m_lock := false, m_value := 1, m_head := none, m_tail := none }) ∧
      (s₃.fibers 2).map Fiber.m_status = some .Blocked :=
  ⟨_, _, _, _, rfl, by decide, by decide, by decide, by decide, by decide, rfl, rfl,
    by decide, by decide, by decide⟩

/-! ## Claims on the primitives -/

/-- C7: for every barrier state (flag free), `Barrier::signal` behaves by cases
on the counter.  If it is 0 the call changes nothing at all.  If it is greater
than 1 the call only decrements it by one.  If it is exactly 1 the call sets it
to 0, empties the waiter list and appends all former waiters `W`, in their
waiting order and as one contiguous segment, to the tail of the ready queue
`q`; nothing else changes but `next` links. -/
theorem barrier_signal_cases (self : Nat) (s : State) (B : Barrier)
    (hB : s.syncs self = some (.barrier B)) (hlock : B.m_lock = false) :
    (B.m_value = 0 → Barrier.signal self s = .ok s) ∧
    (B.m_value > 1 → Barrier.signal self s =
      .ok (s.setSync self (.barrier { B with m_value := B.m_value - 1 }))) ∧
    (B.m_value = 1 → ∀ W q, IsQueue s.fibers B.m_head B.m_tail W →
      IsQueue s.fibers s.HEAD s.TAIL q → (∀ a ∈ W, a ∉ q) → s.QUEUE_LOCK = false →
      ∃ s', Barrier.signal self s = .ok s' ∧
        s'.syncs self = some (.barrier
          { m_lock := false, m_value := 0, m_head := none, m_tail := none }) ∧
        (∀ x, x ≠ self → s'.syncs x = s.syncs x) ∧
        IsQueue s'.fibers s'.HEAD s'.TAIL (q ++ W) ∧
        (∀ l, IsQueue s'.fibers s'.HEAD s'.TAIL l → l = q ++ W) ∧
        SameFibersUpToNext s.fibers s'.fibers ∧
        s' = { s with fibers := s'.fibers, syncs := s'.syncs, HEAD := s'.HEAD,
                      TAIL := s'.TAIL }) := by
  obtain ⟨h0, h2, h1⟩ := barrier_signal_ok self s B hB hlock
  refine ⟨fun hv => h0 (by omega), h2, fun hv W q hW hq hdisj hql => ?_⟩
  obtain ⟨s', hs', hsy, hq', hsame, hfr⟩ := h1 hv W q hW hq hdisj hql
  refine ⟨s', hs', ?_, fun x hx => ?_, hq', fun l hl => isQueue_unique hl hq', hsame, hfr⟩
  · rw [hsy]; simp [State.setSync]
  · rw [hsy]; simp [State.setSync, hx]

/-- C7 at the barrier `0` of `demoState`: counter 1, waiters `[3, 4]`, ready
queue `[1, 2]`. -/
theorem barrier_signal_cases_witness :
    ((1 : Int) = 0 → Barrier.signal 0 demoState = .ok demoState) ∧
    ((1 : Int) > 1 → Barrier.signal 0 demoState =
      .ok (demoState.setSync 0 (.barrier
        { m_lock := false, m_value := 1 - 1, m_head := some 3, m_tail := some 4 }))) ∧
    ((1 : Int) = 1 → ∀ W q, IsQueue demoState.fibers (some 3) (some 4) W →
      IsQueue demoState.fibers demoState.HEAD demoState.TAIL q → (∀ a ∈ W, a ∉ q) →
      demoState.QUEUE_LOCK = false →
      ∃ s', Barrier.signal 0 demoState = .ok s' ∧
        s'.syncs 0 = some (.barrier
          { m_lock := false, m_value := 0, m_head := none, m_tail := none }) ∧
        (∀ x, x ≠ 0 → s'.syncs x = demoState.syncs x) ∧
        IsQueue s'.fibers s'.HEAD s'.TAIL (q ++ W) ∧
        (∀ l, IsQueue s'.fibers s'.HEAD s'.TAIL l → l = q ++ W) ∧
        SameFibersUpToNext demoState.fibers s'.fibers ∧
        s' = { demoState with fibers := s'.fibers, syncs := s'.syncs, HEAD := s'.HEAD,
                              TAIL := s'.TAIL }) :=
  barrier_signal_cases 0 demoState
    { m_lock := false, m_value := 1, m_head := some 3, m_tail := some 4 } rfl rfl

/-- C8: for every barrier state (flag free), `Barrier::wait` returns at once
when the counter is 0 and leaves the whole state unchanged (the barrier, the
status of the current fiber, the held-lock pointer and the ready queue with
it).  When the counter is non-zero and the current fiber is `f`, it marks `f`
Blocked, makes the waiter FIFO equal to the prior waiter FIFO `W` followed by
`f` (with `m_tail = f`), keeps the flag set, records the barrier's flag as the
worker's held lock and calls `yield(Block)`; up to that call only the barrier,
`f`'s status, one `next` link and `HELD_LOCK` change. -/
theorem barrier_wait_cases (self : Nat) (s : State) (B : Barrier)
    (hB : s.syncs self = some (.barrier B)) (hlock : B.m_lock = false) :
    (B.m_value = 0 → Barrier.wait self s = .ok (s, .returned)) ∧
    (B.m_value ≠ 0 → ∀ f ff W, s.EXEC_FIBER = some f → s.fibers f = some ff →
      IsQueue s.fibers B.m_head B.m_tail W → f ∉ W →
      ∃ s' B', Barrier.waitPark self s = .ok (s', some .Block) ∧
        Barrier.wait self s = yield .Block s' ∧
        s'.fibers f = some { ff with m_status := .Blocked } ∧
        s'.syncs self = some (.barrier B') ∧
        B'.m_tail = some f ∧ B'.m_value = B.m_value ∧ B'.m_lock = true ∧
        IsQueue s'.fibers B'.m_head B'.m_tail (W ++ [f]) ∧
        (∀ l, IsQueue s'.fibers B'.m_head B'.m_tail l → l = W ++ [f]) ∧
        s'.HELD_LOCK = some self ∧
        (∀ x, x ≠ self → s'.syncs x = s.syncs x) ∧
        (∀ x, x ≠ f → (s'.fibers x).map (fun r => { r with next := none }) =
          (s.fibers x).map (fun r => { r with next := none })) ∧
        s' = { s with fibers := s'.fibers, syncs := s'.syncs, HELD_LOCK := some self }) := by
  obtain ⟨h0, h1⟩ := barrier_waitPark_ok self s B hB hlock
  refine ⟨fun hv => ?_, fun hv f ff W hE hf hW hfW => ?_⟩
  · simp [Barrier.wait, h0 hv, bind, Except.bind, tailYield, pure, Except.pure]
  · obtain ⟨s', hs', hff, hsy, hq', hoth, hfr⟩ := h1 hv f ff W hE hf hW hfW
    refine ⟨s',
      { m_lock := true, m_value := B.m_value, m_head := (W ++ [f]).head?, m_tail := some f },
      hs', ?_, hff, ?_, rfl, rfl, rfl, hq',
      fun l hl => isQueue_unique hl hq', ?_, fun x hx => ?_, hoth, hfr⟩
    · simp [Barrier.wait, hs', bind, Except.bind, tailYield]
    · rw [hsy]; simp [State.setSync]
    · rw [hfr]
    · rw [hsy]; simp [State.setSync, hx]

/-- C8 at the barrier `0` of `demoState`, on which the fibers `[3, 4]` wait,
called by the current fiber `5`. -/
theorem barrier_wait_cases_witness :
    ((1 : Int) = 0 → Barrier.wait 0 demoState = .ok (demoState, .returned)) ∧
    ((1 : Int) ≠ 0 → ∀ f ff W, demoState.EXEC_FIBER = some f → demoState.fibers f = some ff →
      IsQueue demoState.fibers (some 3) (some 4) W → f ∉ W →
      ∃ s' B', Barrier.waitPark 0 demoState = .ok (s', some .Block) ∧
        Barrier.wait 0 demoState = yield .Block s' ∧
        s'.fibers f = some { ff with m_status := .Blocked } ∧
        s'.syncs 0 = some (.barrier B') ∧
        B'.m_tail = some f ∧ B'.m_value = 1 ∧ B'.m_lock = true ∧
        IsQueue s'.fibers B'.m_head B'.m_tail (W ++ [f]) ∧
        (∀ l, IsQueue s'.fibers B'.m_head B'.m_tail l → l = W ++ [f]) ∧
        s'.HELD_LOCK = some 0 ∧
        (∀ x, x ≠ 0 → s'.syncs x = demoState.syncs x) ∧
        (∀ x, x ≠ f → (s'.fibers x).map (fun r => { r with next := none }) =
          (demoState.fibers x).map (fun r => { r with next := none })) ∧
        s' = { demoState with fibers := s'.fibers, syncs := s'.syncs,
                              HELD_LOCK := some 0 }) :=
  barrier_wait_cases 0 demoState
    { m_lock := false, m_value := 1, m_head := some 3, m_tail := some 4 } rfl rfl

/-- C6 (no lost wakeup): for every semaphore with counter 0, a free flag and an
empty waiter list (`m_tail` null, which is what `wait` tests) and every current
fiber `f` (live, on no list),
`Semaphore::wait` by `f` completes and parks `f`: `f` is Blocked with its
context saved in its own slot, it is the only waiter, and the flag is free
again.  The next `Semaphore::signal`, in whatever state `s₂` it is called that
still holds this semaphore and this fiber record, puts `f` at the tail of the
ready queue and leaves the semaphore with counter 0 and an empty waiter list;
`f` is resumable: once it is at the head of the queue, `yield` dispatches it
as a Blocked fiber, back into its parked `yield`. -/
theorem semaphore_no_lost_wakeup (self f : Nat) (s : State) (M : Semaphore) (ff : Fiber)
    (q : List Nat)
    (hM : s.syncs self = some (.semaphore M)) (hlock : M.m_lock = false)
    (hv : M.m_value = 0) (ht : M.m_tail = none)
    (hE : s.EXEC_FIBER = some f) (hf : s.fibers f = some ff)
    (hql : s.QUEUE_LOCK = false) (hq : IsQueue s.fibers s.HEAD s.TAIL q) (hfq : f ∉ q) :
    ∃ s₁ c fp, Semaphore.wait self s = .ok (s₁, c) ∧
      fp = { ff with m_status := .Blocked, m_fiberStack := (2 ^ 64 - 40 + s.rsp) % 2 ^ 64,
                     m_fiberBase := s.rbp } ∧
      s₁.fibers f = some fp ∧
      s₁.syncs self = some (.semaphore
        { m_lock := false, m_value := 0, m_head := some f, m_tail := some f }) ∧
      IsQueue s₁.fibers s₁.HEAD s₁.TAIL q.tail ∧ s₁.QUEUE_LOCK = false ∧
      ∀ s₂ q₂, s₂.syncs self = s₁.syncs self → s₂.fibers f = s₁.fibers f →
        s₂.QUEUE_LOCK = false → IsQueue s₂.fibers s₂.HEAD s₂.TAIL q₂ → f ∉ q₂ →
        ∃ s₃, Semaphore.signal self s₂ = .ok s₃ ∧
          IsQueue s₃.fibers s₃.HEAD s₃.TAIL (q₂ ++ [f]) ∧ s₃.TAIL = some f ∧
          s₃.syncs self = some (.semaphore
            { m_lock := false, m_value := 0, m_head := none, m_tail := none }) ∧
          s₃.fibers f = some { fp with next := none } ∧
          (q₂ = [] → ∃ s₄, yield .Acquire s₃ = .ok (s₄, .resume f) ∧
            s₄.EXEC_FIBER = some f ∧
            s₄.fibers f = some { fp with next := none, m_status := .Active }) := by
  have hv' : M.m_value ≤ 0 := by omega
  have hpark := ((semaphore_waitPark_ok self s M hM hlock).2 hv' f ff hE hf).1 ht
  set sp : State := ({ s.setFiber f { ff with m_status := .Blocked } with
      syncs := (s.setSync self (.semaphore
        { M with m_lock := true, m_head := some f, m_tail := some f })).syncs,
      HELD_LOCK := some self } : State) with hsp
  have hqp : IsQueue sp.fibers sp.HEAD sp.TAIL q := by
    have : IsQueue sp.fibers s.HEAD s.TAIL q :=
      isQueue_congr (fun a ha => by
        have : a ≠ f := fun h => hfq (h ▸ ha)
        simp [hsp, State.setFiber, this]) hq
    simpa [hsp, State.setFiber] using this
  obtain ⟨s₁, c, hy, hsy, _, hl₁, hff₁, hq₁, _, _, _⟩ :=
    yield_block_ok sp f self { ff with m_status := .Blocked }
      (.semaphore { M with m_lock := true, m_head := some f, m_tail := some f }) q
      (by simpa [hsp, State.setFiber] using hE) (by simp [hsp, State.setFiber]) rfl
      (by simp [hsp]) (by simp [hsp, State.setSync])
      (by simpa [hsp, State.setFiber] using hql) hqp hfq
  have hsy₁ : s₁.syncs self = some (.semaphore
      { m_lock := false, m_value := 0, m_head := some f, m_tail := some f }) := by
    rw [hsy]; simp [State.setSync, Sync.unlock, hv]
  refine ⟨s₁, c, _, ?_, rfl, ?_, hsy₁, hq₁, hl₁, ?_⟩
  · simp [Semaphore.wait, hpark, bind, Except.bind, tailYield, ← hsp, hy]
  · rw [hff₁]; simp [hsp, State.setFiber]
  · intro s₂ q₂ hsy₂ hf₂ hl₂ hq₂ hfq₂
    rw [hsy₁] at hsy₂
    have hf₂' : s₂.fibers f = some
        { ff with m_status := .Blocked, m_fiberStack := (2 ^ 64 - 40 + s.rsp) % 2 ^ 64,
                  m_fiberBase := s.rbp } := by
      rw [hf₂, hff₁]; simp [hsp, State.setFiber]
    obtain ⟨s₃, hs₃, hsy₃, hq₃, hT₃, hnx₃, hsame₃, hfr₃⟩ :=
      (semaphore_signal_ok self s₂ _ hsy₂ rfl).2 f q₂ rfl rfl (by simp [hf₂']) hl₂ hq₂ hfq₂
    have hf₃ : s₃.fibers f = some
        { ff with m_status := .Blocked, m_fiberStack := (2 ^ 64 - 40 + s.rsp) % 2 ^ 64,
                  m_fiberBase := s.rbp, next := none } := by
      have h1 := hsame₃ f
      rw [hf₂'] at h1
      cases h3 : s₃.fibers f with
      | none => simp [h3] at h1
      | some r =>
        simp only [nextOf, h3, Option.bind_some] at hnx₃
        simp only [h3, Option.map_some', Option.some.injEq] at h1
        have hr : r = { r with next := none } := by
          cases r
          cases hnx₃
          rfl
        rw [hr, h1]
    refine ⟨s₃, hs₃, hq₃, hT₃, ?_, hf₃, ?_⟩
    · rw [hsy₃]; simp [State.setSync]
    · rintro rfl
      have hl₃ : s₃.QUEUE_LOCK = false := by rw [hfr₃]; exact hl₂
      obtain ⟨gf, hgf, s₄, hy₄, _, hE₄, hg₄, _⟩ :=
        (yieldAcquire_ok .returned s₃ [f] hl₃ (by simpa using hq₃)).2 f [] rfl
      rw [hf₃] at hgf
      have hgf' := (Option.some.inj hgf).symm
      subst hgf'
      refine ⟨s₄, ?_, hE₄, ?_⟩
      · simpa [yield_acquire_def, dispatchedControl] using hy₄
      · simpa [dispatchedStatus] using hg₄

/-- C6 at the semaphore `1` of `demoState`, called by the current fiber `5`
while the ready queue is `[1, 2]`. -/
theorem semaphore_no_lost_wakeup_witness :
    ∃ s₁ c fp, Semaphore.wait 1 demoState = .ok (s₁, c) ∧
      fp = { mkFiber .Active none with
              m_status := .Blocked, m_fiberStack := (2 ^ 64 - 40 + 5000) % 2 ^ 64,
              m_fiberBase := 5040 } ∧
      s₁.fibers 5 = some fp ∧
      s₁.syncs 1 = some (.semaphore
        { m_lock := false, m_value := 0, m_head := some 5, m_tail := some 5 }) ∧
      IsQueue s₁.fibers s₁.HEAD s₁.TAIL [2] ∧ s₁.QUEUE_LOCK = false ∧
      ∀ s₂ q₂, s₂.syncs 1 = s₁.syncs 1 → s₂.fibers 5 = s₁.fibers 5 →
        s₂.QUEUE_LOCK = false → IsQueue s₂.fibers s₂.HEAD s₂.TAIL q₂ → 5 ∉ q₂ →
        ∃ s₃, Semaphore.signal 1 s₂ = .ok s₃ ∧
          IsQueue s₃.fibers s₃.HEAD s₃.TAIL (q₂ ++ [5]) ∧ s₃.TAIL = some 5 ∧
          s₃.syncs 1 = some (.semaphore
            { m_lock := false, m_value := 0, m_head := none, m_tail := none }) ∧
          s₃.fibers 5 = some { fp with next := none } ∧
          (q₂ = [] → ∃ s₄, yield .Acquire s₃ = .ok (s₄, .resume 5) ∧
            s₄.EXEC_FIBER = some 5 ∧
            s₄.fibers 5 = some { fp with next := none, m_status := .Active }) :=
  semaphore_no_lost_wakeup 1 5 demoState
    { m_lock := false, m_value := 0, m_head := none, m_tail := none } (mkFiber .Active none)
    [1, 2] rfl rfl rfl rfl rfl rfl rfl (by decide) (by decide)

/-! ## What completed calls leave alone -/

theorem bind_ok {ε α β : Type} {x : Except ε α} {f : α → Except ε β} {b : β}
    (h : (x >>= f) = .ok b) : ∃ a, x = .ok a ∧ f a = .ok b := by
  cases x with
  | error e => cases h
  | ok a => exact ⟨a, rfl, h⟩

theorem derefFiber_inv {s : State} {p : Option Nat} {a : Nat} {f : Fiber}
    (h : derefFiber s p = .ok (a, f)) : p = some a ∧ s.fibers a = some f := by
  unfold derefFiber at h
  split at h
  · cases h
  · split at h
    · cases h
    · cases h; exact ⟨rfl, by assumption⟩

theorem acquireLock_inv {s s' : State} (h : acquireLock s = .ok s') :
    s.QUEUE_LOCK = false ∧ s' = { s with QUEUE_LOCK := true } := by
  unfold acquireLock at h
  split at h
  · cases h
  · cases h; exact ⟨by simpa using ‹¬ s.QUEUE_LOCK = true›, rfl⟩

theorem pure_ok {ε α : Type} {a b : α} (h : (pure a : Except ε α) = .ok b) : a = b := by
  cases h; rfl

/-- A completed `append` changes `next` links, `HEAD` and `TAIL` only. -/
theorem append_inv {head tail : Option Nat} {s s' : State}
    (h : append head tail s = .ok s') :
    s'.syncs = s.syncs ∧ s'.HELD_LOCK = s.HELD_LOCK ∧ s'.EXEC_FIBER = s.EXEC_FIBER ∧
    s'.P_STACK = s.P_STACK ∧ s'.P_BASE = s.P_BASE ∧ s'.rsp = s.rsp ∧ s'.rbp = s.rbp ∧
    s'.QUEUE_LOCK = false ∧ SameFibersUpToNext s.fibers s'.fibers := by
  unfold append at h
  obtain ⟨⟨t, tf⟩, h₁, h⟩ := bind_ok h
  obtain ⟨_, htf⟩ := derefFiber_inv h₁
  obtain ⟨s₂, h₂, h⟩ := bind_ok h
  obtain ⟨_, e₂⟩ := acquireLock_inv h₂
  subst e₂
  have hs₁ := sameUpToNext_setFiber s t tf none htf
  dsimp only at h
  split at h
  · obtain ⟨s₃, h₃, h⟩ := bind_ok h
    cases h₃
    cases h
    exact ⟨rfl, rfl, rfl, rfl, rfl, rfl, rfl, rfl, hs₁⟩
  · obtain ⟨⟨T, Tf⟩, h₄, h⟩ := bind_ok h
    obtain ⟨hT, hTf⟩ := derefFiber_inv h₄
    cases hT
    obtain ⟨s₃, h₃, h⟩ := bind_ok h
    cases h₃
    cases h
    refine ⟨rfl, rfl, rfl, rfl, rfl, rfl, rfl, rfl, ?_⟩
    have hs₂ := sameUpToNext_setFiber _ _ Tf head hTf
    intro a
    exact (hs₂ a).trans (hs₁ a)

/-- A completed `acquireNext` changes `HEAD` and `TAIL` only. -/
theorem acquireNext_inv {s s' : State} {p : Option Nat}
    (h : acquireNext s = .ok (p, s')) :
    s.QUEUE_LOCK = false ∧ p = s.HEAD ∧
    s'.fibers = s.fibers ∧ s'.syncs = s.syncs ∧ s'.QUEUE_LOCK = false ∧
    s'.HELD_LOCK = s.HELD_LOCK ∧ s'.EXEC_FIBER = s.EXEC_FIBER ∧
    s'.P_STACK = s.P_STACK ∧ s'.P_BASE = s.P_BASE ∧ s'.rsp = s.rsp ∧ s'.rbp = s.rbp := by
  unfold acquireNext at h
  obtain ⟨s₂, h₂, h⟩ := bind_ok h
  obtain ⟨hl, e₂⟩ := acquireLock_inv h₂
  subst e₂
  dsimp only at h
  split at h
  · obtain ⟨s₃, h₃, h⟩ := bind_ok h
    cases h₃
    cases h
    exact ⟨hl, rfl, rfl, rfl, rfl, rfl, rfl, rfl, rfl, rfl, rfl⟩
  · split at h
    · obtain ⟨s₃, h₃, h⟩ := bind_ok h
      cases h₃
      cases h
      exact ⟨hl, rfl, rfl, rfl, rfl, rfl, rfl, rfl, rfl, rfl, rfl⟩
    · obtain ⟨⟨_, f⟩, _, h⟩ := bind_ok h
      obtain ⟨s₃, h₃, h⟩ := bind_ok h
      cases h₃
      cases h
      exact ⟨hl, rfl, rfl, rfl, rfl, rfl, rfl, rfl, rfl, rfl, rfl⟩

/-- A completed Acquire part of `yield` either finds the queue empty and
changes nothing but `HEAD`/`TAIL`, or dispatches the fiber at `HEAD`. -/
theorem yieldAcquire_inv {back : Control} {s s' : State} {c : Control}
    (h : yieldAcquire back s = .ok (s', c)) :
    s'.syncs = s.syncs ∧ s'.HELD_LOCK = s.HELD_LOCK ∧
    ((s.HEAD = none ∧ c = back ∧ s'.fibers = s.fibers ∧ s'.EXEC_FIBER = s.EXEC_FIBER ∧
        s'.P_STACK = s.P_STACK ∧ s'.P_BASE = s.P_BASE ∧ s'.rsp = s.rsp ∧ s'.rbp = s.rbp) ∨
     (∃ g gf, s.HEAD = some g ∧ s.fibers g = some gf ∧
        c = dispatchedControl back g gf.m_status ∧ s'.EXEC_FIBER = some g ∧
        s'.fibers g = some { gf with m_status := dispatchedStatus gf.m_status } ∧
        (∀ x, x ≠ g → s'.fibers x = s.fibers x) ∧
        s'.P_STACK = (2 ^ 64 - 40 + s.rsp) % 2 ^ 64 ∧ s'.P_BASE = s.rbp)) := by
  unfold yieldAcquire at h
  obtain ⟨⟨p, s₁⟩, h₁, h⟩ := bind_ok h
  obtain ⟨_, hp, hf₁, hsy₁, _, hhl₁, hex₁, hps₁, hpb₁, hrsp₁, hrbp₁⟩ := acquireNext_inv h₁
  dsimp only at h
  split at h
  · cases h
    exact ⟨hsy₁, hhl₁, Or.inl ⟨hp.symm, rfl, hf₁, hex₁, hps₁, hpb₁, hrsp₁, hrbp₁⟩⟩
  · rename_i g
    obtain ⟨⟨g', gf⟩, h₂, h⟩ := bind_ok h
    obtain ⟨hg, hgf⟩ := derefFiber_inv h₂
    cases hg
    simp only [saveWorker_proj, pusha_proj, hf₁] at hgf
    refine ⟨?_, ?_, Or.inr ⟨g, gf, hp.symm, hgf, ?_⟩⟩
    · dsimp only at h
      split at h <;> cases h <;>
        simp only [loadRegs_proj, popa_proj, setFiber_proj, setExec_proj, saveWorker_proj,
          pusha_proj, hsy₁]
    · dsimp only at h
      split at h <;> cases h <;>
        simp only [loadRegs_proj, popa_proj, setFiber_proj, setExec_proj, saveWorker_proj,
          pusha_proj, hhl₁]
    · dsimp only at h
      have hrest : ∀ (f : Fiber) (x : Nat), x ≠ g →
          (((saveWorker (pusha s₁)).setExec (some g)).setFiber g f).fibers x = s.fibers x := by
        intro f x hx
        rw [setFiber_other _ _ hx]
        simp only [setExec_proj, saveWorker_proj, pusha_proj, hf₁]
      split at h
      · rename_i hst
        cases h
        refine ⟨?_, ?_, ?_, hrest _, ?_, ?_⟩
        · rw [hst]; rfl
        · simp only [loadRegs_proj, setFiber_proj, setExec_proj]
        · simp only [loadRegs_proj, setFiber_same, hst, dispatchedStatus]
        · simp only [loadRegs_proj, setFiber_proj, setExec_proj, saveWorker_proj, pusha_proj,
            hrsp₁]
        · simp only [loadRegs_proj, setFiber_proj, setExec_proj, saveWorker_proj, pusha_proj,
            hrbp₁]
      · rename_i hst
        cases h
        refine ⟨?_, ?_, ?_, ?_, ?_, ?_⟩
        · rw [hst]; rfl
        · simp only [popa_proj, loadRegs_proj, setFiber_proj, setExec_proj]
        · simp only [popa_proj, loadRegs_proj, setFiber_same, hst, dispatchedStatus]
        · intro x hx
          simp only [popa_proj, loadRegs_proj]
          exact hrest _ x hx
        · simp only [popa_proj, loadRegs_proj, setFiber_proj, setExec_proj, saveWorker_proj,
            pusha_proj, hrsp₁]
        · simp only [popa_proj, loadRegs_proj, setFiber_proj, setExec_proj, saveWorker_proj,
            pusha_proj, hrbp₁]
      · rename_i hn hb
        cases h
        have hc : dispatchedControl back g gf.m_status = back := by
          cases hst : gf.m_status
          · exact absurd hst hn
          · rfl
          · exact absurd hst hb
          · rfl
        have hd : dispatchedStatus gf.m_status = gf.m_status := by
          cases hst : gf.m_status
          · exact absurd hst hn
          · rfl
          · exact absurd hst hb
          · rfl
        refine ⟨hc.symm, ?_, ?_, ?_, ?_, ?_⟩
        · simp only [setExec_proj]
        · simp only [setExec_proj, saveWorker_proj, pusha_proj, hf₁, hgf, hd]
        · intro x _
          simp only [setExec_proj, saveWorker_proj, pusha_proj, hf₁]
        · simp only [setExec_proj, saveWorker_proj, pusha_proj, hrsp₁]
        · simp only [setExec_proj, saveWorker_proj, pusha_proj, hrbp₁]

theorem yieldSave_inv {s s' : State} (h : yieldSave s = .ok s') :
    ∃ f ff, s.EXEC_FIBER = some f ∧ s.fibers f = some ff ∧
      s' = (pusha s).setFiber f
        { ff with m_fiberStack := (2 ^ 64 - 40 + s.rsp) % 2 ^ 64, m_fiberBase := s.rbp } := by
  unfold yieldSave at h
  obtain ⟨⟨f, ff⟩, h₁, h⟩ := bind_ok h
  obtain ⟨hE, hf⟩ := derefFiber_inv h₁
  cases h
  exact ⟨f, ff, hE, hf, rfl⟩

theorem yieldClearHeld_inv {s s' : State} (h : yieldClearHeld s = .ok s') :
    ∃ l o, s.HELD_LOCK = some l ∧ s.syncs l = some o ∧ s' = s.setSync l o.unlock := by
  unfold yieldClearHeld at h
  split at h
  · cases h
  · rename_i l hl
    split at h
    · rename_i b hb
      cases h
      exact ⟨l, _, hl, hb, rfl⟩
    · rename_i m hm
      cases h
      exact ⟨l, _, hl, hm, rfl⟩
    · cases h

theorem yieldRetire_inv {s s' : State} (h : yieldRetire s = .ok s') :
    ∃ f ff, s.EXEC_FIBER = some f ∧ s.fibers f = some ff ∧
      s' = (match ff.m_status with
        | .Done => s.freeFiber f
        | .Blocked => s.setHeld none
        | _ => s).setExec none := by
  unfold yieldRetire at h
  obtain ⟨⟨f, ff⟩, h₁, h⟩ := bind_ok h
  obtain ⟨hE, hf⟩ := derefFiber_inv h₁
  cases h
  exact ⟨f, ff, hE, hf, rfl⟩

/-- A completed `yield(Return)`: the Acquire part starts in the state the
retiring of the current fiber leaves. -/
theorem yield_return_inv {s s' : State} {c : Control} (h : yield .Return s = .ok (s', c)) :
    ∃ f ff, s.EXEC_FIBER = some f ∧ s.fibers f = some ff ∧
      yieldAcquire .worker ((match ff.m_status with
        | .Done => (yieldRestore s).freeFiber f
        | .Blocked => (yieldRestore s).setHeld none
        | _ => yieldRestore s).setExec none) = .ok (s', c) := by
  rw [yield_return_def] at h
  obtain ⟨s₁, h₁, h⟩ := bind_ok h
  obtain ⟨f, ff, hE, hf, e⟩ := yieldRetire_inv h₁
  subst e
  simp only [yieldRestore_proj] at hE hf
  exact ⟨f, ff, hE, hf, h⟩

/-- A completed `yield(Block)`: the Acquire part starts in the state that the
save of the context, the clear of the held flag, the restore of the worker's
context and the retiring of the current fiber leave. -/
theorem yield_block_inv {s s' : State} {c : Control} (h : yield .Block s = .ok (s', c)) :
    ∃ f ff l o, s.EXEC_FIBER = some f ∧ s.fibers f = some ff ∧
      s.HELD_LOCK = some l ∧ s.syncs l = some o ∧
      yieldAcquire .worker ((match ff.m_status with
        | .Done => (yieldRestore (((pusha s).setFiber f
            { ff with m_fiberStack := (2 ^ 64 - 40 + s.rsp) % 2 ^ 64,
                      m_fiberBase := s.rbp }).setSync l o.unlock)).freeFiber f
        | .Blocked => (yieldRestore (((pusha s).setFiber f
            { ff with m_fiberStack := (2 ^ 64 - 40 + s.rsp) % 2 ^ 64,
                      m_fiberBase := s.rbp }).setSync l o.unlock)).setHeld none
        | _ => yieldRestore (((pusha s).setFiber f
            { ff with m_fiberStack := (2 ^ 64 - 40 + s.rsp) % 2 ^ 64,
                      m_fiberBase := s.rbp }).setSync l o.unlock)).setExec none) = .ok (s', c) := by
  rw [yield_block_def] at h
  obtain ⟨s₁, h₁, h⟩ := bind_ok h
  obtain ⟨f, ff, hE, hf, e₁⟩ := yieldSave_inv h₁
  subst e₁
  obtain ⟨s₂, h₂, h⟩ := bind_ok h
  obtain ⟨l, o, hH, hl, e₂⟩ := yieldClearHeld_inv h₂
  subst e₂
  simp only [setFiber_proj, pusha_proj] at hH hl
  obtain ⟨s₃, h₃, h⟩ := bind_ok h
  obtain ⟨f', ff', hE', hf', e₃⟩ := yieldRetire_inv h₃
  subst e₃
  simp only [yieldRestore_proj, setSync_proj, setFiber_proj, pusha_proj, hE] at hE'
  cases hE'
  simp only [yieldRestore_proj, setSync_proj, setFiber_same] at hf'
  cases hf'
  exact ⟨f, ff, l, o, hE, hf, hH, hl, h⟩

/-- A completed `yield`, in any mode, leaves every synchronisation object as it
was, except that Block mode clears the flag of the held lock. -/
theorem yield_syncs {ty : YieldType} {s s' : State} {c : Control}
    (h : yield ty s = .ok (s', c)) :
    (ty ≠ .Block → s'.syncs = s.syncs) ∧
    (ty = .Block → ∃ l o, s.HELD_LOCK = some l ∧ s.syncs l = some o ∧
      s'.syncs = (s.setSync l o.unlock).syncs) := by
  cases ty with
  | Acquire =>
    refine ⟨fun _ => (yieldAcquire_inv h).1, fun h' => by cases h'⟩
  | Return =>
    refine ⟨fun _ => ?_, fun h' => by cases h'⟩
    obtain ⟨f, ff, _, _, hA⟩ := yield_return_inv h
    rw [(yieldAcquire_inv hA).1]
    cases ff.m_status <;>
      simp only [setExec_proj, freeFiber_proj, setHeld_proj, yieldRestore_proj]
  | Block =>
    refine ⟨fun h' => absurd rfl h', fun _ => ?_⟩
    obtain ⟨f, ff, l, o, _, _, hH, hl, hA⟩ := yield_block_inv h
    refine ⟨l, o, hH, hl, ?_⟩
    rw [(yieldAcquire_inv hA).1]
    cases ff.m_status <;>
      simp only [setExec_proj, freeFiber_proj, setHeld_proj, yieldRestore_proj] <;> rfl

theorem derefBarrier_inv {s : State} {a : Nat} {B : Barrier}
    (h : derefBarrier s a = .ok B) : s.syncs a = some (.barrier B) := by
  unfold derefBarrier at h
  split at h
  · cases h; assumption
  · cases h

theorem derefSemaphore_inv {s : State} {a : Nat} {M : Semaphore}
    (h : derefSemaphore s a = .ok M) : s.syncs a = some (.semaphore M) := by
  unfold derefSemaphore at h
  split at h
  · cases h; assumption
  · cases h

theorem statusOf_setFiber_same (s : State) (a : Nat) (f : Fiber) :
    statusOf (s.setFiber a f) a = some f.m_status := by
  simp only [statusOf, setFiber_same, Option.map_some']

theorem statusOf_setFiber_other (s : State) {a x : Nat} (f : Fiber) (hx : x ≠ a) :
    statusOf (s.setFiber a f) x = statusOf s x := by
  simp only [statusOf, setFiber_other _ _ hx]

theorem statusOf_of_same {h h' : Nat → Option Fiber} (hs : SameFibersUpToNext h h') (a : Nat) :
    (h' a).map Fiber.m_status = (h a).map Fiber.m_status := by
  have := congrArg (Option.map Fiber.m_status) (hs a)
  simpa only [Option.map_map, Function.comp_def] using this

/-- A completed `Barrier::signal`: the barrier it found and what it left. -/
theorem barrier_signal_inv {self : Nat} {s s' : State} (h : Barrier.signal self s = .ok s') :
    ∃ B, s.syncs self = some (.barrier B) ∧ B.m_lock = false ∧
      ((B.m_value ≤ 0 ∧ s' = s) ∨
       (B.m_value > 1 ∧ s' = s.setSync self (.barrier { B with m_value := B.m_value - 1 })) ∨
       (B.m_value = 1 ∧ B.m_head = none ∧ s' = s.setSync self
          (.barrier { m_lock := false, m_value := 0, m_head := none, m_tail := none })) ∨
       (B.m_value = 1 ∧ B.m_head ≠ none ∧ append B.m_head B.m_tail (s.setSync self
          (.barrier { m_lock := false, m_value := 0, m_head := none, m_tail := none }))
            = .ok s')) := by
  have h₀ := h
  unfold Barrier.signal at h
  obtain ⟨B, h₁, h⟩ := bind_ok h
  have hB := derefBarrier_inv h₁
  cases hlock : B.m_lock with
  | true => simp [hlock, bind, Except.bind, throw, throwThe, MonadExceptOf.throw] at h
  | false =>
    refine ⟨B, hB, hlock, ?_⟩
    have hok := barrier_signal_ok self s B hB hlock
    rcases lt_trichotomy B.m_value 1 with hv | hv | hv
    · left
      have := hok.1 (by omega)
      rw [this] at h₀
      cases h₀
      exact ⟨by omega, rfl⟩
    · right; right
      by_cases hh : B.m_head = none
      · left
        refine ⟨hv, hh, ?_⟩
        simp [hlock, hv, hh, Barrier.countDown, bind, Except.bind, pure, Except.pure] at h
        exact h.symm
      · right
        refine ⟨hv, hh, ?_⟩
        simp [hlock, hv, hh, Barrier.countDown, bind, Except.bind, pure, Except.pure] at h
        exact h
    · right; left
      have := hok.2.1 hv
      rw [this] at h₀
      cases h₀
      exact ⟨hv, rfl⟩

/-- What a completed `Barrier::signal` leaves alone. -/
theorem barrier_signal_frame {self : Nat} {s s' : State} (h : Barrier.signal self s = .ok s') :
    (∀ x, x ≠ self → s'.syncs x = s.syncs x) ∧ SameFibersUpToNext s.fibers s'.fibers ∧
    s'.HELD_LOCK = s.HELD_LOCK ∧ s'.EXEC_FIBER = s.EXEC_FIBER := by
  obtain ⟨B, hB, _, h | h | h | h⟩ := barrier_signal_inv h
  · obtain ⟨_, e⟩ := h
    subst e
    exact ⟨fun _ _ => rfl, fun _ => rfl, rfl, rfl⟩
  · obtain ⟨_, e⟩ := h
    subst e
    exact ⟨fun x hx => setSync_other _ _ hx, fun _ => rfl, rfl, rfl⟩
  · obtain ⟨_, _, e⟩ := h
    subst e
    exact ⟨fun x hx => setSync_other _ _ hx, fun _ => rfl, rfl, rfl⟩
  · obtain ⟨_, _, e⟩ := h
    obtain ⟨hsy, hhl, hex, _, _, _, _, _, hsame⟩ := append_inv e
    refine ⟨fun x hx => ?_, hsame, hhl, hex⟩
    rw [hsy]
    exact setSync_other _ _ hx

/-- A completed park part of `Barrier::wait`: the barrier it found and the
state it left. -/
theorem barrier_waitPark_inv {self : Nat} {s s₁ : State} {r : Option YieldType}
    (h : Barrier.waitPark self s = .ok (s₁, r)) :
    ∃ B, s.syncs self = some (.barrier B) ∧ B.m_lock = false ∧
      ((B.m_value = 0 ∧ r = none ∧ s₁ = s) ∨
       (B.m_value ≠ 0 ∧ r = some .Block ∧ ∃ f ff, s.EXEC_FIBER = some f ∧
          s.fibers f = some ff ∧
          s₁.HELD_LOCK = some self ∧ s₁.EXEC_FIBER = some f ∧
          s₁.QUEUE_LOCK = s.QUEUE_LOCK ∧ s₁.HEAD = s.HEAD ∧ s₁.TAIL = s.TAIL ∧
          s₁.P_STACK = s.P_STACK ∧ s₁.P_BASE = s.P_BASE ∧ s₁.rsp = s.rsp ∧ s₁.rbp = s.rbp ∧
          (∀ x, x ≠ self → s₁.syncs x = s.syncs x) ∧
          ((B.m_tail = none ∧
              s₁.syncs self = some (.barrier { B with m_lock := true, m_head := some f,
                                                      m_tail := some f }) ∧
              s₁.fibers = (s.setFiber f { ff with m_status := .Blocked }).fibers) ∨
           (∃ t tf, B.m_tail = some t ∧
              (s.setFiber f { ff with m_status := .Blocked }).fibers t = some tf ∧
              s₁.syncs self = some (.barrier { B with m_lock := true, m_tail := some f }) ∧
              s₁.fibers = ((s.setFiber f { ff with m_status := .Blocked }).setFiber t
                { tf with next := some f }).fibers)))) := by
  have h₀ := h
  unfold Barrier.waitPark at h
  obtain ⟨B, h₁, h⟩ := bind_ok h
  have hB := derefBarrier_inv h₁
  cases hlock : B.m_lock with
  | true => simp [hlock, bind, Except.bind, throw, throwThe, MonadExceptOf.throw] at h
  | false =>
    refine ⟨B, hB, hlock, ?_⟩
    have hok := barrier_waitPark_ok self s B hB hlock
    by_cases hv : B.m_value = 0
    · left
      rw [hok.1 hv] at h₀
      cases h₀
      exact ⟨hv, rfl, rfl⟩
    · right
      simp only [hlock, Bool.false_eq_true, ↓reduceIte, hv] at h
      obtain ⟨u, h₂, h⟩ := bind_ok h
      obtain ⟨⟨f, ff⟩, h₃, h⟩ := bind_ok h
      obtain ⟨hE, hf⟩ := derefFiber_inv h₃
      simp only [setSync_proj] at hf
      dsimp only at h
      split at h
      · rename_i ht
        cases h
        refine ⟨hv, rfl, f, ff, hE, hf, rfl, hE, rfl, rfl, rfl, rfl, rfl, rfl, rfl, ?_, Or.inl ⟨ht, ?_, rfl⟩⟩
        · intro x hx
          show ((_ : State).setSync self _).syncs x = _
          rw [setSync_other _ _ hx]
          show ((_ : State).setSync self _).syncs x = _
          rw [setSync_other _ _ hx]
        · show ((_ : State).setSync self _).syncs self = _
          rw [setSync_same, hE]
      · rename_i t ht
        obtain ⟨⟨t', tf⟩, h₄, h⟩ := bind_ok h
        obtain ⟨hT, htf⟩ := derefFiber_inv h₄
        cases hT
        cases h
        refine ⟨hv, rfl, f, ff, hE, hf, rfl, hE, rfl, rfl, rfl, rfl, rfl, rfl, rfl, ?_,
          Or.inr ⟨t, tf, ht, htf, ?_, ?_⟩⟩
        · intro x hx
          show ((_ : State).setSync self _).syncs x = _
          rw [setSync_other _ _ hx]
          show ((_ : State).setSync self _).syncs x = _
          rw [setSync_other _ _ hx]
        · show ((_ : State).setSync self _).syncs self = _
          rw [setSync_same, hE]
        · show ((_ : State).setFiber t _).fibers = _
          rw [hE]
          rfl

/-- A completed `Semaphore::signal`: the semaphore it found and what it did. -/
theorem semaphore_signal_inv {self : Nat} {s s' : State}
    (h : Semaphore.signal self s = .ok s') :
    ∃ M, s.syncs self = some (.semaphore M) ∧ M.m_lock = false ∧
      ((M.m_head = none ∧
          s' = s.setSync self (.semaphore { M with m_value := M.m_value + 1 })) ∨
       (M.m_head ≠ none ∧ M.m_head = M.m_tail ∧
          append M.m_head M.m_tail (s.setSync self (.semaphore
            { m_lock := false, m_value := M.m_value, m_head := none, m_tail := none }))
              = .ok s') ∨
       (∃ a hf, M.m_head = some a ∧ M.m_head ≠ M.m_tail ∧ s.fibers a = some hf ∧
          append M.m_head M.m_tail (s.setSync self (.semaphore
            { m_lock := false, m_value := M.m_value, m_head := hf.next, m_tail := M.m_tail }))
              = .ok s')) := by
  have h₀ := h
  unfold Semaphore.signal at h
  obtain ⟨M, h₁, h⟩ := bind_ok h
  have hM := derefSemaphore_inv h₁
  cases hlock : M.m_lock with
  | true => simp [hlock, bind, Except.bind, throw, throwThe, MonadExceptOf.throw] at h
  | false =>
    refine ⟨M, hM, hlock, ?_⟩
    have hok := semaphore_signal_ok self s M hM hlock
    by_cases hh : M.m_head = none
    · left
      rw [hok.1 hh] at h₀
      cases h₀
      exact ⟨hh, rfl⟩
    · right
      simp only [hlock, Bool.false_eq_true, ↓reduceIte, ne_eq, hh, not_false_eq_true] at h
      obtain ⟨u, h₂, h⟩ := bind_ok h
      by_cases ht : M.m_head = M.m_tail
      · left
        simp only [ht, ↓reduceIte] at h
        obtain ⟨m, h₃, h⟩ := bind_ok h
        cases h₃
        exact ⟨hh, ht, by rw [ht]; exact h⟩
      · right
        simp only [ht, ↓reduceIte] at h
        obtain ⟨m, h₃, h⟩ := bind_ok h
        obtain ⟨a, hf⟩ := m
        obtain ⟨ha, hfa⟩ := derefFiber_inv h₃
        exact ⟨a, hf, ha, ht, hfa, h⟩

/-- What a completed `Semaphore::signal` leaves alone. -/
theorem semaphore_signal_frame {self : Nat} {s s' : State}
    (h : Semaphore.signal self s = .ok s') :
    (∀ x, x ≠ self → s'.syncs x = s.syncs x) ∧ SameFibersUpToNext s.fibers s'.fibers ∧
    s'.HELD_LOCK = s.HELD_LOCK ∧ s'.EXEC_FIBER = s.EXEC_FIBER := by
  obtain ⟨M, hM, _, h | h | h⟩ := semaphore_signal_inv h
  · obtain ⟨_, e⟩ := h
    subst e
    exact ⟨fun x hx => setSync_other _ _ hx, fun _ => rfl, rfl, rfl⟩
  · obtain ⟨_, _, e⟩ := h
    obtain ⟨hsy, hhl, hex, _, _, _, _, _, hsame⟩ := append_inv e
    refine ⟨fun x hx => ?_, hsame, hhl, hex⟩
    rw [hsy]
    exact setSync_other _ _ hx
  · obtain ⟨_, _, _, _, _, e⟩ := h
    obtain ⟨hsy, hhl, hex, _, _, _, _, _, hsame⟩ := append_inv e
    refine ⟨fun x hx => ?_, hsame, hhl, hex⟩
    rw [hsy]
    exact setSync_other _ _ hx

/-- A completed park part of `Semaphore::wait`: the semaphore it found and the
state it left. -/
theorem semaphore_waitPark_inv {self : Nat} {s s₁ : State} {r : Option YieldType}
    (h : Semaphore.waitPark self s = .ok (s₁, r)) :
    ∃ M, s.syncs self = some (.semaphore M) ∧ M.m_lock = false ∧
      ((M.m_value > 0 ∧ r = none ∧
          s₁ = s.setSync self (.semaphore { M with m_value := M.m_value - 1 })) ∨
       (M.m_value ≤ 0 ∧ r = some .Block ∧ ∃ f ff, s.EXEC_FIBER = some f ∧
          s.fibers f = some ff ∧
          s₁.HELD_LOCK = some self ∧ s₁.EXEC_FIBER = some f ∧
          s₁.QUEUE_LOCK = s.QUEUE_LOCK ∧ s₁.HEAD = s.HEAD ∧ s₁.TAIL = s.TAIL ∧
          s₁.P_STACK = s.P_STACK ∧ s₁.P_BASE = s.P_BASE ∧ s₁.rsp = s.rsp ∧ s₁.rbp = s.rbp ∧
          (∀ x, x ≠ self → s₁.syncs x = s.syncs x) ∧
          ((M.m_tail = none ∧
              s₁.syncs self = some (.semaphore { M with m_lock := true, m_head := some f,
                                                        m_tail := some f }) ∧
              s₁.fibers = (s.setFiber f { ff with m_status := .Blocked }).fibers) ∨
           (∃ t tf, M.m_tail = some t ∧
              (s.setFiber f { ff with m_status := .Blocked }).fibers t = some tf ∧
              s₁.syncs self = some (.semaphore { M with m_lock := true }) ∧
              s₁.fibers = ((s.setFiber f { ff with m_status := .Blocked }).setFiber t
                { tf with next := some f }).fibers)))) := by
  have h₀ := h
  unfold Semaphore.waitPark at h
  obtain ⟨M, h₁, h⟩ := bind_ok h
  have hM := derefSemaphore_inv h₁
  cases hlock : M.m_lock with
  | true => simp [hlock, bind, Except.bind, throw, throwThe, MonadExceptOf.throw] at h
  | false =>
    refine ⟨M, hM, hlock, ?_⟩
    have hok := semaphore_waitPark_ok self s M hM hlock
    by_cases hv : M.m_value > 0
    · left
      rw [hok.1 hv] at h₀
      cases h₀
      exact ⟨hv, rfl, rfl⟩
    · right
      simp only [hlock, Bool.false_eq_true, ↓reduceIte, hv] at h
      obtain ⟨u, h₂, h⟩ := bind_ok h
      obtain ⟨⟨f, ff⟩, h₃, h⟩ := bind_ok h
      obtain ⟨hE, hf⟩ := derefFiber_inv h₃
      simp only [setSync_proj] at hE hf
      dsimp only at h
      split at h
      · rename_i ht
        cases h
        refine ⟨by omega, rfl, f, ff, hE, hf, rfl, hE, rfl, rfl, rfl, rfl, rfl, rfl, rfl, ?_,
          Or.inl ⟨ht, ?_, rfl⟩⟩
        · intro x hx
          show ((_ : State).setSync self _).syncs x = _
          rw [setSync_other _ _ hx]
          show ((_ : State).setSync self _).syncs x = _
          rw [setSync_other _ _ hx]
        · show ((_ : State).setSync self _).syncs self = _
          rw [setSync_same]
          simp only [setSync_proj, hE]
      · rename_i t ht
        obtain ⟨⟨t', tf⟩, h₄, h⟩ := bind_ok h
        obtain ⟨hT, htf⟩ := derefFiber_inv h₄
        cases hT
        cases h
        refine ⟨by omega, rfl, f, ff, hE, hf, rfl, hE, rfl, rfl, rfl, rfl, rfl, rfl, rfl, ?_,
          Or.inr ⟨t, tf, ht, htf, ?_, ?_⟩⟩
        · intro x hx
          show ((_ : State).setSync self _).syncs x = _
          rw [setSync_other _ _ hx]
        · show ((_ : State).setSync self _).syncs self = _
          rw [setSync_same]
        · show ((_ : State).setFiber t _).fibers = _
          simp only [setSync_proj, hE]
          rfl

theorem dispatchedControl_worker (g : Nat) (st : FiberStatus) :
    dispatchedControl .worker g st ≠ .returned := by
  cases st <;> simp [dispatchedControl]

/-- The fall-through into Acquire never reports a return to the caller. -/
theorem yieldAcquire_worker {s s' : State} {c : Control}
    (h : yieldAcquire .worker s = .ok (s', c)) : c ≠ .returned := by
  obtain ⟨_, _, h | h⟩ := yieldAcquire_inv h
  · rw [h.2.1]; simp
  · obtain ⟨g, gf, _, _, hc, _⟩ := h
    rw [hc]; exact dispatchedControl_worker g _

/-- The statuses after a completed Acquire part: only the fiber at `HEAD` can
change, from `New` or `Blocked` to `Active`, and it becomes the current fiber. -/
theorem yieldAcquire_status {back : Control} {s s' : State} {c : Control}
    (h : yieldAcquire back s = .ok (s', c)) (a : Nat) :
    statusOf s' a = statusOf s a ∨
    (s.HEAD = some a ∧ s'.EXEC_FIBER = some a ∧ statusOf s' a = some .Active ∧
      (statusOf s a = some .New ∨ statusOf s a = some .Blocked)) := by
  obtain ⟨_, _, h | h⟩ := yieldAcquire_inv h
  · left; simp only [statusOf, h.2.2.1]
  · obtain ⟨g, gf, hH, hgf, _, hE, hg', hoth, _⟩ := h
    by_cases hag : a = g
    · subst hag
      cases hst : gf.m_status
      · right
        exact ⟨hH, hE, by simp [statusOf, hg', hst, dispatchedStatus],
          Or.inl (by simp [statusOf, hgf, hst])⟩
      · left; simp [statusOf, hg', hgf, hst, dispatchedStatus]
      · right
        exact ⟨hH, hE, by simp [statusOf, hg', hst, dispatchedStatus],
          Or.inr (by simp [statusOf, hgf, hst])⟩
      · left; simp [statusOf, hg', hgf, hst, dispatchedStatus]
    · left; simp only [statusOf, hoth a hag]

/-- The statuses after a completed retiring of the current fiber: every fiber
keeps its status, except that the current fiber is freed when it is `Done`. -/
theorem yieldRetire_status {u t : State} (h : yieldRetire u = .ok t) :
    t.HEAD = u.HEAD ∧ ∀ a, statusOf t a = statusOf u a ∨
      (u.EXEC_FIBER = some a ∧ statusOf u a = some .Done ∧ statusOf t a = none) := by
  obtain ⟨f, ff, hE, hf, e⟩ := yieldRetire_inv h
  subst e
  constructor
  · cases ff.m_status <;> simp only [setExec_proj, setHeld_proj, freeFiber_proj]
  · intro a
    cases hst : ff.m_status
    · left; simp only [statusOf, setExec_proj]
    · left; simp only [statusOf, setExec_proj]
    · left; simp only [statusOf, setExec_proj, setHeld_proj]
    · by_cases haf : a = f
      · subst haf
        right
        exact ⟨hE, by simp [statusOf, hf, hst],
          by simp only [statusOf, setExec_proj, freeFiber_same, Option.map_none']⟩
      · left; simp only [statusOf, setExec_proj, freeFiber_other _ haf]

/-- The statuses after a completed `yield`, in any mode: a fiber keeps its
status, or it is the fiber at the head of the ready queue and goes from `New`
or `Blocked` to `Active` as the new current fiber, or it is the yielding
fiber, `Done`, and is freed (Block and Return mode). -/
theorem yield_status {ty : YieldType} {s s' : State} {c : Control}
    (h : yield ty s = .ok (s', c)) (a : Nat) :
    statusOf s' a = statusOf s a ∨
    (s.HEAD = some a ∧ s'.EXEC_FIBER = some a ∧ statusOf s' a = some .Active ∧
      (statusOf s a = some .New ∨ statusOf s a = some .Blocked)) ∨
    (ty ≠ .Acquire ∧ s.EXEC_FIBER = some a ∧ statusOf s a = some .Done ∧
      statusOf s' a = none) := by
  have combine : ∀ (u t : State), u.HEAD = s.HEAD → u.EXEC_FIBER = s.EXEC_FIBER →
      (∀ x, statusOf u x = statusOf s x) → ty ≠ .Acquire →
      yieldRetire u = .ok t → yieldAcquire .worker t = .ok (s', c) →
      statusOf s' a = statusOf s a ∨
      (s.HEAD = some a ∧ s'.EXEC_FIBER = some a ∧ statusOf s' a = some .Active ∧
        (statusOf s a = some .New ∨ statusOf s a = some .Blocked)) ∨
      (ty ≠ .Acquire ∧ s.EXEC_FIBER = some a ∧ statusOf s a = some .Done ∧
        statusOf s' a = none) := by
    intro u t hH hE hst hty hR hA
    obtain ⟨hHt, hRa⟩ := yieldRetire_status hR
    rcases hRa a with h₁ | ⟨h₁, h₂, h₃⟩
    · rcases yieldAcquire_status hA a with h₄ | ⟨h₄, h₅, h₆, h₇⟩
      · left; rw [h₄, h₁, hst]
      · right; left
        rw [h₁, hst] at h₇
        rw [hHt, hH] at h₄
        exact ⟨h₄, h₅, h₆, h₇⟩
    · rcases yieldAcquire_status hA a with h₄ | ⟨_, _, _, h₇⟩
      · right; right
        rw [hE] at h₁
        rw [hst] at h₂
        exact ⟨hty, h₁, h₂, h₄.trans h₃⟩
      · rw [h₃] at h₇
        rcases h₇ with h₇ | h₇ <;> cases h₇
  cases ty with
  | Acquire =>
    rcases yieldAcquire_status h a with h₁ | h₁
    · exact Or.inl h₁
    · exact Or.inr (Or.inl h₁)
  | Return =>
    rw [yield_return_def] at h
    obtain ⟨t, hR, hA⟩ := bind_ok h
    exact combine (yieldRestore s) t (by simp only [yieldRestore_proj])
      (by simp only [yieldRestore_proj])
      (fun x => by simp only [statusOf, yieldRestore_proj]) (by simp) hR hA
  | Block =>
    rw [yield_block_def] at h
    obtain ⟨s₁, h₁, h⟩ := bind_ok h
    obtain ⟨f, ff, hE, hf, e₁⟩ := yieldSave_inv h₁
    subst e₁
    obtain ⟨s₂, h₂, h⟩ := bind_ok h
    obtain ⟨l, o, _, _, e₂⟩ := yieldClearHeld_inv h₂
    subst e₂
    obtain ⟨t, hR, hA⟩ := bind_ok h
    refine combine _ t ?_ ?_ ?_ (by simp) hR hA
    · simp only [yieldRestore_proj, setSync_proj, setFiber_proj, pusha_proj]
    · simp only [yieldRestore_proj, setSync_proj, setFiber_proj, pusha_proj]
    · intro x
      by_cases hx : x = f
      · subst hx
        simp only [statusOf, yieldRestore_proj, setSync_proj, setFiber_same, hf,
          Option.map_some']
      · simp only [statusOf, yieldRestore_proj, setSync_proj, setFiber_other _ _ hx,
          pusha_proj]

/-- A completed `yield(Block)` entered with the flag of `self` held: the flag
is cleared, nothing else changes in the synchronisation objects, control does
not return to the caller, and the held-lock pointer is null afterwards when the
yielding fiber is `Blocked`. -/
theorem yield_block_held {self : Nat} {o : Sync} {s s' : State} {c : Control}
    (hH : s.HELD_LOCK = some self) (ho : s.syncs self = some o)
    (h : yield .Block s = .ok (s', c)) :
    s'.syncs self = some o.unlock ∧ (∀ x, x ≠ self → s'.syncs x = s.syncs x) ∧
    c ≠ .returned ∧
    (∀ f, s.EXEC_FIBER = some f → statusOf s f = some .Blocked → s'.HELD_LOCK = none) := by
  obtain ⟨f, ff, l, o', hE, hf, hH', ho', hA⟩ := yield_block_inv h
  rw [hH] at hH'
  cases hH'
  rw [ho] at ho'
  cases ho'
  obtain ⟨l, o', hH', ho', hsy⟩ := (yield_syncs h).2 rfl
  rw [hH] at hH'
  cases hH'
  rw [ho] at ho'
  cases ho'
  refine ⟨by rw [hsy, setSync_same], fun x hx => by rw [hsy, setSync_other _ _ hx],
    yieldAcquire_worker hA, ?_⟩
  intro f' hE' hst
  rw [hE] at hE'
  cases hE'
  have hst' : ff.m_status = .Blocked := by
    simpa [statusOf, hf] using hst
  simp only [hst'] at hA
  rw [(yieldAcquire_inv hA).2.1]
  simp only [setExec_proj, setHeld_proj]

theorem tailYield_none {s s' : State} {c : Control}
    (h : tailYield (s, none) = .ok (s', c)) : s' = s ∧ c = .returned := by
  cases h
  exact ⟨rfl, rfl⟩

/-- A completed `Barrier::wait`: the barrier it found and the barrier it left. -/
theorem barrier_wait_inv {self : Nat} {s s' : State} {c : Control}
    (h : Barrier.wait self s = .ok (s', c)) :
    ∃ B, s.syncs self = some (.barrier B) ∧ B.m_lock = false ∧
      (∀ x, x ≠ self → s'.syncs x = s.syncs x) ∧
      ((B.m_value = 0 ∧ c = .returned ∧ s' = s) ∨
       (B.m_value ≠ 0 ∧ c ≠ .returned ∧ s'.HELD_LOCK = none ∧
          ∃ f, s.EXEC_FIBER = some f ∧
            s'.syncs self = some (.barrier { B with
              m_head := if B.m_tail = none then some f else B.m_head, m_tail := some f }))) := by
  unfold Barrier.wait at h
  obtain ⟨⟨s₁, r⟩, hp, hy⟩ := bind_ok h
  obtain ⟨B, hB, hlock, hcase | hcase⟩ := barrier_waitPark_inv hp
  · obtain ⟨hv, hr, e⟩ := hcase
    subst hr; subst e
    obtain ⟨e, hc⟩ := tailYield_none hy
    subst e
    exact ⟨B, hB, hlock, fun _ _ => rfl, Or.inl ⟨hv, hc, rfl⟩⟩
  · obtain ⟨hv, hr, f, ff, hE, hf, hH₁, hE₁, _, _, _, _, _, _, _, hoth, hsub⟩ := hcase
    subst hr
    have hy' : yield .Block s₁ = .ok (s', c) := hy
    have hstat : statusOf s₁ f = some .Blocked := by
      rcases hsub with ⟨_, _, hfib⟩ | ⟨t, tf, _, htf, _, hfib⟩
      · simp only [statusOf, hfib, setFiber_same, Option.map_some']
      · by_cases hft : f = t
        · subst hft
          rw [setFiber_same] at htf
          cases htf
          simp only [statusOf, hfib, setFiber_same, Option.map_some']
        · simp only [statusOf, hfib, setFiber_other _ _ hft, setFiber_same, Option.map_some']
    refine ⟨B, hB, hlock, ?_, Or.inr ?_⟩
    · intro x hx
      rcases hsub with ⟨_, hs, _⟩ | ⟨_, _, _, _, hs, _⟩
      · rw [(yield_block_held hH₁ hs hy').2.1 x hx, hoth x hx]
      · rw [(yield_block_held hH₁ hs hy').2.1 x hx, hoth x hx]
    · rcases hsub with ⟨ht, hs, _⟩ | ⟨t, _, ht, _, hs, _⟩
      · obtain ⟨h1, _, h3, h4⟩ := yield_block_held hH₁ hs hy'
        refine ⟨hv, h3, h4 f hE₁ hstat, f, hE, ?_⟩
        rw [h1]
        cases B
        simp_all [Sync.unlock]
      · obtain ⟨h1, _, h3, h4⟩ := yield_block_held hH₁ hs hy'
        refine ⟨hv, h3, h4 f hE₁ hstat, f, hE, ?_⟩
        rw [h1]
        cases B
        simp_all [Sync.unlock]

/-- A completed `Semaphore::wait`: the semaphore it found and the semaphore it
left. -/
theorem semaphore_wait_inv {self : Nat} {s s' : State} {c : Control}
    (h : Semaphore.wait self s = .ok (s', c)) :
    ∃ M, s.syncs self = some (.semaphore M) ∧ M.m_lock = false ∧
      (∀ x, x ≠ self → s'.syncs x = s.syncs x) ∧
      ((M.m_value > 0 ∧ c = .returned ∧
          s' = s.setSync self (.semaphore { M with m_value := M.m_value - 1 })) ∨
       (M.m_value ≤ 0 ∧ c ≠ .returned ∧ s'.HELD_LOCK = none ∧
          ∃ f, s.EXEC_FIBER = some f ∧
            s'.syncs self = some (.semaphore
              (if M.m_tail = none then { M with m_head := some f, m_tail := some f }
               else M)))) := by
  unfold Semaphore.wait at h
  obtain ⟨⟨s₁, r⟩, hp, hy⟩ := bind_ok h
  obtain ⟨M, hM, hlock, hcase | hcase⟩ := semaphore_waitPark_inv hp
  · obtain ⟨hv, hr, e⟩ := hcase
    subst hr; subst e
    obtain ⟨e, hc⟩ := tailYield_none hy
    subst e
    exact ⟨M, hM, hlock, fun x hx => setSync_other _ _ hx, Or.inl ⟨hv, hc, rfl⟩⟩
  · obtain ⟨hv, hr, f, ff, hE, hf, hH₁, hE₁, _, _, _, _, _, _, _, hoth, hsub⟩ := hcase
    subst hr
    have hy' : yield .Block s₁ = .ok (s', c) := hy
    have hstat : statusOf s₁ f = some .Blocked := by
      rcases hsub with ⟨_, _, hfib⟩ | ⟨t, tf, _, htf, _, hfib⟩
      · simp only [statusOf, hfib, setFiber_same, Option.map_some']
      · by_cases hft : f = t
        · subst hft
          rw [setFiber_same] at htf
          cases htf
          simp only [statusOf, hfib, setFiber_same, Option.map_some']
        · simp only [statusOf, hfib, setFiber_other _ _ hft, setFiber_same, Option.map_some']
    refine ⟨M, hM, hlock, ?_, Or.inr ?_⟩
    · intro x hx
      rcases hsub with ⟨_, hs, _⟩ | ⟨_, _, _, _, hs, _⟩
      · rw [(yield_block_held hH₁ hs hy').2.1 x hx, hoth x hx]
      · rw [(yield_block_held hH₁ hs hy').2.1 x hx, hoth x hx]
    · rcases hsub with ⟨ht, hs, _⟩ | ⟨t, _, ht, _, hs, _⟩
      · obtain ⟨h1, _, h3, h4⟩ := yield_block_held hH₁ hs hy'
        refine ⟨hv, h3, h4 f hE₁ hstat, f, hE, ?_⟩
        rw [h1]
        cases M
        simp_all [Sync.unlock]
      · obtain ⟨h1, _, h3, h4⟩ := yield_block_held hH₁ hs hy'
        refine ⟨hv, h3, h4 f hE₁ hstat, f, hE, ?_⟩
        rw [h1]
        cases M
        simp_all [Sync.unlock]

/-! ## Completions counted by a barrier -/

theorem sync_signal_barrier {b : Nat} {s : State} {B : Barrier}
    (hB : s.syncs b = some (.barrier B)) : Sync.signal b s = Barrier.signal b s := by
  simp only [Sync.signal, hB]

theorem counterOf_eq {s : State} {b : Nat} {v : Int} (h : counterOf s b = some v) :
    ∃ B, s.syncs b = some (.barrier B) ∧ B.m_value = v := by
  unfold counterOf at h
  split at h
  · rename_i B hB
    cases h
    exact ⟨B, hB, rfl⟩
  · cases h

theorem counterOf_of_syncs {s s' : State} {b : Nat} (h : s'.syncs b = s.syncs b) :
    counterOf s' b = counterOf s b := by
  simp only [counterOf, h]

/-- The counter after a completed `Barrier::signal`. -/
theorem barrier_signal_counter {b : Nat} {s s' : State} {v : Int}
    (h : Barrier.signal b s = .ok s') (hv : counterOf s b = some v) :
    counterOf s' b = some (if v > 0 then v - 1 else v) := by
  obtain ⟨B', hB', hv'⟩ := counterOf_eq hv
  obtain ⟨B, hB, _, hc | hc | hc | hc⟩ := barrier_signal_inv h
  all_goals
    rw [hB'] at hB
    cases hB
    subst hv'
  · obtain ⟨h1, e⟩ := hc
    subst e
    rw [hv, if_neg (by omega)]
  · obtain ⟨h1, e⟩ := hc
    subst e
    simp only [counterOf, setSync_same]
    rw [if_pos (by omega)]
  · obtain ⟨h1, _, e⟩ := hc
    subst e
    simp only [counterOf, setSync_same]
    rw [if_pos (by omega), h1]
    rfl
  · obtain ⟨h1, _, e⟩ := hc
    have hsy := (append_inv e).1
    simp only [counterOf, hsy, setSync_same]
    rw [if_pos (by omega), h1]
    rfl

/-- A completed `execFiberDone`: the signal it delivered and the record it
marked `Done`. -/
theorem execFiberDone_inv {f : Nat} {s s' : State} (h : execFiberDone (some f) s = .ok s') :
    ∃ ff s₁ ff₁, s.fibers f = some ff ∧
      ((ff.m_signal = none ∧ s₁ = s) ∨ (∃ sig, ff.m_signal = some sig ∧
        Sync.signal sig s = .ok s₁)) ∧
      s₁.fibers f = some ff₁ ∧ s' = s₁.setFiber f { ff₁ with m_status := .Done } := by
  unfold execFiberDone at h
  obtain ⟨⟨f', ff⟩, h₁, h⟩ := bind_ok h
  obtain ⟨hf', hff⟩ := derefFiber_inv h₁
  cases hf'
  dsimp only at h
  have key : ∀ (x : Except Fault State), (x >>= fun s => do
        let __discr ← derefFiber s (some f)
        match __discr with
          | (a, f) => pure (s.setFiber a { f with m_status := FiberStatus.Done })) = .ok s' →
      ∃ s₁ ff₁, x = .ok s₁ ∧ s₁.fibers f = some ff₁ ∧
        s' = s₁.setFiber f { ff₁ with m_status := .Done } := by
    intro x hx
    obtain ⟨s₁, h₂, hx⟩ := bind_ok hx
    obtain ⟨⟨f', ff₁⟩, h₃, hx⟩ := bind_ok hx
    obtain ⟨hf', hff₁⟩ := derefFiber_inv h₃
    cases hf'
    cases hx
    exact ⟨s₁, ff₁, h₂, hff₁, rfl⟩
  split at h
  · rename_i hsig
    obtain ⟨s₁, ff₁, h₂, hff₁, e⟩ := key _ h
    cases h₂
    exact ⟨ff, s, ff₁, hff, Or.inl ⟨hsig, rfl⟩, hff₁, e⟩
  · rename_i sig hsig
    obtain ⟨s₁, ff₁, h₂, hff₁, e⟩ := key _ h
    exact ⟨ff, s₁, ff₁, hff, Or.inr ⟨sig, hsig, h₂⟩, hff₁, e⟩

/-- The counter of the barrier `b` after the fiber `f`, whose completion signal
is `b`, has finished in `execFiber`. -/
theorem execFiberEnd_counter {b f : Nat} {ff : Fiber} {s s' : State} {c : Control} {v : Int}
    (hf : s.fibers f = some ff) (hsig : ff.m_signal = some b)
    (hv : counterOf s b = some v) (h : execFiberEnd (some f) s = .ok (s', c)) :
    counterOf s' b = some (if v > 0 then v - 1 else v) := by
  unfold execFiberEnd at h
  obtain ⟨s₂, hd, hy⟩ := bind_ok h
  obtain ⟨ff', s₁, ff₁, hf', hs, _, e⟩ := execFiberDone_inv hd
  rw [hf] at hf'
  cases hf'
  rcases hs with ⟨hn, _⟩ | ⟨sig, hs, hsg⟩
  · rw [hsig] at hn; cases hn
  · rw [hsig] at hs
    cases hs
    obtain ⟨B, hB, _⟩ := counterOf_eq hv
    rw [sync_signal_barrier hB] at hsg
    have h1 := barrier_signal_counter hsg hv
    have h2 : s'.syncs = s₁.syncs := by
      rw [(yield_syncs hy).1 (by simp), e]
      simp only [setFiber_proj]
    rw [← h1]
    simp only [counterOf, h2]

/-- After `k ≤ N` completions (and no other signal) a counter that started at
`N` is `N - k`. -/
theorem completions_counter {b : Nat} {N : Nat} {s₀ : State}
    (h₀ : counterOf s₀ b = some (N : Int)) {k : Nat} {s : State}
    (h : Completions b k s₀ s) : k ≤ N → counterOf s b = some ((N : Int) - k) := by
  induction h with
  | start => intro _; simpa using h₀
  | other _ hsame ih => intro hk; rw [hsame]; exact ih h₀ hk
  | @finish k' _ _ _ f ff c _ hf hsig hend ih =>
    intro hk
    have hk' : k' ≤ N := by omega
    have h1 := execFiberEnd_counter hf hsig (ih h₀ hk') hend
    have hpos : (N : Int) - (k' : Int) > 0 := by omega
    rw [h1, if_pos hpos]
    congr 1
    push_cast
    ring

/-- A queue is the same queue after the status of a fiber has been changed. -/
theorem isQueue_setStatus {s : State} {f : Nat} {ff : Fiber} (st : FiberStatus)
    {hd tl : Option Nat} {l : List Nat} (hf : s.fibers f = some ff)
    (hq : IsQueue s.fibers hd tl l) :
    IsQueue (s.setFiber f { ff with m_status := st }).fibers hd tl l := by
  obtain ⟨qh, qt, qnd, qlive, qlk⟩ := hq
  refine ⟨qh, qt, qnd, fun a ha => ?_, ?_⟩
  · by_cases haf : a = f
    · subst haf; rw [setFiber_same]; rfl
    · rw [setFiber_other _ _ haf]; exact qlive a ha
  · refine linked_of_agree (fun a _ => ?_) qlk
    by_cases haf : a = f
    · subst haf
      simp only [nextOf, setFiber_same, hf, Option.some_bind]
    · simp only [nextOf, setFiber_other _ _ haf]

/-- The last completion: `execFiberDone` for a fiber whose completion signal
is a barrier with counter 1 moves the barrier's waiters behind the ready queue
and marks the fiber `Done`. -/
theorem execFiberDone_release {b f : Nat} {ff : Fiber} {s : State} {B : Barrier}
    {W q : List Nat} (hf : s.fibers f = some ff) (hsig : ff.m_signal = some b)
    (hB : s.syncs b = some (.barrier B)) (hlock : B.m_lock = false) (hv : B.m_value = 1)
    (hW : IsQueue s.fibers B.m_head B.m_tail W) (hq : IsQueue s.fibers s.HEAD s.TAIL q)
    (hdisj : ∀ a ∈ W, a ∉ q) (hql : s.QUEUE_LOCK = false) :
    ∃ s₁ ff₁ s₂, Barrier.signal b s = .ok s₁ ∧ s₁.fibers f = some ff₁ ∧
      execFiberDone (some f) s = .ok s₂ ∧ s₂ = s₁.setFiber f { ff₁ with m_status := .Done } ∧
      s₂.syncs b = some (.barrier
        { m_lock := false, m_value := 0, m_head := none, m_tail := none }) ∧
      IsQueue s₂.fibers s₂.HEAD s₂.TAIL (q ++ W) ∧ statusOf s₂ f = some .Done := by
  obtain ⟨s₁, hs₁, hsy, hq₁, hsame, _⟩ :=
    (barrier_signal_ok b s B hB hlock).2.2 hv W q hW hq hdisj hql
  have hlive : (s₁.fibers f).isSome = true := by
    have := congrArg Option.isSome (hsame f)
    simpa [hf] using this
  obtain ⟨ff₁, hff₁⟩ := Option.isSome_iff_exists.mp hlive
  refine ⟨s₁, ff₁, s₁.setFiber f { ff₁ with m_status := .Done }, hs₁, hff₁, ?_, rfl, ?_, ?_, ?_⟩
  · simp only [execFiberDone, derefFiber_ok s hf, hsig, sync_signal_barrier hB, hs₁,
      derefFiber_ok s₁ hff₁, bind, Except.bind, pure, Except.pure]
  · simp only [setFiber_proj, hsy, setSync_same]
  · simp only [setFiber_proj]
    exact isQueue_setStatus .Done hff₁ hq₁
  · exact statusOf_setFiber_same _ _ _

/-- A completion that finds the counter above 1 only decrements it: the
barrier keeps its waiter list. -/
theorem execFiberEnd_decrement {b f : Nat} {ff : Fiber} {s s' : State} {c : Control}
    {B : Barrier} (hf : s.fibers f = some ff) (hsig : ff.m_signal = some b)
    (hB : s.syncs b = some (.barrier B)) (hv : B.m_value > 1)
    (h : execFiberEnd (some f) s = .ok (s', c)) :
    s'.syncs b = some (.barrier { B with m_value := B.m_value - 1 }) := by
  unfold execFiberEnd at h
  obtain ⟨s₂, hd, hy⟩ := bind_ok h
  obtain ⟨ff', s₁, ff₁, hf', hs, _, e⟩ := execFiberDone_inv hd
  rw [hf] at hf'
  cases hf'
  rcases hs with ⟨hn, _⟩ | ⟨sig, hs, hsg⟩
  · rw [hsig] at hn; cases hn
  · rw [hsig] at hs
    cases hs
    rw [sync_signal_barrier hB] at hsg
    have h2 : s'.syncs = s₁.syncs := by
      rw [(yield_syncs hy).1 (by simp), e]
      simp only [setFiber_proj]
    rw [h2]
    obtain ⟨B', hB', _, hc | hc | hc | hc⟩ := barrier_signal_inv hsg
    all_goals
      rw [hB] at hB'
      cases hB'
    · omega
    · rw [hc.2, setSync_same]
    · omega
    · omega

/-- C9: for every `N ≥ 1`, `runTasks` called with a barrier out-pointer (on a
free queue flag, a well-formed ready queue and `N` fresh fiber addresses)
returns a barrier whose counter is `N` and makes it the completion signal of
each of the `N` new fibers.  After `k ≤ N` fibers with this completion signal
have finished in `execFiber`, with no other signal on the barrier, the counter
is `N - k`: it is not 0 after fewer than `N` completions and 0 after `N`.  A
completion before the `N`-th only decrements the counter and leaves the
barrier's waiter list alone; the `N`-th one, which finds the counter at 1,
completes, empties the waiter list and puts the waiters `W` behind the ready
queue before its final `yield(Return)`. -/
theorem barrier_counts_completions (alloc : Nat → Nat) (junk : Nat → Fiber) (balloc : Nat)
    (decl : List TaskDecl) (N : Nat) (s : State) (q : List Nat)
    (hN : 1 ≤ N) (hN64 : N < 2 ^ 64) (hdecl : decl.length = N)
    (hinj : ∀ i j, i < N → j < N → alloc i = alloc j → i = j)
    (hfresh : ∀ j, j < N → s.fibers (alloc j) = none)
    (hlock : s.QUEUE_LOCK = false)
    (hq : IsQueue s.fibers s.HEAD s.TAIL q) :
    ∃ s₀, runTasks alloc junk balloc decl N true s = .ok (s₀, some balloc) ∧
      counterOf s₀ balloc = some (N : Int) ∧
      (∀ i, i < N → ∃ f, s₀.fibers (alloc i) = some f ∧ f.m_signal = some balloc) ∧
      (∀ k s₁, k ≤ N → Completions balloc k s₀ s₁ →
        counterOf s₁ balloc = some ((N : Int) - k)) ∧
      (∀ k s₁, k < N → Completions balloc k s₀ s₁ → counterOf s₁ balloc ≠ some 0) ∧
      (∀ s₁, Completions balloc N s₀ s₁ → counterOf s₁ balloc = some 0) ∧
      (∀ k s₁ f ff B s₂ c, k + 1 < N → Completions balloc k s₀ s₁ →
        s₁.fibers f = some ff → ff.m_signal = some balloc →
        s₁.syncs balloc = some (.barrier B) →
        execFiberEnd (some f) s₁ = .ok (s₂, c) →
        s₂.syncs balloc = some (.barrier { B with m_value := B.m_value - 1 })) ∧
      (∀ s₁ f ff B W q₁, Completions balloc (N - 1) s₀ s₁ →
        s₁.fibers f = some ff → ff.m_signal = some balloc →
        s₁.syncs balloc = some (.barrier B) → B.m_lock = false →
        IsQueue s₁.fibers B.m_head B.m_tail W → IsQueue s₁.fibers s₁.HEAD s₁.TAIL q₁ →
        (∀ a ∈ W, a ∉ q₁) → s₁.QUEUE_LOCK = false →
        ∃ s₂, execFiberDone (some f) s₁ = .ok s₂ ∧
          execFiberEnd (some f) s₁ = yield .Return s₂ ∧
          s₂.syncs balloc = some (.barrier
            { m_lock := false, m_value := 0, m_head := none, m_tail := none }) ∧
          IsQueue s₂.fibers s₂.HEAD s₂.TAIL (q₁ ++ W) ∧ statusOf s₂ f = some .Done) := by
  obtain ⟨s₀, hrun, _, hnew, _, hfr⟩ :=
    runTasks_ok alloc junk balloc decl N true s q hN hN64 hdecl hinj hfresh hlock hq
  have hsy : s₀.syncs balloc = some (.barrier { Barrier.new with m_value := N }) := by
    rw [hfr]
    simp only [↓reduceIte, setSync_same]
  have hc₀ : counterOf s₀ balloc = some (N : Int) := by
    simp only [counterOf, hsy]
  refine ⟨s₀, by simpa using hrun, hc₀, ?_, ?_, ?_, ?_, ?_, ?_⟩
  · intro i hi
    obtain ⟨d, f, _, hf, hrec⟩ := hnew i hi
    refine ⟨f, hf, ?_⟩
    have := congrArg Fiber.m_signal hrec
    simpa [taskFiber] using this
  · intro k s₁ hk hC
    exact completions_counter hc₀ hC hk
  · intro k s₁ hk hC h0
    rw [completions_counter hc₀ hC (by omega)] at h0
    have : (N : Int) - (k : Int) = 0 := by simpa using h0
    omega
  · intro s₁ hC
    rw [completions_counter hc₀ hC (le_refl N)]
    simp
  · intro k s₁ f ff B s₂ c hk hC hf hsig hB hend
    have hcnt := completions_counter hc₀ hC (by omega)
    have hv : B.m_value = (N : Int) - k := by
      simpa [counterOf, hB] using hcnt
    exact execFiberEnd_decrement hf hsig hB (by omega) hend
  · intro s₁ f ff B W q₁ hC hf hsig hB hBl hW hq₁ hdisj hql
    have hcnt := completions_counter hc₀ hC (by omega)
    have hv : B.m_value = 1 := by
      have : B.m_value = (N : Int) - ((N - 1 : Nat) : Int) := by
        simpa [counterOf, hB] using hcnt
      omega
    obtain ⟨s₁', ff₁, s₂, _, _, hdone, _, hsy₂, hq₂, hst⟩ :=
      execFiberDone_release hf hsig hB hBl hv hW hq₁ hdisj hql
    refine ⟨s₂, hdone, ?_, hsy₂, hq₂, hst⟩
    simp only [execFiberEnd, hdone, bind, Except.bind]

/-- C9 for two tasks submitted to an empty ready queue. -/
theorem barrier_counts_completions_witness :
    ∃ s₀, runTasks demoAlloc demoJunk 20 demoDecl 2 true demoEmpty = .ok (s₀, some 20) ∧
      counterOf s₀ 20 = some ((2 : Nat) : Int) ∧
      (∀ i, i < 2 → ∃ f, s₀.fibers (demoAlloc i) = some f ∧ f.m_signal = some 20) ∧
      (∀ k s₁, k ≤ 2 → Completions 20 k s₀ s₁ →
        counterOf s₁ 20 = some (((2 : Nat) : Int) - k)) ∧
      (∀ k s₁, k < 2 → Completions 20 k s₀ s₁ → counterOf s₁ 20 ≠ some 0) ∧
      (∀ s₁, Completions 20 2 s₀ s₁ → counterOf s₁ 20 = some 0) ∧
      (∀ k s₁ f ff B s₂ c, k + 1 < 2 → Completions 20 k s₀ s₁ →
        s₁.fibers f = some ff → ff.m_signal = some 20 →
        s₁.syncs 20 = some (.barrier B) →
        execFiberEnd (some f) s₁ = .ok (s₂, c) →
        s₂.syncs 20 = some (.barrier { B with m_value := B.m_value - 1 })) ∧
      (∀ s₁ f ff B W q₁, Completions 20 (2 - 1) s₀ s₁ →
        s₁.fibers f = some ff → ff.m_signal = some 20 →
        s₁.syncs 20 = some (.barrier B) → B.m_lock = false →
        IsQueue s₁.fibers B.m_head B.m_tail W → IsQueue s₁.fibers s₁.HEAD s₁.TAIL q₁ →
        (∀ a ∈ W, a ∉ q₁) → s₁.QUEUE_LOCK = false →
        ∃ s₂, execFiberDone (some f) s₁ = .ok s₂ ∧
          execFiberEnd (some f) s₁ = yield .Return s₂ ∧
          s₂.syncs 20 = some (.barrier
            { m_lock := false, m_value := 0, m_head := none, m_tail := none }) ∧
          IsQueue s₂.fibers s₂.HEAD s₂.TAIL (q₁ ++ W) ∧ statusOf s₂ f = some .Done) :=
  barrier_counts_completions demoAlloc demoJunk 20 demoDecl 2 demoEmpty [] (by decide)
    (by decide) rfl (fun i j _ _ h => by simpa [demoAlloc] using h) (by decide) rfl (by decide)

/-- A run in which both completions happen: two tasks are submitted to the
empty ready queue of a worker without a current fiber; the worker dispatches
the first fiber, which finishes and falls through to the second, which
finishes too.  The counter of the barrier goes from 2 to 0. -/
theorem completions_demo :
    runTasks demoAlloc demoJunk 20 demoDecl 2 true
        { demoEmpty with EXEC_FIBER := none } = .ok (submitted, some 20) ∧
      yield .Acquire submitted = .ok (firstRunning, .enter 10) ∧
      execFiberEnd (some 10) firstRunning = .ok (firstDone, .enter 11) ∧
      execFiberEnd (some 11) firstDone = .ok (bothDone, .worker) ∧
      Completions 20 2 submitted bothDone ∧
      counterOf submitted 20 = some 2 ∧ counterOf firstDone 20 = some 1 ∧
      counterOf bothDone 20 = some 0 := by
  have h₀ : runTasks demoAlloc demoJunk 20 demoDecl 2 true
      { demoEmpty with EXEC_FIBER := none } = .ok (submitted, some 20) := rfl
  have h₁ : yield .Acquire submitted = .ok (firstRunning, .enter 10) := rfl
  have h₂ : execFiberEnd (some 10) firstRunning = .ok (firstDone, .enter 11) := rfl
  have h₃ : execFiberEnd (some 11) firstDone = .ok (bothDone, .worker) := rfl
  refine ⟨h₀, h₁, h₂, h₃, ?_, rfl, rfl, rfl⟩
  exact @Completions.finish 20 1 submitted firstDone bothDone 11 _ _
    (@Completions.finish 20 0 submitted firstRunning firstDone 10 _ _
      (@Completions.other 20 0 submitted submitted firstRunning (Completions.start _) rfl)
      rfl rfl h₂) rfl rfl h₃

/-! ## The life of a barrier -/

/-- One step of the life of a barrier whose flag is clear and whose counter is
not negative and is 0 only with an empty waiter list: the barrier keeps these
properties, its counter does not grow, and at counter 0 the barrier object does
not change at all. -/
theorem barrierStep_inv {b : Nat} {s s' : State} {B : Barrier} (h : BarrierStep b s s')
    (hB : s.syncs b = some (.barrier B)) (hl : B.m_lock = false) (hv : 0 ≤ B.m_value)
    (hz : B.m_value = 0 → B.m_head = none ∧ B.m_tail = none) :
    ∃ B', s'.syncs b = some (.barrier B') ∧ B'.m_lock = false ∧ 0 ≤ B'.m_value ∧
      (B'.m_value = 0 → B'.m_head = none ∧ B'.m_tail = none) ∧
      B'.m_value ≤ B.m_value ∧ (B.m_value = 0 → B' = B) := by
  cases h with
  | wait hw =>
    obtain ⟨B₁, hB₁, _, _, hc | hc⟩ := barrier_wait_inv hw
    all_goals
      rw [hB] at hB₁
      cases hB₁
    · obtain ⟨_, _, e⟩ := hc
      subst e
      exact ⟨B, hB, hl, hv, hz, le_refl _, fun _ => rfl⟩
    · obtain ⟨hne, _, _, f, _, hs'⟩ := hc
      exact ⟨_, hs', hl, hv, fun h0 => absurd h0 hne, le_refl _, fun h0 => absurd h0 hne⟩
  | signal hs =>
    obtain ⟨B₁, hB₁, _, hc | hc | hc | hc⟩ := barrier_signal_inv hs
    all_goals
      rw [hB] at hB₁
      cases hB₁
    · obtain ⟨_, e⟩ := hc
      subst e
      exact ⟨B, hB, hl, hv, hz, le_refl _, fun _ => rfl⟩
    · obtain ⟨h1, e⟩ := hc
      subst e
      refine ⟨_, setSync_same _ _ _, hl, ?_, ?_, ?_, ?_⟩
      · show 0 ≤ B.m_value - 1
        omega
      · intro h0
        have : B.m_value - 1 = 0 := h0
        omega
      · show B.m_value - 1 ≤ B.m_value
        omega
      · intro h0; omega
    · obtain ⟨h1, _, e⟩ := hc
      subst e
      refine ⟨_, setSync_same _ _ _, rfl, le_refl _, fun _ => ⟨rfl, rfl⟩, ?_, ?_⟩
      · show (0 : Int) ≤ B.m_value
        omega
      · intro h0; omega
    · obtain ⟨h1, _, e⟩ := hc
      have hsy := (append_inv e).1
      refine ⟨_, by rw [hsy]; exact setSync_same _ _ _, rfl, le_refl _,
        fun _ => ⟨rfl, rfl⟩, ?_, ?_⟩
      · show (0 : Int) ≤ B.m_value
        omega
      · intro h0; omega
  | other ho =>
    exact ⟨B, by rw [ho, hB], hl, hv, hz, le_refl _, fun _ => rfl⟩

/-- Every state a barrier reaches from a positive counter and an empty waiter
list: the flag is clear between calls, the counter lies between 0 and its
first value, and a counter of 0 goes with an empty waiter list. -/
theorem barrier_reach {b : Nat} {s₀ s : State} {B₀ : Barrier}
    (h₀ : s₀.syncs b = some (.barrier B₀)) (hpos : 0 < B₀.m_value)
    (hempty : B₀.m_head = none ∧ B₀.m_tail = none) (hlock₀ : B₀.m_lock = false)
    (hreach : Relation.ReflTransGen (BarrierStep b) s₀ s) :
    ∃ B, s.syncs b = some (.barrier B) ∧ B.m_lock = false ∧ 0 ≤ B.m_value ∧
      B.m_value ≤ B₀.m_value ∧ (B.m_value = 0 → B.m_head = none ∧ B.m_tail = none) := by
  induction hreach with
  | refl => exact ⟨B₀, h₀, hlock₀, by omega, le_refl _, fun _ => hempty⟩
  | tail _ hstep ih =>
    obtain ⟨B, hB, hl, hv, hle, hz⟩ := ih
    obtain ⟨B', hB', hl', hv', hz', hle', _⟩ := barrierStep_inv hstep hB hl hv hz
    exact ⟨B', hB', hl', hv', by omega, hz'⟩

/-- C10: take a barrier with a positive counter, no waiters and a clear flag,
and any state `s` reached from there by completed `Barrier::wait` and
`Barrier::signal` calls on it (and steps that leave the barrier object alone).
In `s` the counter lies between 0 and the first counter and a counter of 0
goes with an empty waiter list.  Every further step leaves the counter equal or
smaller, and when the counter is 0 it leaves the barrier object unchanged: the
counter stays 0 and the list stays empty; `signal` then returns with the whole
state unchanged and `wait` returns at once.  A `signal` that finds the counter
at 1 completes, sets the counter to 0, empties the waiter list and puts the
waiters `W` behind the ready queue; a `signal` that finds any other counter
leaves the ready queue and every fiber alone.  So the waiters are released
once, at the transition to 0. -/
theorem barrier_invariants (b : Nat) (s₀ s : State) (B₀ : Barrier)
    (h₀ : s₀.syncs b = some (.barrier B₀)) (hpos : 0 < B₀.m_value)
    (hempty : B₀.m_head = none ∧ B₀.m_tail = none) (hlock₀ : B₀.m_lock = false)
    (hreach : Relation.ReflTransGen (BarrierStep b) s₀ s) :
    ∃ B, s.syncs b = some (.barrier B) ∧ 0 ≤ B.m_value ∧ B.m_value ≤ B₀.m_value ∧
      (B.m_value = 0 → B.m_head = none ∧ B.m_tail = none) ∧
      (∀ s', BarrierStep b s s' → ∃ B', s'.syncs b = some (.barrier B') ∧
        B'.m_value ≤ B.m_value ∧ (B.m_value = 0 → B' = B)) ∧
      (∀ s', B.m_value = 0 → Relation.ReflTransGen (BarrierStep b) s s' →
        s'.syncs b = some (.barrier B)) ∧
      (B.m_value = 0 → Barrier.signal b s = .ok s ∧ Barrier.wait b s = .ok (s, .returned)) ∧
      (B.m_value = 1 → ∀ W q, IsQueue s.fibers B.m_head B.m_tail W →
        IsQueue s.fibers s.HEAD s.TAIL q → (∀ a ∈ W, a ∉ q) → s.QUEUE_LOCK = false →
        ∃ s', Barrier.signal b s = .ok s' ∧
          s'.syncs b = some (.barrier
            { m_lock := false, m_value := 0, m_head := none, m_tail := none }) ∧
          IsQueue s'.fibers s'.HEAD s'.TAIL (q ++ W)) ∧
      (B.m_value ≠ 1 → ∀ s', Barrier.signal b s = .ok s' →
        s'.fibers = s.fibers ∧ s'.HEAD = s.HEAD ∧ s'.TAIL = s.TAIL) := by
  obtain ⟨B, hB, hl, hv, hle, hz⟩ := barrier_reach h₀ hpos hempty hlock₀ hreach
  refine ⟨B, hB, hv, hle, hz, ?_, ?_, ?_, ?_, ?_⟩
  · intro s' hstep
    obtain ⟨B', hB', _, _, _, hle', hsame⟩ := barrierStep_inv hstep hB hl hv hz
    exact ⟨B', hB', hle', hsame⟩
  · intro s' h0 hr
    induction hr with
    | refl => exact hB
    | tail _ hstep ih =>
      obtain ⟨B', hB', _, _, _, _, hsame⟩ := barrierStep_inv hstep ih hl hv hz
      rw [hB', hsame h0]
  · intro h0
    refine ⟨(barrier_signal_ok b s B hB hl).1 (by omega), ?_⟩
    have := (barrier_waitPark_ok b s B hB hl).1 h0
    simp only [Barrier.wait, this, bind, Except.bind, tailYield, pure, Except.pure]
  · intro h1 W q hW hq hdisj hql
    obtain ⟨s', hs', hsy, hq', _, _⟩ :=
      (barrier_signal_ok b s B hB hl).2.2 h1 W q hW hq hdisj hql
    exact ⟨s', hs', by rw [hsy]; exact setSync_same _ _ _, hq'⟩
  · intro h1 s' hs
    obtain ⟨B₁, hB₁, _, hc | hc | hc | hc⟩ := barrier_signal_inv hs
    all_goals
      rw [hB] at hB₁
      cases hB₁
    · rw [hc.2]; exact ⟨rfl, rfl, rfl⟩
    · rw [hc.2]; exact ⟨rfl, rfl, rfl⟩
    · exact absurd hc.1 h1
    · exact absurd hc.1 h1

/-- C10 on the barrier that `runTasks` has made for two tasks, after the first
`signal`. -/
theorem barrier_invariants_witness :
    ∃ B, (submitted.setSync 20 (.barrier
        { m_lock := false, m_value := 1, m_head := none, m_tail := none })).syncs 20 =
        some (.barrier B) ∧ 0 ≤ B.m_value ∧ B.m_value ≤ (2 : Int) ∧
      (B.m_value = 0 → B.m_head = none ∧ B.m_tail = none) :=
  have h := barrier_invariants 20 submitted (submitted.setSync 20 (.barrier
      { m_lock := false, m_value := 1, m_head := none, m_tail := none }))
    { m_lock := false, m_value := 2, m_head := none, m_tail := none } rfl (by decide)
    ⟨rfl, rfl⟩ rfl (Relation.ReflTransGen.single (BarrierStep.signal rfl))
  h.imp fun _ hB => ⟨hB.1, hB.2.1, hB.2.2.1, hB.2.2.2.1⟩

/-! ## The life of a semaphore -/

theorem syncs_after_append {s s' : State} {m : Nat} {o : Sync} {head tail : Option Nat}
    (e : append head tail (s.setSync m o) = .ok s') : s'.syncs m = some o := by
  rw [(append_inv e).1]
  exact setSync_same _ _ _

/-- C11: the invariant "counter ≥ 0, and counter > 0 implies no waiter" holds
for a new semaphore with any non-negative initial counter, and every completed
`Semaphore::wait` and every completed `Semaphore::signal` on a semaphore that
satisfies it leaves a semaphore that satisfies it. -/
theorem semaphore_invariant (m : Nat) :
    (∀ v : Int, 0 ≤ v → SemaphoreInv { Semaphore.new with m_value := v }) ∧
    (∀ (s s' : State) (c : Control) (M : Semaphore), s.syncs m = some (.semaphore M) →
      SemaphoreInv M → Semaphore.wait m s = .ok (s', c) →
      ∃ M', s'.syncs m = some (.semaphore M') ∧ SemaphoreInv M') ∧
    (∀ (s s' : State) (M : Semaphore), s.syncs m = some (.semaphore M) →
      SemaphoreInv M → Semaphore.signal m s = .ok s' →
      ∃ M', s'.syncs m = some (.semaphore M') ∧ SemaphoreInv M') := by
  refine ⟨fun v hv => ⟨hv, fun _ => rfl⟩, ?_, ?_⟩
  · intro s s' c M hM hinv hw
    obtain ⟨M₁, hM₁, _, _, hc | hc⟩ := semaphore_wait_inv hw
    all_goals
      rw [hM] at hM₁
      cases hM₁
    · obtain ⟨hv, _, e⟩ := hc
      subst e
      refine ⟨_, setSync_same _ _ _, ?_, fun _ => hinv.2 hv⟩
      show 0 ≤ M.m_value - 1
      omega
    · obtain ⟨hv, _, _, f, _, hs'⟩ := hc
      refine ⟨_, hs', ?_⟩
      split
      · exact ⟨hinv.1, fun h => by have : 0 < M.m_value := h; omega⟩
      · exact hinv
  · intro s s' M hM hinv hs
    obtain ⟨M₁, hM₁, _, hc | hc | hc⟩ := semaphore_signal_inv hs
    all_goals
      rw [hM] at hM₁
      cases hM₁
    · obtain ⟨hh, e⟩ := hc
      subst e
      refine ⟨_, setSync_same _ _ _, ?_, fun _ => hh⟩
      show 0 ≤ M.m_value + 1
      have := hinv.1
      omega
    · obtain ⟨_, _, e⟩ := hc
      have hs' := syncs_after_append e
      exact ⟨_, hs', hinv.1, fun _ => rfl⟩
    · obtain ⟨a, hf, ha, _, _, e⟩ := hc
      have hs' := syncs_after_append e
      refine ⟨_, hs', hinv.1, fun h => ?_⟩
      have := hinv.2 h
      rw [ha] at this
      cases this

/-- C11 on `demoState`: the current fiber parks on the semaphore `1` (counter
0, no waiter), and the semaphore left by the completed `wait` satisfies the
invariant. -/
theorem semaphore_invariant_witness :
    ∃ M', (stateAfter (Semaphore.wait 1 demoState)).syncs 1 = some (.semaphore M') ∧
      SemaphoreInv M' :=
  (semaphore_invariant 1).2.1 demoState (stateAfter (Semaphore.wait 1 demoState)) (.enter 1)
    { m_lock := false, m_value := 0, m_head := none, m_tail := none } rfl (by decide) rfl

/-- One step of the life of a semaphore with a clear flag and `m_head = m_tail`
leaves such a semaphore. -/
theorem semaphoreStep_inv {m : Nat} {s s' : State} {M : Semaphore} (h : SemaphoreStep m s s')
    (hM : s.syncs m = some (.semaphore M)) (hl : M.m_lock = false)
    (hht : M.m_head = M.m_tail) :
    ∃ M', s'.syncs m = some (.semaphore M') ∧ M'.m_lock = false ∧ M'.m_head = M'.m_tail := by
  cases h with
  | wait hw =>
    obtain ⟨M₁, hM₁, _, _, hc | hc⟩ := semaphore_wait_inv hw
    all_goals
      rw [hM] at hM₁
      cases hM₁
    · obtain ⟨_, _, e⟩ := hc
      subst e
      exact ⟨_, setSync_same _ _ _, hl, hht⟩
    · obtain ⟨_, _, _, f, _, hs'⟩ := hc
      refine ⟨_, hs', ?_⟩
      split
      · exact ⟨hl, rfl⟩
      · exact ⟨hl, hht⟩
  | signal hs =>
    obtain ⟨M₁, hM₁, _, hc | hc | hc⟩ := semaphore_signal_inv hs
    all_goals
      rw [hM] at hM₁
      cases hM₁
    · obtain ⟨_, e⟩ := hc
      subst e
      exact ⟨_, setSync_same _ _ _, hl, hht⟩
    · obtain ⟨_, _, e⟩ := hc
      have hs' := syncs_after_append e
      exact ⟨_, hs', rfl, rfl⟩
    · obtain ⟨_, _, _, hne, _⟩ := hc
      exact absurd hht hne
  | other ho => exact ⟨M, by rw [ho, hM], hl, hht⟩

/-- A list whose first element is also its last, without repetition, has at
most one element. -/
theorem isQueue_same_ends {h : Nat → Option Fiber} {p : Option Nat} {l : List Nat}
    (hq : IsQueue h p p l) : l.length ≤ 1 := by
  obtain ⟨hh, ht, hnd, _, _⟩ := hq
  match l, hh, ht, hnd with
  | [], _, _, _ => simp
  | [_], _, _, _ => simp
  | a :: b :: r, hh, ht, hnd =>
    exfalso
    have h1 : (a :: b :: r).getLast? = some a := by rw [← ht, hh]; rfl
    have h2 : a ∈ (b :: r) := by
      have : (b :: r).getLast? = some a := by
        rw [List.getLast?_cons_cons] at h1
        exact h1
      exact List.mem_of_getLast?_eq_some this
    exact (List.nodup_cons.mp hnd).1 h2

/-- Every state reached from a semaphore without waiters and with a clear flag
by steps of its life holds a semaphore with a clear flag and `m_head = m_tail`. -/
theorem semaphore_reach {m : Nat} {s₀ s : State} {M₀ : Semaphore}
    (h₀ : s₀.syncs m = some (.semaphore M₀)) (hlock₀ : M₀.m_lock = false)
    (hempty : M₀.m_head = none ∧ M₀.m_tail = none)
    (hreach : Relation.ReflTransGen (SemaphoreStep m) s₀ s) :
    ∃ M, s.syncs m = some (.semaphore M) ∧ M.m_lock = false ∧ M.m_head = M.m_tail := by
  induction hreach with
  | refl => exact ⟨M₀, h₀, hlock₀, by rw [hempty.1, hempty.2]⟩
  | tail _ hstep ih =>
    obtain ⟨M, hM, hl, hht⟩ := ih
    exact semaphoreStep_inv hstep hM hl hht

/-- C5: for every state of a semaphore that the code produces, that is every
state reached from a semaphore without waiters and with a clear flag by
completed `Semaphore::wait` and `Semaphore::signal` calls on it (and steps that
leave the semaphore object alone), with a well-formed ready queue,
`Semaphore::signal` does exactly one of two things.  If the waiter list is
non-empty (`m_head` is `a`), the list from `m_head` through `m_tail` is `[a]`,
and the call removes `a` from it, leaving it empty, appends that single fiber
at the tail of the ready queue, which has no other new content, and leaves the
counter unchanged.  Otherwise it increments the counter by one and leaves the
waiter list and the ready queue (indeed all the rest of the state)
unchanged. -/
theorem semaphore_signal_cases (self : Nat) (s₀ s : State) (M₀ M : Semaphore) (q : List Nat)
    (h₀ : s₀.syncs self = some (.semaphore M₀)) (hlock₀ : M₀.m_lock = false)
    (hempty : M₀.m_head = none ∧ M₀.m_tail = none)
    (hreach : Relation.ReflTransGen (SemaphoreStep self) s₀ s)
    (hM : s.syncs self = some (.semaphore M))
    (hlive : ∀ a, M.m_head = some a → (s.fibers a).isSome = true ∧ a ∉ q)
    (hql : s.QUEUE_LOCK = false) (hq : IsQueue s.fibers s.HEAD s.TAIL q) :
    (M.m_head = none →
      Semaphore.signal self s =
        .ok (s.setSync self (.semaphore
          { m_lock := false, m_value := M.m_value + 1, m_head := M.m_head,
            m_tail := M.m_tail }))) ∧
    (∀ a, M.m_head = some a →
      (∀ l, IsQueue s.fibers M.m_head M.m_tail l → l = [a]) ∧
      ∃ s', Semaphore.signal self s = .ok s' ∧
        s'.syncs self = some (.semaphore
          { m_lock := false, m_value := M.m_value, m_head := none, m_tail := none }) ∧
        (∀ x, x ≠ self → s'.syncs x = s.syncs x) ∧
        IsQueue s'.fibers s'.HEAD s'.TAIL (q ++ [a]) ∧
        (∀ l, IsQueue s'.fibers s'.HEAD s'.TAIL l → l = q ++ [a]) ∧
        s'.TAIL = some a ∧
        SameFibersUpToNext s.fibers s'.fibers ∧
        s' = { s with fibers := s'.fibers, syncs := s'.syncs, HEAD := s'.HEAD,
                      TAIL := s'.TAIL }) := by
  obtain ⟨M', hM', hlock, hone⟩ := semaphore_reach h₀ hlock₀ hempty hreach
  rw [hM] at hM'
  cases hM'
  refine ⟨fun hh => ?_, fun a ha => ⟨fun l hl => ?_, ?_⟩⟩
  · rw [(semaphore_signal_ok self s M hM hlock).1 hh]
    congr 3
    rw [← hlock]
  · rw [← hone] at hl
    have hlen := isQueue_same_ends hl
    have hhead : l.head? = some a := by rw [← hl.1, ha]
    match l, hlen, hhead with
    | [x], _, hx => simpa using hx
  · obtain ⟨hl, haq⟩ := hlive a ha
    obtain ⟨s', hs', hsy, hq', hT, _, hsame, hfr⟩ :=
      (semaphore_signal_ok self s M hM hlock).2 a q ha (hone ▸ ha) hl hql hq haq
    refine ⟨s', hs', ?_, fun x hx => ?_, hq', fun l hl => isQueue_unique hl hq', hT, hsame,
      hfr⟩
    · rw [hsy]; simp [State.setSync, hlock]
    · rw [hsy]; simp [State.setSync, hx]

/-- C5 on the state `semParked`: the current fiber of `semOne` has taken the
one unit of the semaphore `1` and then parked on it, so the fiber `5` is its
only waiter, and the worker has dispatched the fiber `1` and left the ready
queue `[2]`. -/
theorem semaphore_signal_cases_witness :
    ((some 5 : Option Nat) = none →
      Semaphore.signal 1 semParked =
        .ok (semParked.setSync 1 (.semaphore
          { m_lock := false, m_value := 0 + 1, m_head := some 5, m_tail := some 5 }))) ∧
    (∀ a, (some 5 : Option Nat) = some a →
      (∀ l, IsQueue semParked.fibers (some 5) (some 5) l → l = [a]) ∧
      ∃ s', Semaphore.signal 1 semParked = .ok s' ∧
        s'.syncs 1 = some (.semaphore
          { m_lock := false, m_value := 0, m_head := none, m_tail := none }) ∧
        (∀ x, x ≠ 1 → s'.syncs x = semParked.syncs x) ∧
        IsQueue s'.fibers s'.HEAD s'.TAIL ([2] ++ [a]) ∧
        (∀ l, IsQueue s'.fibers s'.HEAD s'.TAIL l → l = [2] ++ [a]) ∧
        s'.TAIL = some a ∧
        SameFibersUpToNext semParked.fibers s'.fibers ∧
        s' = { semParked with fibers := s'.fibers, syncs := s'.syncs, HEAD := s'.HEAD,
                              TAIL := s'.TAIL }) :=
  semaphore_signal_cases 1 semOne semParked
    { m_lock := false, m_value := 1, m_head := none, m_tail := none }
    { m_lock := false, m_value := 0, m_head := some 5, m_tail := some 5 } [2] rfl rfl ⟨rfl, rfl⟩
    (Relation.ReflTransGen.tail
      (Relation.ReflTransGen.single
        (@SemaphoreStep.wait 1 semOne semTaken .returned rfl))
      (@SemaphoreStep.wait 1 semTaken semParked (.enter 1) rfl))
    rfl
    (fun a h => by
      have : a = 5 := (Option.some.inj h).symm
      subst this
      exact ⟨by decide, by simp⟩) rfl (by decide)

/-- C19: in every state reached from a semaphore without waiters (and with a
clear flag) by completed `Semaphore::wait` and `Semaphore::signal` calls on it
(and steps that leave the semaphore object alone), `m_head` equals `m_tail`.
So a waiter list from `m_head` through `m_tail` has at most one fiber, and a
`signal` that finds a waiter `a` is the call `append(a, a)` of that one fiber,
on the state in which the waiter list has been emptied. -/
theorem semaphore_head_is_tail (m : Nat) (s₀ s : State) (M₀ : Semaphore)
    (h₀ : s₀.syncs m = some (.semaphore M₀)) (hlock₀ : M₀.m_lock = false)
    (hempty : M₀.m_head = none ∧ M₀.m_tail = none)
    (hreach : Relation.ReflTransGen (SemaphoreStep m) s₀ s) :
    ∃ M, s.syncs m = some (.semaphore M) ∧ M.m_head = M.m_tail ∧
      (∀ l, IsQueue s.fibers M.m_head M.m_tail l → l.length ≤ 1) ∧
      (∀ a, M.m_head = some a → Semaphore.signal m s =
        append (some a) (some a) (s.setSync m (.semaphore
          { m_lock := false, m_value := M.m_value, m_head := none, m_tail := none }))) := by
  have key : ∃ M, s.syncs m = some (.semaphore M) ∧ M.m_lock = false ∧
      M.m_head = M.m_tail := by
    induction hreach with
    | refl => exact ⟨M₀, h₀, hlock₀, by rw [hempty.1, hempty.2]⟩
    | tail _ hstep ih =>
      obtain ⟨M, hM, hl, hht⟩ := ih
      exact semaphoreStep_inv hstep hM hl hht
  obtain ⟨M, hM, hl, hht⟩ := key
  refine ⟨M, hM, hht, ?_, ?_⟩
  · intro l hq
    rw [← hht] at hq
    exact isQueue_same_ends hq
  · intro a ha
    have ht : M.m_tail = some a := by rw [← hht, ha]
    simp [Semaphore.signal, derefSemaphore, hM, hl, ha, ht, bind, Except.bind, pure,
      Except.pure]

/-- C19 on `demoState`, after the current fiber has parked on the semaphore
`1`, which had no waiter. -/
theorem semaphore_head_is_tail_witness :
    ∃ M, (stateAfter (Semaphore.wait 1 demoState)).syncs 1 = some (.semaphore M) ∧
      M.m_head = M.m_tail :=
  have h := semaphore_head_is_tail 1 demoState (stateAfter (Semaphore.wait 1 demoState))
    { m_lock := false, m_value := 0, m_head := none, m_tail := none } rfl rfl ⟨rfl, rfl⟩
    (Relation.ReflTransGen.single
      (@SemaphoreStep.wait 1 demoState (stateAfter (Semaphore.wait 1 demoState)) (.enter 1) rfl))
  h.imp fun _ hM => ⟨hM.1, hM.2.1⟩

/-- The counter along a run: the difference to the first counter is the number
of signals that incremented minus the number of waits that returned at once. -/
theorem semaphoreRun_counter {m : Nat} {s₀ s : State} {t : Tally} {M₀ : Semaphore}
    (h₀ : s₀.syncs m = some (.semaphore M₀)) (hrun : SemaphoreRun m s₀ t s) :
    ∃ M, s.syncs m = some (.semaphore M) ∧
      M.m_value - M₀.m_value = (t.signals : Int) - t.released - t.returned ∧
      t.released ≤ t.signals := by
  induction hrun with
  | start => exact ⟨M₀, h₀, by simp, le_refl _⟩
  | other _ ho ih =>
    obtain ⟨M, hM, hv, hle⟩ := ih
    exact ⟨M, by rw [ho, hM], hv, hle⟩
  | waitReturned _ hw ih =>
    obtain ⟨M, hM, hv, hle⟩ := ih
    obtain ⟨M₁, hM₁, _, _, hc | hc⟩ := semaphore_wait_inv hw
    all_goals
      rw [hM] at hM₁
      cases hM₁
    · obtain ⟨_, _, e⟩ := hc
      subst e
      refine ⟨_, setSync_same _ _ _, ?_, hle⟩
      show M.m_value - 1 - M₀.m_value = _
      push_cast
      omega
    · exact absurd rfl hc.2.1
  | waitParked _ hw hne ih =>
    obtain ⟨M, hM, hv, hle⟩ := ih
    obtain ⟨M₁, hM₁, _, _, hc | hc⟩ := semaphore_wait_inv hw
    all_goals
      rw [hM] at hM₁
      cases hM₁
    · exact absurd hc.2.1 hne
    · obtain ⟨_, _, _, f, _, hs'⟩ := hc
      refine ⟨_, hs', ?_, hle⟩
      split <;> exact hv
  | @signal s₁ s₂ t _ hs ih =>
    obtain ⟨M, hM, hv, hle⟩ := ih
    obtain ⟨M₁, hM₁, _, hc | hc | hc⟩ := semaphore_signal_inv hs
    all_goals
      rw [hM] at hM₁
      cases hM₁
    · obtain ⟨hh, e⟩ := hc
      subst e
      have hw : hasWaiter s₁ m = false := by simp [hasWaiter, hM, hh]
      refine ⟨_, setSync_same _ _ _, ?_, ?_⟩
      · show M.m_value + 1 - M₀.m_value = _
        simp only [hw]
        push_cast
        simp
        omega
      · simp only [hw]; simp; omega
    · obtain ⟨hh, _, e⟩ := hc
      have hw : hasWaiter s₁ m = true := by
        simp [hasWaiter, hM, Option.isSome_iff_ne_none, hh]
      refine ⟨_, syncs_after_append e, ?_, ?_⟩
      · show M.m_value - M₀.m_value = _
        simp only [hw]
        push_cast
        simp
        omega
      · simp only [hw]; simp; omega
    · obtain ⟨a, hf, ha, _, _, e⟩ := hc
      have hw : hasWaiter s₁ m = true := by
        simp [hasWaiter, hM, ha]
      refine ⟨_, syncs_after_append e, ?_, ?_⟩
      · show M.m_value - M₀.m_value = _
        simp only [hw]
        push_cast
        simp
        omega
      · simp only [hw]; simp; omega

/-- C12 (counterexample): the semaphore `1` of `semOne` has counter 1 and no
waiter, and the current fiber calls `wait`, which returns at once.  The run has
0 completed signals and 1 returned wait, ends with counter 0 and no waiter, and
`0 - 1` is not `max 0 (0 - 1)`. -/
theorem semaphore_difference_negative :
    ∃ M₀ M, semOne.syncs 1 = some (.semaphore M₀) ∧ M₀.m_value = 1 ∧
      SemaphoreRun 1 semOne ⟨0, 1, 0, 0⟩ semTaken ∧
      semTaken.syncs 1 = some (.semaphore M) ∧ M.m_value = 0 ∧
      M.m_head = none ∧ M.m_tail = none ∧
      ((0 : Int) - 1 ≠ max 0 (M.m_value - M₀.m_value)) :=
  ⟨_, _, rfl, rfl, @SemaphoreRun.waitReturned 1 semOne semOne semTaken ⟨0, 0, 0, 0⟩
    (SemaphoreRun.start semOne) rfl, rfl, rfl, rfl, rfl, by decide⟩

/-- C12 (amended): along every run of completed `Semaphore::wait` and
`Semaphore::signal` calls on a semaphore, the number of completed signals minus
the number of waits that have returned at once or been released by a signal is
the final counter minus the initial counter, a difference that may be negative.
When no wait is left parked (as many waits parked as signals released), this
is the number of completed signals minus the number of all waits. -/
theorem semaphore_conservation (m : Nat) (s₀ s : State) (t : Tally) (M₀ : Semaphore)
    (h₀ : s₀.syncs m = some (.semaphore M₀)) (hrun : SemaphoreRun m s₀ t s) :
    ∃ M, s.syncs m = some (.semaphore M) ∧
      (t.signals : Int) - (t.returned + t.released) = M.m_value - M₀.m_value ∧
      (t.parked = t.released →
        (t.signals : Int) - (t.returned + t.parked) = M.m_value - M₀.m_value) := by
  obtain ⟨M, hM, hv, _⟩ := semaphoreRun_counter h₀ hrun
  refine ⟨M, hM, by omega, fun hp => ?_⟩
  rw [hp]
  omega

/-- C12 (amended) on a run from `semOne` (counter 1): a wait that returns at
once, a wait that parks, and a signal that releases the parked fiber. -/
theorem semaphore_conservation_witness :
    ∃ M, semReleased.syncs 1 = some (.semaphore M) ∧
      ((1 : Nat) : Int) - (((1 : Nat) : Int) + ((1 : Nat) : Int)) = M.m_value - 1 ∧
      ((1 : Nat) = 1 → ((1 : Nat) : Int) - (((1 : Nat) : Int) + ((1 : Nat) : Int))
        = M.m_value - 1) :=
  semaphore_conservation 1 semOne semReleased ⟨1, 1, 1, 1⟩
    { m_lock := false, m_value := 1, m_head := none, m_tail := none } rfl
    (@SemaphoreRun.signal 1 semOne semParked semReleased ⟨0, 1, 1, 0⟩
      (@SemaphoreRun.waitParked 1 semOne semTaken semParked ⟨0, 1, 0, 0⟩ (.enter 1)
        (@SemaphoreRun.waitReturned 1 semOne semOne semTaken ⟨0, 0, 0, 0⟩
          (SemaphoreRun.start semOne) rfl) rfl (by decide)) rfl)

/-! ## Claims on `yield` -/

/-- C17: when the ready queue is empty (and its flag free), `yield()`, that is
`yield(Acquire)`, dispatches nothing and returns to its caller, and the state
after the call is the state before it: the ready queue, `EXEC_FIBER` (null when
no fiber is current), `HELD_LOCK`, `P_STACK` and `P_BASE` are unchanged. -/
theorem yield_acquire_empty (s : State) (hlock : s.QUEUE_LOCK = false)
    (hq : IsQueue s.fibers s.HEAD s.TAIL []) (hE : s.EXEC_FIBER = none) :
    ∃ s', yield .Acquire s = .ok (s', .returned) ∧
      IsQueue s'.fibers s'.HEAD s'.TAIL [] ∧ s'.EXEC_FIBER = none ∧
      s'.HELD_LOCK = s.HELD_LOCK ∧ s'.P_STACK = s.P_STACK ∧ s'.P_BASE = s.P_BASE ∧ s' = s :=
  ⟨s, (yieldAcquire_ok .returned s [] hlock hq).1 rfl, hq, hE, rfl, rfl, rfl, rfl⟩

/-- C17 on the empty ready queue of a worker that runs no fiber. -/
theorem yield_acquire_empty_witness :
    ∃ s', yield .Acquire { demoEmpty with EXEC_FIBER := none } = .ok (s', .returned) ∧
      IsQueue s'.fibers s'.HEAD s'.TAIL [] ∧ s'.EXEC_FIBER = none ∧
      s'.HELD_LOCK = none ∧ s'.P_STACK = 960 ∧ s'.P_BASE = 1000 ∧
      s' = { demoEmpty with EXEC_FIBER := none } :=
  yield_acquire_empty { demoEmpty with EXEC_FIBER := none } rfl (by decide) rfl

/-! ## The indices of `runTasks` -/

theorem bind_error {ε α β : Type} {x : Except ε α} {f : α → Except ε β} {e : ε}
    (h : (x >>= f) = .error e) : x = .error e ∨ ∃ a, x = .ok a ∧ f a = .error e := by
  cases x with
  | error e' =>
    left
    cases h
    rfl
  | ok a => exact Or.inr ⟨a, rfl, h⟩

theorem getElem?_some_lt {α : Type} {l : List α} {i : Nat} {a : α} (h : l[i]? = some a) :
    i < l.length := by
  by_contra hc
  rw [List.getElem?_eq_none_iff.mpr (by omega)] at h
  cases h

/-- Reading a slot fails exactly when the index is not below the length of the
array, and then with the out-of-bounds fault. -/
theorem slot_fault (fibers : List (Option Nat)) (i : Nat) :
    (slot fibers i = .error .outOfBounds ↔ fibers.length ≤ i) ∧
    (i < fibers.length → ∃ p, slot fibers i = .ok p ∧ fibers[i]? = some p) := by
  unfold slot
  cases h : fibers[i]? with
  | none =>
    have hle : fibers.length ≤ i := List.getElem?_eq_none_iff.mp h
    exact ⟨⟨fun _ => hle, fun _ => rfl⟩, fun hi => absurd hi (by omega)⟩
  | some p =>
    have hi : i < fibers.length := getElem?_some_lt h
    exact ⟨⟨fun he => (by cases he), fun hle => absurd hle (by omega)⟩, fun _ => ⟨p, rfl, rfl⟩⟩

theorem derefFiber_fault {s : State} {p : Option Nat} :
    derefFiber s p ≠ .error .outOfBounds := by
  unfold derefFiber
  intro h
  split at h
  · cases h
  · split at h <;> cases h

theorem acquireLock_fault {s : State} : acquireLock s ≠ .error .outOfBounds := by
  unfold acquireLock
  intro h
  split at h <;> cases h

/-- The function `append` indexes no array. -/
theorem append_fault {head tail : Option Nat} {s : State} :
    append head tail s ≠ .error .outOfBounds := by
  intro h
  unfold append at h
  rcases bind_error h with h | ⟨⟨t, tf⟩, _, h⟩
  · exact derefFiber_fault h
  dsimp only at h
  rcases bind_error h with h | ⟨s₁, _, h⟩
  · exact acquireLock_fault h
  split at h
  · rcases bind_error h with h | ⟨_, _, h⟩ <;> cases h
  · rcases bind_error h with h | ⟨_, _, h⟩
    · exact derefFiber_fault h
    · rcases bind_error h with h | ⟨_, _, h⟩ <;> cases h

/-- The faults of one iteration of the loop of `runTasks`: it indexes `decl`
and `fibers` at `i`, and `fibers` at `i - 1` when `i > 0`. -/
theorem runTasksBody_fault (alloc : Nat → Nat) (junk : Nat → Fiber) (decl : List TaskDecl)
    (barrier : Option Nat) (i : Nat) (fibers : List (Option Nat)) (s : State) :
    (runTasksBody alloc junk decl barrier i fibers s = .error .outOfBounds ↔
      (decl.length ≤ i ∨ fibers.length ≤ i)) ∧
    (0 < i → i < decl.length → i < fibers.length → fibers[i - 1]? = some none →
      runTasksBody alloc junk decl barrier i fibers s = .error .nullDeref) ∧
    (∀ r, runTasksBody alloc junk decl barrier i fibers s = .ok r →
      r.1 = fibers.set i (some (alloc i))) := by
  have hcases : (decl.length ≤ i ∨ fibers.length ≤ i) ∨ (i < decl.length ∧ i < fibers.length) := by
    omega
  rcases hcases with hout | ⟨hdi, hli⟩
  · have hE : runTasksBody alloc junk decl barrier i fibers s = .error .outOfBounds := by
      unfold runTasksBody
      simp only [bind, Except.bind, pure, Except.pure, throw, throwThe, MonadExceptOf.throw]
      cases hd : decl[i]? with
      | none => rfl
      | some d =>
        have hdi : i < decl.length := getElem?_some_lt hd
        have hlen : fibers.length ≤ i := by omega
        simp only [hlen, if_true]
    refine ⟨⟨fun _ => hout, fun _ => hE⟩, fun _ h₁ h₂ _ => absurd hout (by omega),
      fun r hr => ?_⟩
    rw [hE] at hr
    cases hr
  · have hd : decl[i]? = some decl[i] := List.getElem?_eq_getElem hdi
    have hlen : ¬ fibers.length ≤ i := by omega
    by_cases hpos : i > 0
    · have hi1 : i - 1 < (fibers.set i (some (alloc i))).length := by
        rw [List.length_set]; omega
      obtain ⟨p, hp, hp'⟩ := (slot_fault (fibers.set i (some (alloc i))) (i - 1)).2 hi1
      have hne : i ≠ i - 1 := by omega
      rw [List.getElem?_set_ne hne] at hp'
      refine ⟨⟨fun h => ?_, fun h => absurd h (by omega)⟩, fun _ _ _ hnull => ?_,
        fun r hr => ?_⟩
      · exfalso
        unfold runTasksBody at h
        simp only [hd, hlen, hpos, hp, bind, Except.bind, pure, Except.pure, throw, throwThe,
          MonadExceptOf.throw, if_true, if_false] at h
        split at h
        · rename_i e he
          cases h
          exact derefFiber_fault he
        · cases h
      · rw [hnull] at hp'
        cases hp'
        unfold runTasksBody
        simp only [hd, hlen, hpos, hp, bind, Except.bind, pure, Except.pure, throw, throwThe,
          MonadExceptOf.throw, if_true, if_false, derefFiber]
      · unfold runTasksBody at hr
        simp only [hd, hlen, hpos, hp, bind, Except.bind, pure, Except.pure, throw, throwThe,
          MonadExceptOf.throw, if_true, if_false] at hr
        split at hr
        · cases hr
        · cases hr
          rfl
    · refine ⟨⟨fun h => ?_, fun h => absurd h (by omega)⟩, fun h => absurd h hpos,
        fun r hr => ?_⟩
      · exfalso
        unfold runTasksBody at h
        simp only [hd, hlen, hpos, bind, Except.bind, pure, Except.pure, throw, throwThe,
          MonadExceptOf.throw, if_true, if_false] at h
        cases h
      · unfold runTasksBody at hr
        simp only [hd, hlen, hpos, bind, Except.bind, pure, Except.pure, throw, throwThe,
          MonadExceptOf.throw, if_true, if_false] at hr
        cases hr
        rfl

/-- A completed run of the loop of `runTasks` keeps the number of slots. -/
theorem runTasksLoop_length (alloc : Nat → Nat) (junk : Nat → Fiber) (decl : List TaskDecl)
    (barrier : Option Nat) :
    ∀ (n i : Nat) (fibers : List (Option Nat)) (s : State) (r : List (Option Nat) × State),
      runTasksLoop alloc junk decl barrier n i fibers s = .ok r → r.1.length = fibers.length
  | 0, _, _, _, _, h => by
    cases h
    rfl
  | n + 1, i, fibers, s, r, h => by
    unfold runTasksLoop at h
    obtain ⟨⟨f₁, s₁⟩, hb, h⟩ := bind_ok h
    have h₁ : f₁ = fibers.set i (some (alloc i)) :=
      (runTasksBody_fault alloc junk decl barrier i fibers s).2.2 _ hb
    have h₂ := runTasksLoop_length alloc junk decl barrier n (i + 1) f₁ s₁ r h
    rw [h₂, h₁, List.length_set]

/-- The loop of `runTasks` over the indices from `i` to `i + n - 1` ends in the
out-of-bounds fault only if one of them is not an index of `decl` or not an
index of `fibers`. -/
theorem runTasksLoop_fault (alloc : Nat → Nat) (junk : Nat → Fiber) (decl : List TaskDecl)
    (barrier : Option Nat) :
    ∀ (n i : Nat) (fibers : List (Option Nat)) (s : State),
      runTasksLoop alloc junk decl barrier n i fibers s = .error .outOfBounds →
      decl.length < i + n ∨ fibers.length < i + n
  | 0, _, _, _, h => by cases h
  | n + 1, i, fibers, s, h => by
    unfold runTasksLoop at h
    rcases bind_error h with hb | ⟨⟨f₁, s₁⟩, hb, h⟩
    · have := (runTasksBody_fault alloc junk decl barrier i fibers s).1.mp hb
      omega
    · have h₁ : f₁ = fibers.set i (some (alloc i)) :=
        (runTasksBody_fault alloc junk decl barrier i fibers s).2.2 _ hb
      have hlen : f₁.length = fibers.length := by
        rw [h₁, List.length_set]
      have := runTasksLoop_fault alloc junk decl barrier n (i + 1) f₁ s₁ h
      omega

/-- One iteration of the loop of `runTasks` with `i` inside `decl` and `fibers`
completes, when the slot before `i` holds a live fiber (for `i > 0`); it leaves
a live fiber in slot `i`. -/
theorem runTasksBody_total (alloc : Nat → Nat) (junk : Nat → Fiber) (decl : List TaskDecl)
    (barrier : Option Nat) (i : Nat) (fibers : List (Option Nat)) (s : State)
    (hdi : i < decl.length) (hli : i < fibers.length)
    (hprev : 0 < i → ∃ p, fibers[i - 1]? = some (some p) ∧ (s.fibers p).isSome = true) :
    ∃ s', runTasksBody alloc junk decl barrier i fibers s =
        .ok (fibers.set i (some (alloc i)), s') ∧
      (s'.fibers (alloc i)).isSome = true := by
  have hd : decl[i]? = some decl[i] := List.getElem?_eq_getElem hdi
  have hlen : ¬ fibers.length ≤ i := by omega
  by_cases hpos : i > 0
  · obtain ⟨p, hp, hlive⟩ := hprev hpos
    have hne : i ≠ i - 1 := by omega
    have hslot : slot (fibers.set i (some (alloc i))) (i - 1) = .ok (some p) := by
      unfold slot
      rw [List.getElem?_set_ne hne, hp]
    cases hpf : s.fibers p with
    | none => rw [hpf] at hlive; cases hlive
    | some pf =>
      have hdrf : ∃ pf', derefFiber (s.setFiber (alloc i)
          { junk i with
            m_fiberStack := alloc i + STACK_SIZE, m_fiberBase := alloc i + STACK_SIZE,
            m_task := decl[i].m_task, m_param := decl[i].m_param, m_signal := barrier,
            m_status := .New }) (some p) = .ok (p, pf') := by
        by_cases hpa : p = alloc i
        · exact ⟨_, derefFiber_ok _ (by rw [hpa, setFiber_same])⟩
        · exact ⟨pf, derefFiber_ok _ (by rw [setFiber_other _ _ hpa, hpf])⟩
      obtain ⟨pf', hpf'⟩ := hdrf
      refine ⟨?w, ?h1, ?h2⟩
      case h1 =>
        unfold runTasksBody
        simp only [hd, hlen, hpos, hslot, bind, Except.bind, pure, Except.pure, throw,
          throwThe, MonadExceptOf.throw, if_true, if_false, Option.some.injEq]
        rw [hpf']
        exact rfl
      case h2 =>
        by_cases hpa : alloc i = p <;> simp [State.setFiber, hpa]
  · refine ⟨?v, ?g1, ?g2⟩
    case g1 =>
      unfold runTasksBody
      simp only [hd, hlen, hpos, bind, Except.bind, pure, Except.pure, throw, throwThe,
        MonadExceptOf.throw, if_true, if_false]
      exact rfl
    case g2 => simp [State.setFiber]

/-- The loop of `runTasks` over indices inside `decl` and `fibers` completes. -/
theorem runTasksLoop_total (alloc : Nat → Nat) (junk : Nat → Fiber) (decl : List TaskDecl)
    (barrier : Option Nat) :
    ∀ (n i : Nat) (fibers : List (Option Nat)) (s : State),
      i + n ≤ decl.length → i + n ≤ fibers.length →
      (0 < i → ∃ p, fibers[i - 1]? = some (some p) ∧ (s.fibers p).isSome = true) →
      ∃ r, runTasksLoop alloc junk decl barrier n i fibers s = .ok r
  | 0, _, fibers, s, _, _, _ => ⟨(fibers, s), rfl⟩
  | n + 1, i, fibers, s, hd, hl, hprev => by
    obtain ⟨s', hb, hlive⟩ :=
      runTasksBody_total alloc junk decl barrier i fibers s (by omega) (by omega) hprev
    obtain ⟨r, hr⟩ := runTasksLoop_total alloc junk decl barrier n (i + 1)
      (fibers.set i (some (alloc i))) s' (by omega) (by rw [List.length_set]; omega)
      (fun _ => ⟨alloc i, by
        have hi : i < fibers.length := by omega
        simp [List.getElem?_set_self, hi], hlive⟩)
    exact ⟨r, by simp only [runTasksLoop, hb, bind, Except.bind, hr]⟩

/-- The faults of the call of `append` that ends `runTasks`: it indexes
`fibers` at `0` and at `numTasks - 1` modulo `2 ^ 64`. -/
theorem runTasksAppend_fault (numTasks : Nat) (fibers : List (Option Nat)) (s : State) :
    runTasksAppend numTasks fibers s = .error .outOfBounds ↔
      (fibers.length ≤ 0 ∨ fibers.length ≤ (2 ^ 64 - 1 + numTasks) % 2 ^ 64) := by
  constructor
  · intro h
    unfold runTasksAppend at h
    rcases bind_error h with h | ⟨head, _, h⟩
    · exact Or.inl ((slot_fault fibers 0).1.mp h)
    · rcases bind_error h with h | ⟨tail, _, h⟩
      · exact Or.inr ((slot_fault fibers _).1.mp h)
      · exact absurd h append_fault
  · intro h
    unfold runTasksAppend
    by_cases h0 : fibers.length ≤ 0
    · simp only [(slot_fault fibers 0).1.mpr h0, bind, Except.bind]
    · obtain ⟨p, hp, _⟩ := (slot_fault fibers 0).2 (by omega)
      have h1 := (slot_fault fibers ((2 ^ 64 - 1 + numTasks) % 2 ^ 64)).1.mpr
        (h.resolve_left h0)
      simp only [hp, h1, bind, Except.bind]

/-- C20: the indices `runTasks` uses into its array `fibers`, for
`numTasks < 2 ^ 64` declarations.  An index outside the array ends the call in
the out-of-bounds fault, and nothing else does.  Iteration `i` of the loop
indexes `fibers` at `i`, and at `i - 1` when `i > 0` (the pointer it reads
there is dereferenced): it faults exactly when `i` is not below the length of
the array (or of `decl`).  The final call of `append` indexes `fibers` at `0`
and at `numTasks - 1` modulo `2 ^ 64`, which is `numTasks - 1` for
`numTasks ≥ 1` and `2 ^ 64 - 1` for `numTasks = 0`.  On the array of `numTasks`
slots the loop completes for every `numTasks`, and for `numTasks ≥ 1` the two
reads of the final call find their slots.  So the call `runTasks` stays in
bounds if and only if `numTasks ≥ 1`.
For `numTasks = 0` the loop runs no iteration and leaves the array without
slots, the final call reads the slots `0` and `2 ^ 64 - 1`, neither of which
the empty array has, and the call has no defined result. -/
theorem runTasks_indices (alloc : Nat → Nat) (junk : Nat → Fiber) (balloc : Nat)
    (decl : List TaskDecl) (numTasks : Nat) (p_barrier : Bool) (s : State)
    (h64 : numTasks < 2 ^ 64) (hdecl : decl.length = numTasks) :
    (∀ (barrier : Option Nat) (i : Nat) (fibers : List (Option Nat)) (t : State),
      (runTasksBody alloc junk decl barrier i fibers t = .error .outOfBounds ↔
        (numTasks ≤ i ∨ fibers.length ≤ i)) ∧
      (0 < i → i < numTasks → i < fibers.length → fibers[i - 1]? = some none →
        runTasksBody alloc junk decl barrier i fibers t = .error .nullDeref)) ∧
    (∀ (fibers : List (Option Nat)) (t : State),
      runTasksAppend numTasks fibers t = .error .outOfBounds ↔
        (fibers.length ≤ 0 ∨ fibers.length ≤ (2 ^ 64 - 1 + numTasks) % 2 ^ 64)) ∧
    (2 ^ 64 - 1 + numTasks) % 2 ^ 64 = (if numTasks = 0 then 2 ^ 64 - 1 else numTasks - 1) ∧
    (∀ (barrier : Option Nat) (t : State),
      ∃ r, runTasksLoop alloc junk decl barrier numTasks 0 (List.replicate numTasks none) t =
          .ok r ∧
        r.1.length = numTasks ∧
        (1 ≤ numTasks → ∃ head tail, slot r.1 0 = .ok head ∧
          slot r.1 ((2 ^ 64 - 1 + numTasks) % 2 ^ 64) = .ok tail)) ∧
    (runTasks alloc junk balloc decl numTasks p_barrier s ≠ .error .outOfBounds ↔
      1 ≤ numTasks) ∧
    (∀ (barrier : Option Nat) (t : State),
      runTasksLoop alloc junk decl barrier 0 0 (List.replicate 0 none) t = .ok ([], t)) ∧
    (∀ (fibers : List (Option Nat)) (t : State),
      runTasksAppend 0 fibers t = (do
        let head ← slot fibers 0
        let tail ← slot fibers (2 ^ 64 - 1)
        append head tail t)) ∧
    slot [] 0 = .error .outOfBounds ∧ slot [] (2 ^ 64 - 1) = .error .outOfBounds ∧
    (∀ (alloc : Nat → Nat) (junk : Nat → Fiber) (balloc : Nat) (decl : List TaskDecl)
      (p_barrier : Bool) (s : State),
      runTasks alloc junk balloc decl 0 p_barrier s = .error .outOfBounds) := by
  have hidx : (18446744073709551615 + numTasks) % 18446744073709551616 =
      if numTasks = 0 then 18446744073709551615 else numTasks - 1 := by
    split <;> omega
  have hidx' : (2 ^ 64 - 1 + numTasks) % 2 ^ 64 =
      (if numTasks = 0 then 2 ^ 64 - 1 else numTasks - 1) := by
    norm_num
    exact hidx
  have hzero : ∀ (alloc : Nat → Nat) (junk : Nat → Fiber) (balloc : Nat) (decl : List TaskDecl)
      (p_barrier : Bool) (s : State),
      runTasks alloc junk balloc decl 0 p_barrier s = .error .outOfBounds := by
    intro alloc junk balloc decl p_barrier s
    cases p_barrier <;> rfl
  refine ⟨fun barrier i fibers t => ?_, fun fibers t => runTasksAppend_fault numTasks fibers t,
    hidx', fun barrier t => ?_, ⟨fun h => ?_, fun hN h => ?_⟩, fun _ _ => rfl, fun _ _ => rfl,
    rfl, rfl, hzero⟩
  · have hb := runTasksBody_fault alloc junk decl barrier i fibers t
    rw [hdecl] at hb
    exact ⟨hb.1, hb.2.1⟩
  · obtain ⟨r, hr⟩ := runTasksLoop_total alloc junk decl barrier numTasks 0
      (List.replicate numTasks none) t (by omega) (by rw [List.length_replicate]; omega)
      (fun h => absurd h (by omega))
    have hlen := runTasksLoop_length alloc junk decl barrier numTasks 0 _ _ _ hr
    rw [List.length_replicate] at hlen
    refine ⟨r, hr, hlen, fun hN => ?_⟩
    obtain ⟨head, hh, _⟩ := (slot_fault r.1 0).2 (by omega)
    obtain ⟨tail, ht, _⟩ := (slot_fault r.1 ((2 ^ 64 - 1 + numTasks) % 2 ^ 64)).2
      (by rw [hidx', if_neg (by omega)]; omega)
    exact ⟨head, tail, hh, ht⟩
  · by_contra hc
    have h0 : numTasks = 0 := by omega
    subst h0
    exact h (hzero alloc junk balloc decl p_barrier s)
  · unfold runTasks at h
    rcases bind_error h with h | ⟨⟨fibers, t⟩, hloop, h⟩
    · have := runTasksLoop_fault alloc junk decl _ numTasks 0 _ _ h
      rw [List.length_replicate] at this
      omega
    · have hlen := runTasksLoop_length alloc junk decl _ numTasks 0 _ _ _ hloop
      rw [List.length_replicate] at hlen
      rcases bind_error h with h | ⟨_, _, h⟩
      · have := (runTasksAppend_fault numTasks fibers t).mp h
        have hlen' : fibers.length = numTasks := hlen
        rw [hidx', if_neg (by omega)] at this
        omega
      · cases h

/-- C20 for the two declarations `demoDecl`, submitted with a barrier to the
empty ready queue of a worker that runs no fiber. -/
theorem runTasks_indices_witness :
    (runTasks demoAlloc demoJunk 20 demoDecl 2 true { demoEmpty with EXEC_FIBER := none } ≠
      .error .outOfBounds ↔ 1 ≤ 2) ∧
    (2 ^ 64 - 1 + 2) % 2 ^ 64 = (if 2 = 0 then 2 ^ 64 - 1 else 2 - 1) :=
  have h := runTasks_indices demoAlloc demoJunk 20 demoDecl 2 true
    { demoEmpty with EXEC_FIBER := none } (by norm_num) rfl
  ⟨h.2.2.2.2.1, h.2.2.1⟩

/-! ## The order of the steps of `yield(Block)` -/

theorem unlock_locked (o : Sync) : o.unlock.locked = false := by
  cases o <;> rfl

/-- The steps of `yield(Block)` in program order, for a current fiber `f` and a
held lock `l`: the save of the context into the fiber's slot, the clear of the
flag, the restore of the worker's context, the retiring of the fiber, and the
fall-through into Acquire. -/
theorem yield_block_steps (s : State) (f l : Nat) (ff : Fiber) (o : Sync)
    (hE : s.EXEC_FIBER = some f) (hf : s.fibers f = some ff)
    (hH : s.HELD_LOCK = some l) (hl : s.syncs l = some o) :
    ∃ s₂ s₃ s₄, yieldSave s = .ok s₂ ∧ yieldClearHeld s₂ = .ok s₃ ∧
      yieldRetire (yieldRestore s₃) = .ok s₄ ∧ yield .Block s = yieldAcquire .worker s₄ ∧
      yieldTrace .Block s = .ok ([(.save, s₂), (.clearHeld, s₃), (.restore, yieldRestore s₃),
        (.retire, s₄)], s₄) ∧
      s₂.fibers f = some { ff with m_fiberStack := (2 ^ 64 - 40 + s.rsp) % 2 ^ 64,
                                   m_fiberBase := s.rbp } ∧
      s₂.syncs = s.syncs ∧ s₂.HELD_LOCK = some l ∧
      s₂.rsp = (2 ^ 64 - 40 + s.rsp) % 2 ^ 64 ∧ s₂.rbp = s.rbp ∧
      s₃.syncs l = some o.unlock ∧ s₃.fibers = s₂.fibers ∧ s₃.HELD_LOCK = some l ∧
      s₃.rsp = (2 ^ 64 - 40 + s.rsp) % 2 ^ 64 ∧ s₃.rbp = s.rbp ∧
      s₃.P_STACK = s.P_STACK ∧ s₃.P_BASE = s.P_BASE ∧
      (yieldRestore s₃).rsp = (s.P_STACK + 40) % 2 ^ 64 ∧ (yieldRestore s₃).rbp = s.P_BASE ∧
      (yieldRestore s₃).syncs = s₃.syncs ∧ (yieldRestore s₃).fibers = s₃.fibers ∧
      (yieldRestore s₃).HELD_LOCK = some l ∧
      s₄.syncs l = some o.unlock ∧ s₄.EXEC_FIBER = none ∧
      (ff.m_status = .Blocked → s₄.HELD_LOCK = none ∧ s₄.fibers = s₃.fibers) := by
  have h1 := yieldSave_ok s f ff hE hf
  have h2 := yieldClearHeld_ok ((pusha s).setFiber f
      { ff with m_fiberStack := (2 ^ 64 - 40 + s.rsp) % 2 ^ 64, m_fiberBase := s.rbp }) l o
      (by simp only [setFiber_proj, pusha_proj, hH])
      (by simp only [setFiber_proj, pusha_proj, hl])
  have h3 := yieldRetire_ok (yieldRestore (((pusha s).setFiber f
      { ff with m_fiberStack := (2 ^ 64 - 40 + s.rsp) % 2 ^ 64,
                m_fiberBase := s.rbp }).setSync l o.unlock)) f
      { ff with m_fiberStack := (2 ^ 64 - 40 + s.rsp) % 2 ^ 64, m_fiberBase := s.rbp }
      (by simp only [yieldRestore_proj, setSync_proj, setFiber_proj, pusha_proj, hE])
      (by simp only [yieldRestore_proj, setSync_proj, setFiber_same])
  refine ⟨_, _, _, h1, h2, h3, ?_, ?_, ?_, ?_, ?_, ?_, ?_, ?_, ?_, ?_, ?_, ?_, ?_, ?_, ?_, ?_,
    ?_, ?_, ?_, ?_, ?_, ?_⟩
  · simp only [yield_block_def, h1, h2, h3, bind, Except.bind]
  · simp only [yieldTrace_block, h1, h2, h3, bind, Except.bind, pure, Except.pure]
  · simp only [setFiber_same]
  · simp only [setFiber_proj, pusha_proj]
  · simp only [setFiber_proj, pusha_proj, hH]
  · simp only [setFiber_proj, pusha_proj]
  · simp only [setFiber_proj, pusha_proj]
  · simp only [setSync_same]
  · simp only [setSync_proj]
  · simp only [setSync_proj, setFiber_proj, pusha_proj, hH]
  · simp only [setSync_proj, setFiber_proj, pusha_proj]
  · simp only [setSync_proj, setFiber_proj, pusha_proj]
  · simp only [setSync_proj, setFiber_proj, pusha_proj]
  · simp only [setSync_proj, setFiber_proj, pusha_proj]
  · simp only [yieldRestore_proj, setSync_proj, setFiber_proj, pusha_proj]
  · simp only [yieldRestore_proj, setSync_proj, setFiber_proj, pusha_proj]
  · simp only [yieldRestore_proj]
  · simp only [yieldRestore_proj]
  · simp only [yieldRestore_proj, setSync_proj, setFiber_proj, pusha_proj, hH]
  · show State.syncs (State.setExec _ none) l = _
    cases ff.m_status <;>
      simp only [setExec_proj, setHeld_proj, freeFiber_proj, yieldRestore_proj, setSync_same]
  · simp only [setExec_proj]
  · intro hst
    constructor
    · show State.HELD_LOCK (State.setExec _ none) = _
      simp only [hst, setExec_proj, setHeld_proj]
    · show State.fibers (State.setExec _ none) = _
      simp only [hst, setExec_proj, setHeld_proj, yieldRestore_proj]

/-- What the park part of `Barrier::wait` or `Semaphore::wait` leaves on its
blocking path: the current fiber is marked `Blocked`, and the flag of the
primitive is set and is the worker's held lock. -/
theorem waitPark_holds_flag {self : Nat} {s s₁ : State}
    (hpark : Barrier.waitPark self s = .ok (s₁, some .Block) ∨
             Semaphore.waitPark self s = .ok (s₁, some .Block)) :
    ∃ f ff o, s₁.EXEC_FIBER = some f ∧ s₁.fibers f = some ff ∧ ff.m_status = .Blocked ∧
      s₁.HELD_LOCK = some self ∧ s₁.syncs self = some o ∧ o.locked = true ∧
      s₁.rsp = s.rsp ∧ s₁.rbp = s.rbp := by
  have fib : ∀ (f : Nat) (ff : Fiber) (t : Nat) (tf : Fiber),
      (s.setFiber f { ff with m_status := .Blocked }).fibers t = some tf →
      ∃ ff₁, ((s.setFiber f { ff with m_status := .Blocked }).setFiber t
        { tf with next := some f }).fibers f = some ff₁ ∧ ff₁.m_status = .Blocked := by
    intro f ff t tf htf
    by_cases hft : f = t
    · subst hft
      rw [setFiber_same] at htf
      cases htf
      exact ⟨_, setFiber_same _ _ _, rfl⟩
    · exact ⟨_, by rw [setFiber_other _ _ hft, setFiber_same], rfl⟩
  rcases hpark with hp | hp
  · obtain ⟨B, _, _, hc | hc⟩ := barrier_waitPark_inv hp
    · cases hc.2.1
    · obtain ⟨_, _, f, ff, _, _, hH₁, hE₁, _, _, _, _, _, hrsp, hrbp, _, hsub⟩ := hc
      rcases hsub with ⟨_, hs, hfib⟩ | ⟨t, tf, _, htf, hs, hfib⟩
      · exact ⟨f, _, _, hE₁, by rw [hfib, setFiber_same], rfl, hH₁, hs, rfl, hrsp, hrbp⟩
      · obtain ⟨ff₁, h1, h2⟩ := fib f ff t tf htf
        exact ⟨f, ff₁, _, hE₁, by rw [hfib, h1], h2, hH₁, hs, rfl, hrsp, hrbp⟩
  · obtain ⟨M, _, _, hc | hc⟩ := semaphore_waitPark_inv hp
    · cases hc.2.1
    · obtain ⟨_, _, f, ff, _, _, hH₁, hE₁, _, _, _, _, _, hrsp, hrbp, _, hsub⟩ := hc
      rcases hsub with ⟨_, hs, hfib⟩ | ⟨t, tf, _, htf, hs, hfib⟩
      · exact ⟨f, _, _, hE₁, by rw [hfib, setFiber_same], rfl, hH₁, hs, rfl, hrsp, hrbp⟩
      · obtain ⟨ff₁, h1, h2⟩ := fib f ff t tf htf
        exact ⟨f, ff₁, _, hE₁, by rw [hfib, h1], h2, hH₁, hs, rfl, hrsp, hrbp⟩

/-- C13: on the blocking path of `Barrier::wait` and of `Semaphore::wait` the
part of the primitive before `yield` ends with its flag set and registered as
the worker's held lock, and the call continues as `yield(Block)` in that state
`s₁`.  The statement groups `yield(Block)` then executes above `case Acquire`
are, in this order: the save of the current fiber's stack and base pointer
into the fiber's own slot, which leaves the flag set (state `s₂`); the clear of
the flag, with the saved slot in place (state `s₃`); the restore of the
worker's context; the retiring of the fiber (state `s₄`).  Every state on this
record in which the flag is clear has the slot stored and is not the state the
save left, so the flag is cleared only after the save.  When these groups are
over the flag is clear and `HELD_LOCK` is null, and they are still so after
every completed Acquire part. -/
theorem wait_flag_cleared_after_save (self : Nat) (s s₁ : State)
    (hpark : Barrier.waitPark self s = .ok (s₁, some .Block) ∨
             Semaphore.waitPark self s = .ok (s₁, some .Block)) :
    (Barrier.waitPark self s = .ok (s₁, some .Block) →
      Barrier.wait self s = yield .Block s₁) ∧
    (Semaphore.waitPark self s = .ok (s₁, some .Block) →
      Semaphore.wait self s = yield .Block s₁) ∧
    ∃ f ff o, s₁.EXEC_FIBER = some f ∧ s₁.fibers f = some ff ∧
      s₁.HELD_LOCK = some self ∧ s₁.syncs self = some o ∧ o.locked = true ∧
      ∃ s₂ s₃ s₄ tr, yieldTrace .Block s₁ = .ok (tr, s₄) ∧
        tr = [(.save, s₂), (.clearHeld, s₃), (.restore, yieldRestore s₃), (.retire, s₄)] ∧
        yield .Block s₁ = yieldAcquire .worker s₄ ∧
        s₂.fibers f = some { ff with m_fiberStack := (2 ^ 64 - 40 + s.rsp) % 2 ^ 64,
                                     m_fiberBase := s.rbp } ∧
        s₂.syncs self = some o ∧
        s₃.fibers f = some { ff with m_fiberStack := (2 ^ 64 - 40 + s.rsp) % 2 ^ 64,
                                     m_fiberBase := s.rbp } ∧
        s₃.syncs self = some o.unlock ∧ o.unlock.locked = false ∧
        (∀ p t, (p, t) ∈ tr → (t.syncs self).map Sync.locked = some false →
          p ≠ .save ∧
          t.fibers f = some { ff with m_fiberStack := (2 ^ 64 - 40 + s.rsp) % 2 ^ 64,
                                      m_fiberBase := s.rbp }) ∧
        s₄.syncs self = some o.unlock ∧ s₄.HELD_LOCK = none ∧
        (∀ s' c, yield .Block s₁ = .ok (s', c) →
          s'.syncs self = some o.unlock ∧ s'.HELD_LOCK = none) := by
  refine ⟨fun h => ?_, fun h => ?_, ?_⟩
  · simp only [Barrier.wait, h, tailYield, bind, Except.bind]
  · simp only [Semaphore.wait, h, tailYield, bind, Except.bind]
  obtain ⟨f, ff, o, hE, hf, hst, hH, ho, hlk, hrsp, hrbp⟩ := waitPark_holds_flag hpark
  obtain ⟨s₂, s₃, s₄, _, _, _, h4, htr, hs₂f, hs₂s, _, _, _, hs₃s, hs₃f, _, _, _, _, _, _, _,
    hrs, hrf, _, hs₄s, _, hs₄h⟩ := yield_block_steps s₁ f self ff o hE hf hH ho
  rw [hrsp, hrbp] at hs₂f
  obtain ⟨hs₄h, hs₄f⟩ := hs₄h hst
  refine ⟨f, ff, o, hE, hf, hH, ho, hlk, s₂, s₃, s₄, _, htr, rfl, h4, hs₂f, by rw [hs₂s, ho],
    by rw [hs₃f, hs₂f], hs₃s, unlock_locked o, ?_, hs₄s, hs₄h, ?_⟩
  · intro p t hmem hclear
    simp only [List.mem_cons, Prod.mk.injEq, List.mem_singleton, List.not_mem_nil,
      or_false] at hmem
    rcases hmem with ⟨rfl, rfl⟩ | ⟨rfl, rfl⟩ | ⟨rfl, rfl⟩ | ⟨rfl, rfl⟩
    · rw [hs₂s, ho, Option.map_some', hlk] at hclear
      cases hclear
    · exact ⟨by decide, by rw [hs₃f, hs₂f]⟩
    · exact ⟨by decide, by rw [hrf, hs₃f, hs₂f]⟩
    · exact ⟨by decide, by rw [hs₄f, hs₃f, hs₂f]⟩
  · intro s' c hy
    rw [h4] at hy
    obtain ⟨hsy, hhl, _⟩ := yieldAcquire_inv hy
    exact ⟨by rw [hsy, hs₄s], by rw [hhl, hs₄h]⟩

/-- C13 for the current fiber `5` of `demoState` in `Barrier::wait` on the
barrier `0`. -/
theorem wait_flag_cleared_after_save_witness :
    (Barrier.waitPark 0 demoState = .ok (barParked, some .Block) →
      Barrier.wait 0 demoState = yield .Block barParked) ∧
    (Semaphore.waitPark 0 demoState = .ok (barParked, some .Block) →
      Semaphore.wait 0 demoState = yield .Block barParked) ∧
    ∃ f ff o, barParked.EXEC_FIBER = some f ∧ barParked.fibers f = some ff ∧
      barParked.HELD_LOCK = some 0 ∧ barParked.syncs 0 = some o ∧ o.locked = true ∧
      ∃ s₂ s₃ s₄ tr, yieldTrace .Block barParked = .ok (tr, s₄) ∧
        tr = [(.save, s₂), (.clearHeld, s₃), (.restore, yieldRestore s₃), (.retire, s₄)] ∧
        yield .Block barParked = yieldAcquire .worker s₄ ∧
        s₂.fibers f = some { ff with
          m_fiberStack := (2 ^ 64 - 40 + demoState.rsp) % 2 ^ 64,
          m_fiberBase := demoState.rbp } ∧
        s₂.syncs 0 = some o ∧
        s₃.fibers f = some { ff with
          m_fiberStack := (2 ^ 64 - 40 + demoState.rsp) % 2 ^ 64,
          m_fiberBase := demoState.rbp } ∧
        s₃.syncs 0 = some o.unlock ∧ o.unlock.locked = false ∧
        (∀ p t, (p, t) ∈ tr → (t.syncs 0).map Sync.locked = some false →
          p ≠ .save ∧
          t.fibers f = some { ff with
            m_fiberStack := (2 ^ 64 - 40 + demoState.rsp) % 2 ^ 64,
            m_fiberBase := demoState.rbp }) ∧
        s₄.syncs 0 = some o.unlock ∧ s₄.HELD_LOCK = none ∧
        (∀ s' c, yield .Block barParked = .ok (s', c) →
          s'.syncs 0 = some o.unlock ∧ s'.HELD_LOCK = none) :=
  wait_flag_cleared_after_save 0 demoState barParked (Or.inl rfl)

/-- C14 (counterexample): `yield(Block)` for the fiber `5` of `barParked`,
which holds the flag of the barrier `0`.  On the record of the statement groups
executed, the clear of the held flag stands before the restore of the worker's
context.  In the state `s₂` the save left the flag is set; in the state `s₃`
the clear left the flag is clear, while `rsp` and `rbp` still hold the fiber's
values `4960` and `5040`, not the worker's saved `P_STACK = 960` and
`P_BASE = 1000`; these are loaded by the restore, which runs on `s₃`. -/
theorem yield_block_clears_before_restore :
    ∃ s₂ s₃ s₄ tr, yieldTrace .Block barParked = .ok (tr, s₄) ∧
      tr = [(.save, s₂), (.clearHeld, s₃), (.restore, yieldRestore s₃), (.retire, s₄)] ∧
      (tr.map Prod.fst).indexOf .clearHeld < (tr.map Prod.fst).indexOf .restore ∧
      yield .Block barParked = yieldAcquire .worker s₄ ∧
      (barParked.syncs 0).map Sync.locked = some true ∧
      (s₂.syncs 0).map Sync.locked = some true ∧
      (s₃.syncs 0).map Sync.locked = some false ∧
      s₃.rsp = 4960 ∧ s₃.rbp = 5040 ∧ s₃.P_STACK = 960 ∧ s₃.P_BASE = 1000 ∧
      (yieldRestore s₃).rsp = 1000 ∧ (yieldRestore s₃).rbp = 1000 :=
  ⟨_, _, _, _, rfl, rfl, by decide, rfl, rfl, rfl, rfl, rfl, rfl, rfl, rfl, rfl, rfl⟩

/-- C14 (amended): in `yield(Block)`, for a current fiber `f` and a held lock
`l`, the statement groups executed above `case Acquire` are, in this order: the
save of the fiber's stack and base pointer into its own slot (the flag of `l`
is untouched), the clear of the flag of `l` (the registers still hold the
fiber's values and `P_STACK`, `P_BASE` are not yet loaded), the restore of
`rsp` and `rbp` from `P_STACK` and `P_BASE` (the flag stays clear, `HELD_LOCK`
still points to `l`), and the retiring of the fiber, which resets `HELD_LOCK`
to null for a `Blocked` fiber.  So the flag is released after the save of the
fiber's context and before the restore of the worker's context; only the reset
of the pointer comes after the restore. -/
theorem yield_block_order (s : State) (f l : Nat) (ff : Fiber) (o : Sync)
    (hE : s.EXEC_FIBER = some f) (hf : s.fibers f = some ff)
    (hH : s.HELD_LOCK = some l) (hl : s.syncs l = some o) :
    ∃ s₂ s₃ s₄ tr, yieldTrace .Block s = .ok (tr, s₄) ∧
      tr = [(.save, s₂), (.clearHeld, s₃), (.restore, yieldRestore s₃), (.retire, s₄)] ∧
      (tr.map Prod.fst).indexOf .save < (tr.map Prod.fst).indexOf .clearHeld ∧
      (tr.map Prod.fst).indexOf .clearHeld < (tr.map Prod.fst).indexOf .restore ∧
      (tr.map Prod.fst).indexOf .restore < (tr.map Prod.fst).indexOf .retire ∧
      yield .Block s = yieldAcquire .worker s₄ ∧
      s₂.fibers f = some { ff with m_fiberStack := (2 ^ 64 - 40 + s.rsp) % 2 ^ 64,
                                   m_fiberBase := s.rbp } ∧
      s₂.syncs l = some o ∧
      s₃.syncs l = some o.unlock ∧ o.unlock.locked = false ∧
      s₃.rsp = (2 ^ 64 - 40 + s.rsp) % 2 ^ 64 ∧ s₃.rbp = s.rbp ∧
      s₃.P_STACK = s.P_STACK ∧ s₃.P_BASE = s.P_BASE ∧ s₃.HELD_LOCK = some l ∧
      (yieldRestore s₃).rsp = (s.P_STACK + 40) % 2 ^ 64 ∧ (yieldRestore s₃).rbp = s.P_BASE ∧
      (yieldRestore s₃).syncs l = some o.unlock ∧ (yieldRestore s₃).HELD_LOCK = some l ∧
      (ff.m_status = .Blocked → s₄.HELD_LOCK = none) := by
  obtain ⟨s₂, s₃, s₄, _, _, _, h4, htr, hs₂f, hs₂s, _, _, _, hs₃s, _, hs₃h, hs₃r, hs₃b, hs₃P,
    hs₃B, hrr, hrb, hrs, _, hrh, _, _, hs₄h⟩ := yield_block_steps s f l ff o hE hf hH hl
  have idx : ∀ t₁ t₂ t₃ t₄ : State,
      (([(YieldStep.save, t₁), (.clearHeld, t₂), (.restore, t₃), (.retire, t₄)] :
        List (YieldStep × State)).map Prod.fst) = [.save, .clearHeld, .restore, .retire] :=
    fun _ _ _ _ => rfl
  exact ⟨s₂, s₃, s₄, _, htr, rfl, by rw [idx]; decide, by rw [idx]; decide,
    by rw [idx]; decide, h4, hs₂f, by rw [hs₂s, hl],
    hs₃s, unlock_locked o, hs₃r, hs₃b, hs₃P, hs₃B, hs₃h, hrr, hrb, by rw [hrs, hs₃s], hrh,
    fun h => (hs₄h h).1⟩

/-- C14 (amended) for the fiber `5` of `barParked`, which holds the flag of the
barrier `0`. -/
theorem yield_block_order_witness :
    ∃ s₂ s₃ s₄ tr, yieldTrace .Block barParked = .ok (tr, s₄) ∧
      tr = [(.save, s₂), (.clearHeld, s₃), (.restore, yieldRestore s₃), (.retire, s₄)] ∧
      (tr.map Prod.fst).indexOf .save < (tr.map Prod.fst).indexOf .clearHeld ∧
      (tr.map Prod.fst).indexOf .clearHeld < (tr.map Prod.fst).indexOf .restore ∧
      (tr.map Prod.fst).indexOf .restore < (tr.map Prod.fst).indexOf .retire ∧
      yield .Block barParked = yieldAcquire .worker s₄ ∧
      s₂.fibers 5 = some { mkFiber .Blocked none with
        m_fiberStack := (2 ^ 64 - 40 + barParked.rsp) % 2 ^ 64,
        m_fiberBase := barParked.rbp } ∧
      s₂.syncs 0 = some (.barrier
        { m_lock := true, m_value := 1, m_head := some 3, m_tail := some 5 }) ∧
      s₃.syncs 0 = some (Sync.barrier
        { m_lock := true, m_value := 1, m_head := some 3, m_tail := some 5 }).unlock ∧
      (Sync.barrier
        { m_lock := true, m_value := 1, m_head := some 3, m_tail := some 5 }).unlock.locked
          = false ∧
      s₃.rsp = (2 ^ 64 - 40 + barParked.rsp) % 2 ^ 64 ∧ s₃.rbp = barParked.rbp ∧
      s₃.P_STACK = barParked.P_STACK ∧ s₃.P_BASE = barParked.P_BASE ∧
      s₃.HELD_LOCK = some 0 ∧
      (yieldRestore s₃).rsp = (barParked.P_STACK + 40) % 2 ^ 64 ∧
      (yieldRestore s₃).rbp = barParked.P_BASE ∧
      (yieldRestore s₃).syncs 0 = some (Sync.barrier
        { m_lock := true, m_value := 1, m_head := some 3, m_tail := some 5 }).unlock ∧
      (yieldRestore s₃).HELD_LOCK = some 0 ∧
      ((mkFiber .Blocked none).m_status = .Blocked → s₄.HELD_LOCK = none) :=
  yield_block_order barParked 5 0 (mkFiber .Blocked none)
    (.barrier { m_lock := true, m_value := 1, m_head := some 3, m_tail := some 5 })
    rfl rfl rfl rfl

/-! ## Dispatch by `yield` -/

/-- The Acquire part of `yield` on a ready queue whose first fiber `g` is `New`
or `Blocked`: `g` is removed, made `Active` and made the current fiber, and
control goes to it. -/
theorem yieldAcquire_dispatch (back : Control) (s : State) (g : Nat) (r : List Nat)
    (gf : Fiber) (hlock : s.QUEUE_LOCK = false)
    (hq : IsQueue s.fibers s.HEAD s.TAIL (g :: r)) (hgf : s.fibers g = some gf)
    (hst : gf.m_status = .New ∨ gf.m_status = .Blocked) :
    ∃ s', yieldAcquire back s =
        .ok (s', if gf.m_status = .New then .enter g else .resume g) ∧
      IsQueue s'.fibers s'.HEAD s'.TAIL r ∧ g ∉ r ∧
      s'.fibers g = some { gf with m_status := .Active } ∧ s'.EXEC_FIBER = some g ∧
      (∀ x, x ≠ g → s'.fibers x = s.fibers x) ∧
      s'.P_STACK = (2 ^ 64 - 40 + s.rsp) % 2 ^ 64 ∧ s'.P_BASE = s.rbp ∧
      s'.syncs = s.syncs ∧ s'.HELD_LOCK = s.HELD_LOCK := by
  obtain ⟨gf', hgf', s', hy, hq', hE', hg', hoth, hP, hB, hsy, _, hhl, _, _⟩ :=
    (yieldAcquire_ok back s (g :: r) hlock hq).2 g r rfl
  rw [hgf] at hgf'
  cases hgf'
  have hgr : g ∉ r := (List.nodup_cons.mp hq.2.2.1).1
  refine ⟨s', ?_, hq', hgr, ?_, hE', hoth, hP, hB, hsy, hhl⟩
  · rw [hy]
    rcases hst with h | h <;> simp [h, dispatchedControl]
  · rw [hg']
    rcases hst with h | h <;> simp [h, dispatchedStatus]

/-- C15: `yield` entered in any mode with a ready queue `g :: r` whose first
fiber is `New` or `Blocked` (free queue flag; in Block and Return mode the
yielding fiber `f` is the current fiber and not on the ready queue, in Return
mode it is `Done` as `execFiber` has left it, in Block mode it is `Blocked` and
holds the flag of a lock, as `wait` has left it).  The Acquire part runs in the
same invocation, from the state `s₄`: in Acquire mode this is the state at
entry; in Block and Return mode the yielding fiber has first been dropped as
current fiber (`EXEC_FIBER` is null in `s₄`) and, in Return mode, freed.  The
call completes: `g` is removed from the ready queue, its status is `Active`,
it is the current fiber, and control goes to it. -/
theorem yield_falls_through (ty : YieldType) (s : State) (g : Nat) (r : List Nat) (gf : Fiber)
    (hlock : s.QUEUE_LOCK = false) (hq : IsQueue s.fibers s.HEAD s.TAIL (g :: r))
    (hgf : s.fibers g = some gf) (hst : gf.m_status = .New ∨ gf.m_status = .Blocked)
    (hcur : ty ≠ .Acquire → ∃ f ff, s.EXEC_FIBER = some f ∧ s.fibers f = some ff ∧
      f ∉ g :: r ∧ (ty = .Return → ff.m_status = .Done) ∧
      (ty = .Block → ff.m_status = .Blocked ∧
        ∃ l o, s.HELD_LOCK = some l ∧ s.syncs l = some o)) :
    ∃ s₄ s', yield ty s = yieldAcquire (if ty = .Acquire then .returned else .worker) s₄ ∧
      (ty = .Acquire → s₄ = s) ∧
      (ty ≠ .Acquire → s₄.EXEC_FIBER = none ∧ IsQueue s₄.fibers s₄.HEAD s₄.TAIL (g :: r)) ∧
      (ty = .Return → ∀ f, s.EXEC_FIBER = some f → s₄.fibers f = none ∧ s'.fibers f = none) ∧
      yield ty s = .ok (s', if gf.m_status = .New then .enter g else .resume g) ∧
      IsQueue s'.fibers s'.HEAD s'.TAIL r ∧ g ∉ r ∧
      s'.fibers g = some { gf with m_status := .Active } ∧ s'.EXEC_FIBER = some g := by
  cases ty with
  | Acquire =>
    obtain ⟨s', hy, hq', hgr, hg', hE', _⟩ :=
      yieldAcquire_dispatch .returned s g r gf hlock hq hgf hst
    exact ⟨s, s', rfl, fun _ => rfl, fun h => absurd rfl h, (fun h => by cases h), hy, hq', hgr,
      hg', hE'⟩
  | Return =>
    obtain ⟨f, ff, hE, hf, hfq, hdone, _⟩ := hcur (by simp)
    have heq := yield_return_eq s f ff hE hf (hdone rfl)
    have hfib : ∀ x, x ≠ f →
        (((yieldRestore s).freeFiber f).setExec none).fibers x = s.fibers x := by
      intro x hx
      simp only [setExec_proj, freeFiber_other _ hx, yieldRestore_proj]
    have hq₄ : IsQueue (((yieldRestore s).freeFiber f).setExec none).fibers
        (((yieldRestore s).freeFiber f).setExec none).HEAD
        (((yieldRestore s).freeFiber f).setExec none).TAIL (g :: r) := by
      simp only [setExec_proj, freeFiber_proj, yieldRestore_proj]
      exact isQueue_congr (fun a ha => by
        have := hfib a (fun h => hfq (h ▸ ha))
        simpa only [setExec_proj] using this) hq
    have hgf' : g ≠ f := fun h => hfq (by simp only [h, List.mem_cons, true_or])
    obtain ⟨s', hy, hq', hgr, hg', hE', hoth, _⟩ :=
      yieldAcquire_dispatch .worker _ g r gf
        (by simp only [setExec_proj, freeFiber_proj, yieldRestore_proj, hlock]) hq₄
        (by rw [hfib g hgf', hgf]) hst
    refine ⟨_, s', heq, (fun h => by cases h), fun _ => ⟨by simp only [setExec_proj], hq₄⟩,
      ?_, by rw [heq, hy], hq', hgr, hg', hE'⟩
    intro _ f' hE'f
    rw [hE] at hE'f
    cases hE'f
    have h1 : (((yieldRestore s).freeFiber f).setExec none).fibers f = none := by
      simp only [setExec_proj, freeFiber_same]
    exact ⟨h1, by rw [hoth f hgf'.symm, h1]⟩
  | Block =>
    obtain ⟨f, ff, hE, hf, hfq, _, hblk⟩ := hcur (by simp)
    obtain ⟨hb, l, o, hH, hl⟩ := hblk rfl
    have heq := yield_block_eq s f l ff o hE hf hb hH hl
    have hfib : ∀ x, x ≠ f → ((((yieldRestore (((pusha s).setFiber f
        { ff with m_fiberStack := (2 ^ 64 - 40 + s.rsp) % 2 ^ 64,
                  m_fiberBase := s.rbp }).setSync l o.unlock)).setHeld none).setExec
          none)).fibers x = s.fibers x := by
      intro x hx
      simp only [setExec_proj, setHeld_proj, yieldRestore_proj, setSync_proj,
        setFiber_other _ _ hx, pusha_proj]
    have hq₄ : IsQueue ((((yieldRestore (((pusha s).setFiber f
        { ff with m_fiberStack := (2 ^ 64 - 40 + s.rsp) % 2 ^ 64,
                  m_fiberBase := s.rbp }).setSync l o.unlock)).setHeld none).setExec
          none)).fibers
        ((((yieldRestore (((pusha s).setFiber f
        { ff with m_fiberStack := (2 ^ 64 - 40 + s.rsp) % 2 ^ 64,
                  m_fiberBase := s.rbp }).setSync l o.unlock)).setHeld none).setExec
          none)).HEAD
        ((((yieldRestore (((pusha s).setFiber f
        { ff with m_fiberStack := (2 ^ 64 - 40 + s.rsp) % 2 ^ 64,
                  m_fiberBase := s.rbp }).setSync l o.unlock)).setHeld none).setExec
          none)).TAIL (g :: r) := by
      refine isQueue_congr (fun a ha => hfib a (fun h => hfq (h ▸ ha))) ?_
      simp only [setExec_proj, setHeld_proj, yieldRestore_proj, setSync_proj, setFiber_proj,
        pusha_proj]
      exact hq
    have hgf' : g ≠ f := fun h => hfq (by simp only [h, List.mem_cons, true_or])
    obtain ⟨s', hy, hq', hgr, hg', hE', _⟩ :=
      yieldAcquire_dispatch .worker _ g r gf
        (by simp only [setExec_proj, setHeld_proj, yieldRestore_proj, setSync_proj,
          setFiber_proj, pusha_proj, hlock]) hq₄ (by rw [hfib g hgf', hgf]) hst
    exact ⟨_, s', heq, (fun h => by cases h), fun _ => ⟨by simp only [setExec_proj], hq₄⟩,
      (fun h => by cases h), by rw [heq, hy], hq', hgr, hg', hE'⟩

/-- C15 for `yield(Return)` of the first submitted fiber `10`, marked `Done`,
with the second one, `11`, on the ready queue. -/
theorem yield_falls_through_witness :
    ∃ s₄ s', yield .Return firstMarked =
        yieldAcquire (if YieldType.Return = .Acquire then .returned else .worker) s₄ ∧
      (YieldType.Return = .Acquire → s₄ = firstMarked) ∧
      (YieldType.Return ≠ .Acquire → s₄.EXEC_FIBER = none ∧
        IsQueue s₄.fibers s₄.HEAD s₄.TAIL (11 :: [])) ∧
      (YieldType.Return = .Return → ∀ f, firstMarked.EXEC_FIBER = some f →
        s₄.fibers f = none ∧ s'.fibers f = none) ∧
      yield .Return firstMarked =
        .ok (s', if (taskFiber demoAlloc demoJunk (some 20) 1 ⟨8, 80⟩).m_status = .New
                 then .enter 11 else .resume 11) ∧
      IsQueue s'.fibers s'.HEAD s'.TAIL [] ∧ 11 ∉ ([] : List Nat) ∧
      s'.fibers 11 = some { taskFiber demoAlloc demoJunk (some 20) 1 ⟨8, 80⟩ with
        next := none, m_status := .Active } ∧
      s'.EXEC_FIBER = some 11 :=
  yield_falls_through .Return firstMarked 11 []
    { taskFiber demoAlloc demoJunk (some 20) 1 ⟨8, 80⟩ with next := none } rfl (by decide) rfl
    (Or.inl rfl)
    (fun _ => ⟨10, { taskFiber demoAlloc demoJunk (some 20) 0 ⟨7, 70⟩ with
        next := some 11, m_status := .Done }, rfl, rfl, by decide, fun _ => rfl,
      fun h => by cases h⟩)

/-- A queue is the same queue in a heap with the same live addresses and the
same `next` links. -/
theorem isQueue_of_links {h h' : Nat → Option Fiber} {hd tl : Option Nat} {l : List Nat}
    (hlive : ∀ a, (h' a).isSome = (h a).isSome) (hnext : ∀ a, nextOf h' a = nextOf h a)
    (hq : IsQueue h hd tl l) : IsQueue h' hd tl l := by
  obtain ⟨qh, qt, qnd, qlive, qlk⟩ := hq
  exact ⟨qh, qt, qnd, fun a ha => by rw [hlive a]; exact qlive a ha,
    linked_of_agree (fun a _ => hnext a) qlk⟩

/-- C18 (counterexample): in `demoState` the `Active` current fiber `5` calls
`yield()` at `rsp = 5000`, `rbp = 5040` with the ready queue `[1, 2]`.  After
the call the slot of fiber `5` still holds `m_fiberStack = 0` and
`m_fiberBase = 0`, the whole record of fiber `5` is as before, and the
yield-site stack and base pointer (`4960` after the five pushes, and `5040`)
are in the worker's `P_STACK` and `P_BASE`. -/
theorem yield_acquire_leaves_slot :
    ∃ s' ff, yield .Acquire demoState = .ok (s', .enter 1) ∧
      demoState.EXEC_FIBER = some 5 ∧ statusOf demoState 5 = some .Active ∧
      demoState.rsp = 5000 ∧ demoState.rbp = 5040 ∧
      s'.fibers 5 = some ff ∧ ff.m_fiberStack = 0 ∧ ff.m_fiberBase = 0 ∧
      s'.fibers 5 = demoState.fibers 5 ∧
      s'.P_STACK = 4960 ∧ s'.P_BASE = 5040 :=
  ⟨_, _, rfl, rfl, rfl, rfl, rfl, rfl, rfl, rfl, rfl, rfl, rfl⟩

/-- C18 (amended): the `Active` current fiber `f`, on no list, calls `yield()`
with a ready queue `g :: r` whose first fiber is `New` or `Blocked`.  The call
stores the yield-site stack pointer (after the five pushes) and base pointer in
the worker's `P_STACK` and `P_BASE`, leaves the record of `f` as it was (its
slot `m_fiberStack`, `m_fiberBase` and its status `Active`), makes `g` the
`Active` current fiber in the place of `f` and passes control to it, and does not enqueue `f`: the
ready queue is `r`, without `f`, and `f` is on no waiter list. -/
theorem yield_acquire_from_fiber (s : State) (f g : Nat) (r : List Nat) (ff gf : Fiber)
    (hlock : s.QUEUE_LOCK = false) (hq : IsQueue s.fibers s.HEAD s.TAIL (g :: r))
    (hE : s.EXEC_FIBER = some f) (hf : s.fibers f = some ff) (hact : ff.m_status = .Active)
    (hfq : f ∉ g :: r) (hfw : ¬ OnWaiterList s f)
    (hgf : s.fibers g = some gf) (hst : gf.m_status = .New ∨ gf.m_status = .Blocked) :
    ∃ s', yield .Acquire s = .ok (s', if gf.m_status = .New then .enter g else .resume g) ∧
      s'.P_STACK = (2 ^ 64 - 40 + s.rsp) % 2 ^ 64 ∧ s'.P_BASE = s.rbp ∧
      s'.fibers f = some ff ∧ statusOf s' f = some .Active ∧
      s'.EXEC_FIBER = some g ∧ s'.EXEC_FIBER ≠ s.EXEC_FIBER ∧
      s'.fibers g = some { gf with m_status := .Active } ∧
      IsQueue s'.fibers s'.HEAD s'.TAIL r ∧ f ∉ r ∧ ¬ OnWaiterList s' f := by
  obtain ⟨s', hy, hq', _, hg', hE', hoth, hP, hB, hsy, _⟩ :=
    yieldAcquire_dispatch .returned s g r gf hlock hq hgf hst
  have hfg : f ≠ g := fun h => hfq (by simp only [h, List.mem_cons, true_or])
  have hf' : s'.fibers f = some ff := by rw [hoth f hfg, hf]
  have hne : s'.EXEC_FIBER ≠ s.EXEC_FIBER := by
    rw [hE', hE]
    intro h
    cases h
    exact hfg rfl
  refine ⟨s', hy, hP, hB, hf', by simp only [statusOf, hf', Option.map_some', hact], hE', hne,
    hg', hq', fun h => hfq (List.mem_cons_of_mem g h), ?_⟩
  rintro ⟨o, obj, l, ho, hl, hfl⟩
  refine hfw ⟨o, obj, l, by rw [← hsy, ho], ?_, hfl⟩
  refine isQueue_of_links (fun a => ?_) (fun a => ?_) hl
  · by_cases hag : a = g
    · subst hag; simp only [hg', hgf, Option.isSome_some]
    · rw [hoth a hag]
  · by_cases hag : a = g
    · subst hag; simp only [nextOf, hg', hgf, Option.some_bind]
    · simp only [nextOf, hoth a hag]

/-- C18 (amended) for the current fiber `5` of `demoState` and the ready queue
`[1, 2]`; fiber `5` is on neither waiter list of `demoState`. -/
theorem yield_acquire_from_fiber_witness :
    ∃ s', yield .Acquire demoState =
        .ok (s', if (mkFiber .New (some 2)).m_status = .New then .enter 1 else .resume 1) ∧
      s'.P_STACK = (2 ^ 64 - 40 + demoState.rsp) % 2 ^ 64 ∧ s'.P_BASE = demoState.rbp ∧
      s'.fibers 5 = some (mkFiber .Active none) ∧ statusOf s' 5 = some .Active ∧
      s'.EXEC_FIBER = some 1 ∧ s'.EXEC_FIBER ≠ demoState.EXEC_FIBER ∧
      s'.fibers 1 = some { mkFiber .New (some 2) with m_status := .Active } ∧
      IsQueue s'.fibers s'.HEAD s'.TAIL [2] ∧ 5 ∉ [2] ∧ ¬ OnWaiterList s' 5 :=
  yield_acquire_from_fiber demoState 5 1 [2] (mkFiber .Active none) (mkFiber .New (some 2))
    rfl (by decide) rfl rfl rfl (by decide)
    (by
      rintro ⟨o, obj, l, ho, hl, hfl⟩
      have ho' : o = 0 ∨ o = 1 := by
        by_contra hne
        push_neg at hne
        simp [demoState, hne.1, hne.2] at ho
      rcases ho' with rfl | rfl
      · have hobj : obj = .barrier
            { m_lock := false, m_value := 1, m_head := some 3, m_tail := some 4 } := by
          simpa [demoState] using ho.symm
        subst hobj
        have h34 : IsQueue demoState.fibers (some 3) (some 4) [3, 4] := by decide
        have := isQueue_unique hl h34
        subst this
        simp at hfl
      · have hobj : obj = .semaphore
            { m_lock := false, m_value := 0, m_head := none, m_tail := none } := by
          simpa [demoState] using ho.symm
        subst hobj
        have h0 : IsQueue demoState.fibers none none [] := by decide
        have := isQueue_unique hl h0
        subst this
        simp at hfl)
    rfl (Or.inl rfl)

/-! ## Well-formed states -/

theorem waiters_shape (o : Sync) : o.shape.waiters = o.waiters := by
  cases o <;> rfl

theorem shape_unlock (o : Sync) : o.unlock.shape = o.shape := by
  cases o <;> rfl

theorem shape_semaphore {o : Sync} {m : Semaphore} (h : o.shape = (Sync.semaphore m).shape) :
    ∃ m', o = .semaphore m' ∧ m'.m_head = m.m_head ∧ m'.m_tail = m.m_tail := by
  cases o with
  | barrier b => simp [Sync.shape] at h
  | semaphore m' =>
    simp only [Sync.shape, Sync.semaphore.injEq, Semaphore.mk.injEq, true_and] at h
    exact ⟨m', rfl, h.1, h.2⟩

/-- A list stays the same list when its fibers stay live and all of them but
the last keep their `next` link. -/
theorem isQueue_keep {h h' : Nat → Option Fiber} {hd tl : Option Nat} {l : List Nat}
    (hlive : ∀ a ∈ l, (h' a).isSome = true)
    (hnext : ∀ a ∈ l.dropLast, nextOf h' a = nextOf h a)
    (hq : IsQueue h hd tl l) : IsQueue h' hd tl l := by
  obtain ⟨qh, qt, qnd, _, qlk⟩ := hq
  exact ⟨qh, qt, qnd, hlive, linked_of_agree hnext qlk⟩

theorem listPtrs_of_shape {s s' : State} (hH : s'.HEAD = s.HEAD) (hT : s'.TAIL = s.TAIL)
    (hsy : ∀ o, (s'.syncs o).map Sync.shape = (s.syncs o).map Sync.shape) (i : Option Nat) :
    listPtrs s' i = listPtrs s i := by
  cases i with
  | none => simp only [listPtrs, hH, hT]
  | some o =>
    have := congrArg (Option.map Sync.waiters) (hsy o)
    simp only [Option.map_map] at this
    have e : Sync.waiters ∘ Sync.shape = Sync.waiters := funext waiters_shape
    rw [e] at this
    exact this

/-- A state with the same lists: the list pointers are as in `s`, and the
fibers on the lists are live, have the status they had, and all but the last
of each list have the `next` link they had. -/
theorem wf_same_lists {s s' : State} {L : Option Nat → List Nat} (hwf : WellFormed s L)
    (hlock : s'.QUEUE_LOCK = false) (hH : s'.HEAD = s.HEAD) (hT : s'.TAIL = s.TAIL)
    (hsy : ∀ o, (s'.syncs o).map Sync.shape = (s.syncs o).map Sync.shape)
    (hfib : ∀ i a, a ∈ L i → (s'.fibers a).isSome = true ∧ statusOf s' a = statusOf s a ∧
      (a ∈ (L i).dropLast → nextOf s'.fibers a = nextOf s.fibers a)) :
    WellFormed s' L := by
  have hp := listPtrs_of_shape hH hT hsy
  refine ⟨?_, ?_, hwf.disjoint, ?_, ?_, ?_, hlock⟩
  · intro i p hi
    rw [hp i] at hi
    exact isQueue_keep (fun a ha => (hfib i a ha).1) (fun a ha =>
      (hfib i a (mem_of_mem_dropLast ha)).2.2 ha) (hwf.queue i p hi)
  · intro i hi
    rw [hp i] at hi
    exact hwf.empty i hi
  · intro a ha
    rw [(hfib none a ha).2.1]
    exact hwf.ready a ha
  · intro o a ha
    rw [(hfib (some o) a ha).2.1]
    exact hwf.waiting o a ha
  · intro o m hm
    have h1 := hsy o
    rw [hm] at h1
    cases hso : s.syncs o with
    | none => rw [hso] at h1; cases h1
    | some obj =>
      rw [hso] at h1
      simp only [Option.map_some', Option.some.injEq] at h1
      obtain ⟨m', e, h2, h3⟩ := shape_semaphore h1.symm
      subst e
      rw [← h2, ← h3]
      exact hwf.single o m' hso

/-- In a well-formed state a fiber on a list is `New` or `Blocked`. -/
theorem wf_status {s : State} {L : Option Nat → List Nat} (hwf : WellFormed s L)
    {i : Option Nat} {a : Nat} (ha : a ∈ L i) :
    statusOf s a = some .New ∨ statusOf s a = some .Blocked := by
  cases i with
  | none => exact hwf.ready a ha
  | some o => exact Or.inr (hwf.waiting o a ha)

/-- In a well-formed state an `Active` fiber, a `Done` fiber and a free address
are on no list. -/
theorem wf_not_listed {s : State} {L : Option Nat → List Nat} (hwf : WellFormed s L)
    {a : Nat} (ha : statusOf s a ≠ some .New ∧ statusOf s a ≠ some .Blocked)
    (i : Option Nat) : a ∉ L i := by
  intro h
  rcases wf_status hwf h with h' | h'
  · exact ha.1 h'
  · exact ha.2 h'

theorem wf_live {s : State} {L : Option Nat → List Nat} (hwf : WellFormed s L)
    {i : Option Nat} {a : Nat} (ha : a ∈ L i) : (s.fibers a).isSome = true := by
  rcases wf_status hwf ha with h | h <;>
    · cases hf : s.fibers a with
      | none => simp [statusOf, hf] at h
      | some _ => rfl

theorem update_none_some (L : Option Nat → List Nat) (l : List Nat) (o : Nat) :
    Function.update L none l (some o) = L (some o) := by
  simp [Function.update]

theorem update_none_none (L : Option Nat → List Nat) (l : List Nat) :
    Function.update L none l none = l := by
  simp [Function.update]

/-- The Acquire part of `yield` keeps a well-formed state well-formed: the ready
queue loses its first fiber, which becomes the `Active` current fiber, and no
other list changes. -/
theorem wf_yieldAcquire {back : Control} {s s' : State} {c : Control}
    {L : Option Nat → List Nat} (hwf : WellFormed s L)
    (h : yieldAcquire back s = .ok (s', c)) :
    WellFormed s' (Function.update L none (L none).tail) := by
  have hq := hwf.queue none (s.HEAD, s.TAIL) rfl
  have hok := yieldAcquire_ok back s (L none) hwf.lock hq
  cases hL : L none with
  | nil =>
    rw [hok.1 hL] at h
    cases h
    have : Function.update L none ([] : List Nat).tail = L := by
      rw [List.tail_nil, ← hL]
      exact Function.update_eq_self none L
    rw [this]
    exact hwf
  | cons g r =>
    obtain ⟨gf, hgf, s'', hy, hq', hE', hg', hoth, _, _, hsy, hql, _⟩ := hok.2 g r hL
    rw [hy] at h
    cases h
    rw [hL] at hq
    have hgr : g ∉ r := (List.nodup_cons.mp hq.2.2.1).1
    have hgL : g ∈ L none := by rw [hL]; simp
    have hst : ∀ a, a ≠ g → statusOf s' a = statusOf s a := by
      intro a ha
      simp only [statusOf, hoth a ha]
    refine ⟨?_, ?_, ?_, ?_, ?_, ?_, hql⟩
    · intro i p hi
      cases i with
      | none =>
        cases hi
        rw [update_none_none]
        exact hq'
      | some o =>
        rw [update_none_some]
        have hi' : listPtrs s (some o) = some p := by
          simpa only [listPtrs, hsy] using hi
        refine isQueue_congr (fun a ha => hoth a ?_) (hwf.queue (some o) p hi')
        rintro rfl
        exact hwf.disjoint (some o) none a (by simp) ha hgL
    · intro i hi
      cases i with
      | none => cases hi
      | some o =>
        rw [update_none_some]
        exact hwf.empty (some o) (by simpa only [listPtrs, hsy] using hi)
    · intro i j a hij hai haj
      have sub : ∀ k, a ∈ Function.update L none (g :: r).tail k → a ∈ L k := by
        intro k hk
        cases k with
        | none =>
          rw [update_none_none] at hk
          rw [hL]
          exact List.mem_cons_of_mem g hk
        | some o => rwa [update_none_some] at hk
      exact hwf.disjoint i j a hij (sub i hai) (sub j haj)
    · intro a ha
      rw [update_none_none] at ha
      have hag : a ≠ g := fun e => hgr (e ▸ ha)
      rw [hst a hag]
      exact hwf.ready a (by rw [hL]; exact List.mem_cons_of_mem g ha)
    · intro o a ha
      rw [update_none_some] at ha
      have hag : a ≠ g := by
        rintro rfl
        exact hwf.disjoint (some o) none a (by simp) ha hgL
      rw [hst a hag]
      exact hwf.waiting o a ha
    · intro o m hm
      rw [hsy] at hm
      exact hwf.single o m hm

/-- The steps of `yield` before the Acquire part keep a well-formed state
well-formed, with the same lists. -/
theorem wf_yieldRestore {s : State} {L : Option Nat → List Nat} (hwf : WellFormed s L) :
    WellFormed (yieldRestore s) L :=
  wf_same_lists hwf (by simp only [yieldRestore_proj, hwf.lock])
    (by simp only [yieldRestore_proj]) (by simp only [yieldRestore_proj])
    (fun o => by simp only [yieldRestore_proj])
    (fun i a ha => ⟨by simp only [yieldRestore_proj]; exact wf_live hwf ha,
      by simp only [statusOf, yieldRestore_proj],
      fun _ => by simp only [yieldRestore_proj]⟩)

theorem wf_yieldRetire {s s' : State} {L : Option Nat → List Nat} (hwf : WellFormed s L)
    (h : yieldRetire s = .ok s') : WellFormed s' L := by
  obtain ⟨f, ff, hE, hf, e⟩ := yieldRetire_inv h
  subst e
  cases hst : ff.m_status
  case Done =>
    have hfl : ∀ i, f ∉ L i := fun i =>
      wf_not_listed hwf (by simp [statusOf, hf, hst]) i
    refine wf_same_lists hwf (by simp only [setExec_proj, freeFiber_proj, hwf.lock])
      (by simp only [setExec_proj, freeFiber_proj]) (by simp only [setExec_proj, freeFiber_proj])
      (fun o => by simp only [setExec_proj, freeFiber_proj]) (fun i a ha => ?_)
    have haf : a ≠ f := fun e => hfl i (e ▸ ha)
    simp only [setExec_proj, statusOf, nextOf, freeFiber_other _ haf]
    exact ⟨wf_live hwf ha, trivial, fun _ => trivial⟩
  all_goals
    refine wf_same_lists hwf (by simp only [setExec_proj, setHeld_proj, hwf.lock])
      (by simp only [setExec_proj, setHeld_proj]) (by simp only [setExec_proj, setHeld_proj])
      (fun o => by simp only [setExec_proj, setHeld_proj]) (fun i a ha => ?_)
    simp only [setExec_proj, setHeld_proj, statusOf, nextOf]
    exact ⟨wf_live hwf ha, trivial, fun _ => trivial⟩

theorem wf_yieldSave {s s' : State} {L : Option Nat → List Nat} (hwf : WellFormed s L)
    (h : yieldSave s = .ok s') : WellFormed s' L := by
  obtain ⟨f, ff, hE, hf, e⟩ := yieldSave_inv h
  subst e
  refine wf_same_lists hwf (by simp only [setFiber_proj, pusha_proj, hwf.lock])
    (by simp only [setFiber_proj, pusha_proj]) (by simp only [setFiber_proj, pusha_proj])
    (fun o => by simp only [setFiber_proj, pusha_proj]) (fun i a ha => ?_)
  by_cases haf : a = f
  · subst haf
    simp only [statusOf, nextOf, setFiber_same, hf, Option.isSome_some, Option.map_some',
      Option.some_bind, implies_true, and_self]
  · simp only [statusOf, nextOf, setFiber_other _ _ haf, pusha_proj]
    exact ⟨wf_live hwf ha, trivial, fun _ => trivial⟩

theorem wf_yieldClearHeld {s s' : State} {L : Option Nat → List Nat} (hwf : WellFormed s L)
    (h : yieldClearHeld s = .ok s') : WellFormed s' L := by
  obtain ⟨l, o, hH, hl, e⟩ := yieldClearHeld_inv h
  subst e
  refine wf_same_lists hwf (by simp only [setSync_proj, hwf.lock])
    (by simp only [setSync_proj]) (by simp only [setSync_proj]) (fun x => ?_) (fun i a ha => ?_)
  · by_cases hx : x = l
    · subst hx
      simp only [setSync_same, hl, Option.map_some', shape_unlock]
    · simp only [setSync_other _ _ hx]
  · simp only [statusOf, nextOf, setSync_proj]
    exact ⟨wf_live hwf ha, trivial, fun _ => trivial⟩

/-- A completed `yield`, in any mode, keeps a well-formed state well-formed: the
ready queue loses its first fiber, if it has one, and no other list changes. -/
theorem wf_yield {ty : YieldType} {s s' : State} {c : Control}
    {L : Option Nat → List Nat} (hwf : WellFormed s L) (h : yield ty s = .ok (s', c)) :
    WellFormed s' (Function.update L none (L none).tail) := by
  cases ty with
  | Acquire => exact wf_yieldAcquire hwf h
  | Return =>
    rw [yield_return_def] at h
    obtain ⟨t, hR, hA⟩ := bind_ok h
    exact wf_yieldAcquire (wf_yieldRetire (wf_yieldRestore hwf) hR) hA
  | Block =>
    rw [yield_block_def] at h
    obtain ⟨s₁, h₁, h⟩ := bind_ok h
    obtain ⟨s₂, h₂, h⟩ := bind_ok h
    obtain ⟨t, hR, hA⟩ := bind_ok h
    exact wf_yieldAcquire
      (wf_yieldRetire (wf_yieldRestore (wf_yieldClearHeld (wf_yieldSave hwf h₁) h₂)) hR) hA

/-- A completed `append` writes to two fibers only: the one at `tail` and the
one at `TAIL`. -/
theorem append_other {head tail : Option Nat} {s s' : State}
    (h : append head tail s = .ok s') (x : Nat) (h₁ : some x ≠ tail) (h₂ : some x ≠ s.TAIL) :
    s'.fibers x = s.fibers x := by
  unfold append at h
  obtain ⟨⟨t, tf⟩, hd, h⟩ := bind_ok h
  obtain ⟨ht, htf⟩ := derefFiber_inv hd
  subst ht
  have hxt : x ≠ t := fun e => h₁ (by rw [e])
  obtain ⟨s₂, hl, h⟩ := bind_ok h
  obtain ⟨_, e₂⟩ := acquireLock_inv hl
  subst e₂
  dsimp only at h
  split at h
  · obtain ⟨s₃, h₃, h⟩ := bind_ok h
    cases h₃
    cases h
    exact setFiber_other _ _ hxt
  · rename_i T hT
    obtain ⟨⟨T', Tf⟩, h₄, h⟩ := bind_ok h
    obtain ⟨hT', _⟩ := derefFiber_inv h₄
    cases hT'
    obtain ⟨s₃, h₃, h⟩ := bind_ok h
    cases h₃
    cases h
    have hxT : x ≠ T := by
      rintro rfl
      exact h₂ hT.symm
    show ((_ : State).setFiber T _).fibers x = _
    rw [setFiber_other _ _ hxT]
    exact setFiber_other _ _ hxt

/-- Writing the record of a fiber that is on no list keeps a well-formed state
well-formed. -/
theorem wf_setFiber_unlisted {s : State} {L : Option Nat → List Nat} (hwf : WellFormed s L)
    (f : Nat) (r : Fiber) (hfl : ∀ i, f ∉ L i) : WellFormed (s.setFiber f r) L := by
  refine wf_same_lists hwf (by simp only [setFiber_proj, hwf.lock])
    (by simp only [setFiber_proj]) (by simp only [setFiber_proj])
    (fun o => by simp only [setFiber_proj]) (fun i a ha => ?_)
  have haf : a ≠ f := fun e => hfl i (e ▸ ha)
  simp only [statusOf, nextOf, setFiber_other _ _ haf]
  exact ⟨wf_live hwf ha, trivial, fun _ => trivial⟩

/-- Writing the `next` link of a fiber that is the last of its list, or on no
list, keeps a well-formed state well-formed. -/
theorem wf_setNext {s : State} {L : Option Nat → List Nat} (hwf : WellFormed s L)
    (t : Nat) (tf : Fiber) (n : Option Nat) (htf : s.fibers t = some tf)
    (hlast : ∀ i, t ∉ (L i).dropLast) : WellFormed (s.setFiber t { tf with next := n }) L := by
  refine wf_same_lists hwf (by simp only [setFiber_proj, hwf.lock])
    (by simp only [setFiber_proj]) (by simp only [setFiber_proj])
    (fun o => by simp only [setFiber_proj]) (fun i a ha => ?_)
  by_cases hat : a = t
  · subst hat
    refine ⟨by simp only [setFiber_same, Option.isSome_some],
      by simp only [statusOf, setFiber_same, htf, Option.map_some'], fun hd => ?_⟩
    exact absurd hd (hlast i)
  · simp only [statusOf, nextOf, setFiber_other _ _ hat]
    exact ⟨wf_live hwf ha, trivial, fun _ => trivial⟩

theorem update_some_same (L : Option Nat → List Nat) (b : Nat) (l : List Nat) :
    Function.update L (some b) l (some b) = l := by
  simp [Function.update]

theorem update_some_other (L : Option Nat → List Nat) (b : Nat) (l : List Nat)
    {i : Option Nat} (hi : i ≠ some b) : Function.update L (some b) l i = L i := by
  simp [Function.update, hi]

/-- Storing an object at address `b` whose waiter list is `l`, a list of
`Blocked` fibers that are on no other list, keeps a well-formed state
well-formed. -/
theorem wf_setSync {s : State} {L : Option Nat → List Nat} (hwf : WellFormed s L)
    (b : Nat) (obj : Sync) (l : List Nat)
    (hq : IsQueue s.fibers obj.waiters.1 obj.waiters.2 l)
    (hsub : ∀ a ∈ l, (∀ i, i ≠ some b → a ∉ L i) ∧ statusOf s a = some .Blocked)
    (hsingle : ∀ m, obj = .semaphore m → m.m_head = m.m_tail) :
    WellFormed (s.setSync b obj) (Function.update L (some b) l) := by
  refine ⟨?_, ?_, ?_, ?_, ?_, ?_, by simp only [setSync_proj, hwf.lock]⟩
  · intro i p hi
    by_cases hib : i = some b
    · subst hib
      rw [update_some_same]
      simp only [listPtrs, setSync_same, Option.map_some', Option.some.injEq] at hi
      subst hi
      exact hq
    · rw [update_some_other _ _ _ hib]
      refine hwf.queue i p ?_
      cases i with
      | none => exact hi
      | some o =>
        have hob : o ≠ b := fun e => hib (by rw [e])
        simpa only [listPtrs, setSync_other _ _ hob] using hi
  · intro i hi
    by_cases hib : i = some b
    · subst hib
      simp [listPtrs, setSync_same] at hi
    · rw [update_some_other _ _ _ hib]
      refine hwf.empty i ?_
      cases i with
      | none => exact hi
      | some o =>
        have hob : o ≠ b := fun e => hib (by rw [e])
        simpa only [listPtrs, setSync_other _ _ hob] using hi
  · intro i j a hij hai haj
    by_cases hib : i = some b
    · subst hib
      rw [update_some_same] at hai
      rw [update_some_other _ _ _ (Ne.symm hij)] at haj
      exact (hsub a hai).1 j (Ne.symm hij) haj
    · rw [update_some_other _ _ _ hib] at hai
      by_cases hjb : j = some b
      · subst hjb
        rw [update_some_same] at haj
        exact (hsub a haj).1 i hib hai
      · rw [update_some_other _ _ _ hjb] at haj
        exact hwf.disjoint i j a hij hai haj
  · intro a ha
    rw [update_some_other _ _ _ (by simp)] at ha
    simpa only [statusOf, setSync_proj] using hwf.ready a ha
  · intro o a ha
    by_cases hob : o = b
    · subst hob
      rw [update_some_same] at ha
      simpa only [statusOf, setSync_proj] using (hsub a ha).2
    · rw [update_some_other _ _ _ (by simpa using hob)] at ha
      simpa only [statusOf, setSync_proj] using hwf.waiting o a ha
  · intro o m hm
    by_cases hob : o = b
    · subst hob
      rw [setSync_same] at hm
      exact hsingle m (Option.some.inj hm)
    · rw [setSync_other _ _ hob] at hm
      exact hwf.single o m hm

/-- Storing an object with the same kind and waiter pointers keeps a
well-formed state well-formed, with the same lists. -/
theorem wf_setSync_same {s : State} {L : Option Nat → List Nat} (hwf : WellFormed s L)
    (b : Nat) (obj obj' : Sync) (hb : s.syncs b = some obj) (hsh : obj'.shape = obj.shape) :
    WellFormed (s.setSync b obj') L := by
  refine wf_same_lists hwf (by simp only [setSync_proj, hwf.lock])
    (by simp only [setSync_proj]) (by simp only [setSync_proj]) (fun x => ?_) (fun i a ha => ?_)
  · by_cases hx : x = b
    · subst hx
      simp only [setSync_same, hb, Option.map_some', hsh]
    · simp only [setSync_other _ _ hx]
  · simp only [statusOf, nextOf, setSync_proj]
    exact ⟨wf_live hwf ha, trivial, fun _ => trivial⟩

/-- A completed `append` of a segment of `New` or `Blocked` fibers that are on
no list keeps a well-formed state well-formed: the segment goes behind the
ready queue. -/
theorem wf_append {s s' : State} {L : Option Nat → List Nat} (hwf : WellFormed s L)
    {hd tl : Nat} {seg : List Nat} (hseg : IsQueue s.fibers (some hd) (some tl) seg)
    (hfree : ∀ a ∈ seg, ∀ i, a ∉ L i)
    (hst : ∀ a ∈ seg, statusOf s a = some .New ∨ statusOf s a = some .Blocked)
    (h : append (some hd) (some tl) s = .ok s') :
    WellFormed s' (Function.update L none (L none ++ seg)) ∧
    ∀ a, statusOf s' a = statusOf s a := by
  have hq := hwf.queue none (s.HEAD, s.TAIL) rfl
  obtain ⟨s'', happ, hq', _, _, _, hsame, hfr⟩ :=
    append_ok s (L none) seg hd tl hwf.lock hq hseg (fun a ha => hfree a ha none)
  have hoth := append_other h
  rw [happ] at h
  cases h
  have hstat : ∀ a, statusOf s' a = statusOf s a := fun a => statusOf_of_same hsame a
  have hsy : s'.syncs = s.syncs := by rw [hfr]
  have htl : tl ∈ seg := List.mem_of_getLast?_eq_some hseg.2.1.symm
  have hkeep : ∀ o a, a ∈ L (some o) → s'.fibers a = s.fibers a := by
    intro o a ha
    refine hoth a ?_ ?_
    · intro e
      have e' : a = tl := Option.some.inj e
      exact hfree tl htl (some o) (e' ▸ ha)
    · intro e
      have : a ∈ L none := List.mem_of_getLast?_eq_some (by rw [← hq.2.1, e])
      exact hwf.disjoint (some o) none a (by simp) ha this
  refine ⟨⟨?_, ?_, ?_, ?_, ?_, ?_, ?_⟩, hstat⟩
  · intro i p hi
    cases i with
    | none =>
      cases hi
      rw [update_none_none]
      exact hq'
    | some o =>
      rw [update_none_some]
      have hi' : listPtrs s (some o) = some p := by
        simpa only [listPtrs, hsy] using hi
      exact isQueue_congr (fun a ha => hkeep o a ha) (hwf.queue (some o) p hi')
  · intro i hi
    cases i with
    | none => cases hi
    | some o =>
      rw [update_none_some]
      exact hwf.empty (some o) (by simpa only [listPtrs, hsy] using hi)
  · intro i j a hij hai haj
    have key : ∀ k, a ∈ Function.update L none (L none ++ seg) k → a ∈ L k ∨ (k = none ∧ a ∈ seg) := by
      intro k hk
      cases k with
      | none =>
        rw [update_none_none] at hk
        rcases List.mem_append.mp hk with h1 | h1
        · exact Or.inl h1
        · exact Or.inr ⟨rfl, h1⟩
      | some o =>
        rw [update_none_some] at hk
        exact Or.inl hk
    rcases key i hai with h1 | ⟨rfl, h1⟩
    · rcases key j haj with h2 | ⟨rfl, h2⟩
      · exact hwf.disjoint i j a hij h1 h2
      · exact hfree a h2 i h1
    · rcases key j haj with h2 | ⟨rfl, h2⟩
      · exact hfree a h1 j h2
      · exact hij rfl
  · intro a ha
    rw [update_none_none] at ha
    rw [hstat a]
    rcases List.mem_append.mp ha with h1 | h1
    · exact hwf.ready a h1
    · exact hst a h1
  · intro o a ha
    rw [update_none_some] at ha
    rw [hstat a]
    exact hwf.waiting o a ha
  · intro o m hm
    rw [hsy] at hm
    exact hwf.single o m hm
  · rw [hfr]
    exact hwf.lock

theorem isQueue_nil (h : Nat → Option Fiber) : IsQueue h none none [] :=
  ⟨rfl, rfl, List.nodup_nil, fun _ ha => absurd ha (List.not_mem_nil _), trivial⟩

/-- Releasing the waiter list of the object at `b` to the ready queue: the
object is replaced by one without waiters and `append` is called on the old
head and tail. -/
theorem wf_release {s s' : State} {L : Option Nat → List Nat} (hwf : WellFormed s L)
    (b : Nat) (obj obj' : Sync) (hb : s.syncs b = some obj)
    (hw : obj'.waiters = (none, none)) (hne : obj.waiters.1 ≠ none)
    (h : append obj.waiters.1 obj.waiters.2 (s.setSync b obj') = .ok s') :
    (∃ L', WellFormed s' L') ∧ ∀ a, statusOf s' a = statusOf s a := by
  have hW := hwf.queue (some b) obj.waiters (by simp only [listPtrs, hb, Option.map_some'])
  obtain ⟨hd, hhd⟩ := Option.ne_none_iff_exists'.mp hne
  have hWne : L (some b) ≠ [] := by
    intro e
    rw [e] at hW
    have := hW.1
    rw [hhd] at this
    cases this
  obtain ⟨tl, htl⟩ : ∃ tl, obj.waiters.2 = some tl := by
    rw [hW.2.1]
    cases hl : (L (some b)).getLast? with
    | none => exact absurd (List.getLast?_eq_none_iff.mp hl) hWne
    | some t => exact ⟨t, rfl⟩
  rw [hhd, htl] at h hW
  have hwf₁ : WellFormed (s.setSync b obj') (Function.update L (some b) []) := by
    refine wf_setSync hwf b obj' [] ?_ (fun a ha => absurd ha (List.not_mem_nil _)) ?_
    · rw [hw]; exact isQueue_nil _
    · intro m hm
      subst hm
      have h1 := congrArg Prod.fst hw
      have h2 := congrArg Prod.snd hw
      simp only [Sync.waiters] at h1 h2
      rw [h1, h2]
  have hfree : ∀ a ∈ L (some b), ∀ i, a ∉ Function.update L (some b) [] i := by
    intro a ha i
    by_cases hib : i = some b
    · subst hib
      rw [update_some_same]
      exact List.not_mem_nil _
    · rw [update_some_other _ _ _ hib]
      exact hwf.disjoint (some b) i a (Ne.symm hib) ha
  obtain ⟨hwf', hst⟩ := wf_append hwf₁ (by simpa only [setSync_proj] using hW) hfree
    (fun a ha => Or.inr (by simpa only [statusOf, setSync_proj] using hwf.waiting b a ha)) h
  exact ⟨⟨_, hwf'⟩, fun a => by rw [hst a]; simp only [statusOf, setSync_proj]⟩

/-- A completed `Barrier::signal` keeps a well-formed state well-formed and
changes no status. -/
theorem wf_barrier_signal {s s' : State} {L : Option Nat → List Nat} (hwf : WellFormed s L)
    {b : Nat} (h : Barrier.signal b s = .ok s') :
    (∃ L', WellFormed s' L') ∧ ∀ a, statusOf s' a = statusOf s a := by
  obtain ⟨B, hB, _, hc | hc | hc | hc⟩ := barrier_signal_inv h
  · rw [hc.2]
    exact ⟨⟨L, hwf⟩, fun _ => rfl⟩
  · rw [hc.2]
    exact ⟨⟨L, wf_setSync_same hwf b _ _ hB rfl⟩, fun _ => rfl⟩
  · obtain ⟨_, hh, e⟩ := hc
    rw [e]
    have hW := hwf.queue (some b) (B.m_head, B.m_tail)
      (by simp only [listPtrs, hB, Option.map_some', Sync.waiters])
    have ht : B.m_tail = none := by
      have h1 : (L (some b)).head? = none := by rw [← hW.1]; exact hh
      have h2 : L (some b) = [] := List.head?_eq_none_iff.mp h1
      have := hW.2.1
      rw [h2] at this
      exact this
    refine ⟨⟨L, wf_setSync_same hwf b _ _ hB ?_⟩, fun _ => rfl⟩
    simp only [Sync.shape, hh, ht]
  · obtain ⟨_, hh, e⟩ := hc
    exact wf_release hwf b (.barrier B)
      (.barrier { m_lock := false, m_value := 0, m_head := none, m_tail := none }) hB rfl hh e

/-- A completed `Semaphore::signal` keeps a well-formed state well-formed and
changes no status. -/
theorem wf_semaphore_signal {s s' : State} {L : Option Nat → List Nat}
    (hwf : WellFormed s L) {m : Nat} (h : Semaphore.signal m s = .ok s') :
    (∃ L', WellFormed s' L') ∧ ∀ a, statusOf s' a = statusOf s a := by
  obtain ⟨M, hM, _, hc | hc | hc⟩ := semaphore_signal_inv h
  · rw [hc.2]
    exact ⟨⟨L, wf_setSync_same hwf m _ _ hM rfl⟩, fun _ => rfl⟩
  · obtain ⟨hh, _, e⟩ := hc
    exact wf_release hwf m (.semaphore M)
      (.semaphore { m_lock := false, m_value := M.m_value, m_head := none, m_tail := none })
      hM rfl hh e
  · obtain ⟨_, _, _, hne, _⟩ := hc
    exact absurd (hwf.single m M hM) hne

/-- Two states with the same fibers, list pointers and queue flag are
well-formed together. -/
theorem wf_transfer {u s : State} {L : Option Nat → List Nat} (hwf : WellFormed u L)
    (hl : s.QUEUE_LOCK = u.QUEUE_LOCK) (hH : s.HEAD = u.HEAD) (hT : s.TAIL = u.TAIL)
    (hsy : ∀ o, s.syncs o = u.syncs o) (hf : s.fibers = u.fibers) : WellFormed s L :=
  wf_same_lists hwf (by rw [hl, hwf.lock]) hH hT (fun o => by rw [hsy o])
    (fun i a ha => ⟨by rw [hf]; exact wf_live hwf ha, by simp only [statusOf, hf],
      fun _ => by rw [hf]⟩)

/-- The last fiber of a list of a well-formed state is on no list before its
last place. -/
theorem wf_last {s : State} {L : Option Nat → List Nat} (hwf : WellFormed s L)
    {b : Nat} {obj : Sync} {t : Nat} (hb : s.syncs b = some obj)
    (ht : obj.waiters.2 = some t) : t ∈ L (some b) ∧ ∀ i, t ∉ (L i).dropLast := by
  have hW := hwf.queue (some b) obj.waiters (by simp only [listPtrs, hb, Option.map_some'])
  have hlast : (L (some b)).getLast? = some t := by rw [← hW.2.1, ht]
  have hmem : t ∈ L (some b) := List.mem_of_getLast?_eq_some hlast
  refine ⟨hmem, fun i hd => ?_⟩
  by_cases hib : i = some b
  · subst hib
    exact not_mem_dropLast_of_getLast hW.2.2.1 hlast hd
  · exact hwf.disjoint (some b) i t (Ne.symm hib) hmem (mem_of_mem_dropLast hd)

/-- The park part of `Barrier::wait`, called by the `Active` current fiber,
keeps a well-formed state well-formed; the only status it changes is the one
of the caller, which becomes `Blocked` on the blocking path. -/
theorem wf_barrier_waitPark {s s₁ : State} {L : Option Nat → List Nat}
    (hwf : WellFormed s L) {b f : Nat} {r : Option YieldType}
    (hE : s.EXEC_FIBER = some f) (hact : statusOf s f = some .Active)
    (h : Barrier.waitPark b s = .ok (s₁, r)) :
    (∃ L₁, WellFormed s₁ L₁) ∧ (∀ a, a ≠ f → statusOf s₁ a = statusOf s a) ∧
    ((r = none ∧ s₁ = s) ∨ (r = some .Block ∧ statusOf s₁ f = some .Blocked)) := by
  have hfl : ∀ i, f ∉ L i := fun i => wf_not_listed hwf (by simp [hact]) i
  obtain ⟨B, hB, hlk, hc | hc⟩ := barrier_waitPark_inv h
  · obtain ⟨_, hr, e⟩ := hc
    subst e
    exact ⟨⟨L, hwf⟩, fun _ _ => rfl, Or.inl ⟨hr, rfl⟩⟩
  · obtain ⟨hv, hr, f', ff, hE', hf, _, _, hql, hH, hT, _, _, _, _, hoth, hsub⟩ := hc
    rw [hE] at hE'
    cases hE'
    have hW := hwf.queue (some b) (B.m_head, B.m_tail)
      (by simp only [listPtrs, hB, Option.map_some', Sync.waiters])
    obtain ⟨s₁', hp, _, hsy', hq', _, _⟩ :=
      (barrier_waitPark_ok b s B hB hlk).2 hv f ff (L (some b)) hE hf hW (hfl (some b))
    rw [hp] at h
    cases h
    have hwf₁ := wf_setFiber_unlisted hwf f { ff with m_status := .Blocked } hfl
    have hf₁ : statusOf (s.setFiber f { ff with m_status := .Blocked }) f = some .Blocked :=
      statusOf_setFiber_same _ _ _
    have hsubL : ∀ a ∈ L (some b) ++ [f], ∀ (u : State),
        (∀ x, statusOf u x = statusOf (s.setFiber f { ff with m_status := .Blocked }) x) →
        (∀ i, i ≠ some b → a ∉ L i) ∧ statusOf u a = some .Blocked := by
      intro a ha u hu
      rcases List.mem_append.mp ha with h1 | h1
      · refine ⟨fun i hi => hwf.disjoint (some b) i a (Ne.symm hi) h1, ?_⟩
        have haf : a ≠ f := fun e => hfl (some b) (e ▸ h1)
        rw [hu a, statusOf_setFiber_other _ _ haf]
        exact hwf.waiting b a h1
      · have : a = f := by simpa using h1
        subst this
        exact ⟨fun i _ => hfl i, by rw [hu a, hf₁]⟩
    rcases hsub with ⟨ht, hs, hfib⟩ | ⟨t, tf, ht, htf, hs, hfib⟩
    · have hsyb : s₁.syncs b = some (.barrier
          { m_lock := true, m_value := B.m_value, m_head := (L (some b) ++ [f]).head?,
            m_tail := some f }) := by rw [hsy', setSync_same]
      have hwf₃ := wf_setSync hwf₁ b (.barrier
          { m_lock := true, m_value := B.m_value, m_head := (L (some b) ++ [f]).head?,
            m_tail := some f }) (L (some b) ++ [f])
        (by simpa only [Sync.waiters, hfib] using hq')
        (fun a ha => hsubL a ha _ (fun _ => rfl)) (fun m hm => by cases hm)
      refine ⟨⟨_, wf_transfer hwf₃ hql hH hT (fun o => ?_) hfib⟩, ?_, Or.inr ⟨hr, ?_⟩⟩
      · by_cases hob : o = b
        · subst hob
          rw [hsyb, setSync_same]
        · rw [hoth o hob, setSync_other _ _ hob]
          simp only [setFiber_proj]
      · intro a ha
        simp only [statusOf, hfib, setFiber_other _ _ ha]
      · simp only [statusOf, hfib, setFiber_same, Option.map_some']
    · have htL := wf_last hwf hB (show (Sync.barrier B).waiters.2 = some t from ht)
      have htf' : t ≠ f := fun e => hfl (some b) (e ▸ htL.1)
      have hwf₂ := wf_setNext hwf₁ t tf (some f) htf htL.2
      have hsyb : s₁.syncs b = some (.barrier
          { m_lock := true, m_value := B.m_value, m_head := (L (some b) ++ [f]).head?,
            m_tail := some f }) := by rw [hsy', setSync_same]
      have hstat₂ : ∀ x, statusOf ((s.setFiber f { ff with m_status := .Blocked }).setFiber t
          { tf with next := some f }) x =
          statusOf (s.setFiber f { ff with m_status := .Blocked }) x := by
        intro x
        by_cases hxt : x = t
        · subst hxt
          simp only [statusOf, setFiber_same, htf, Option.map_some']
        · rw [statusOf_setFiber_other _ _ hxt]
      have hwf₃ := wf_setSync hwf₂ b (.barrier
          { m_lock := true, m_value := B.m_value, m_head := (L (some b) ++ [f]).head?,
            m_tail := some f }) (L (some b) ++ [f])
        (by simpa only [Sync.waiters, hfib] using hq')
        (fun a ha => hsubL a ha _ hstat₂) (fun m hm => by cases hm)
      refine ⟨⟨_, wf_transfer hwf₃ hql hH hT (fun o => ?_) hfib⟩, ?_, Or.inr ⟨hr, ?_⟩⟩
      · by_cases hob : o = b
        · subst hob
          rw [hsyb, setSync_same]
        · rw [hoth o hob, setSync_other _ _ hob]
          simp only [setFiber_proj]
      · intro a ha
        have := hstat₂ a
        simp only [statusOf, hfib] at this ⊢
        rw [this, setFiber_other _ _ ha]
      · have := hstat₂ f
        simp only [statusOf, hfib] at this ⊢
        rw [this, setFiber_same]
        rfl

/-- The park part of `Semaphore::wait`, called by the `Active` current fiber,
keeps a well-formed state well-formed; the only status it changes is the one
of the caller, which becomes `Blocked` on the blocking path. -/
theorem wf_semaphore_waitPark {s s₁ : State} {L : Option Nat → List Nat}
    (hwf : WellFormed s L) {m f : Nat} {r : Option YieldType}
    (hE : s.EXEC_FIBER = some f) (hact : statusOf s f = some .Active)
    (h : Semaphore.waitPark m s = .ok (s₁, r)) :
    (∃ L₁, WellFormed s₁ L₁) ∧ (∀ a, a ≠ f → statusOf s₁ a = statusOf s a) ∧
    ((r = none ∧ ∀ a, statusOf s₁ a = statusOf s a) ∨
      (r = some .Block ∧ statusOf s₁ f = some .Blocked)) := by
  have hfl : ∀ i, f ∉ L i := fun i => wf_not_listed hwf (by simp [hact]) i
  obtain ⟨M, hM, hlk, hc | hc⟩ := semaphore_waitPark_inv h
  · obtain ⟨_, hr, e⟩ := hc
    subst e
    exact ⟨⟨L, wf_setSync_same hwf m _ _ hM rfl⟩, fun _ _ => rfl, Or.inl ⟨hr, fun _ => rfl⟩⟩
  · obtain ⟨hv, hr, f', ff, hE', hf, _, _, hql, hH, hT, _, _, _, _, hoth, hsub⟩ := hc
    rw [hE] at hE'
    cases hE'
    have hwf₁ := wf_setFiber_unlisted hwf f { ff with m_status := .Blocked } hfl
    have hf₁ : statusOf (s.setFiber f { ff with m_status := .Blocked }) f = some .Blocked :=
      statusOf_setFiber_same _ _ _
    rcases hsub with ⟨ht, hs, hfib⟩ | ⟨t, tf, ht, htf, hs, hfib⟩
    · have hwf₃ := wf_setSync hwf₁ m (.semaphore
          { M with m_lock := true, m_head := some f, m_tail := some f }) [f]
        ⟨rfl, rfl, List.nodup_singleton f, fun a ha => by
          have : a = f := by simpa using ha
          subst this
          rw [setFiber_same]; rfl, trivial⟩
        (fun a ha => by
          have : a = f := by simpa using ha
          subst this
          exact ⟨fun i _ => hfl i, hf₁⟩)
        (fun m' hm' => by cases hm'; rfl)
      refine ⟨⟨_, wf_transfer hwf₃ hql hH hT (fun o => ?_) hfib⟩, ?_, Or.inr ⟨hr, ?_⟩⟩
      · by_cases hob : o = m
        · subst hob
          rw [hs, setSync_same]
        · rw [hoth o hob, setSync_other _ _ hob]
          simp only [setFiber_proj]
      · intro a ha
        simp only [statusOf, hfib, setFiber_other _ _ ha]
      · simp only [statusOf, hfib, setFiber_same, Option.map_some']
    · have htL := wf_last hwf hM (show (Sync.semaphore M).waiters.2 = some t from ht)
      have htf' : t ≠ f := fun e => hfl (some m) (e ▸ htL.1)
      have hwf₂ := wf_setNext hwf₁ t tf (some f) htf htL.2
      have hstat₂ : ∀ x, statusOf ((s.setFiber f { ff with m_status := .Blocked }).setFiber t
          { tf with next := some f }) x =
          statusOf (s.setFiber f { ff with m_status := .Blocked }) x := by
        intro x
        by_cases hxt : x = t
        · subst hxt
          simp only [statusOf, setFiber_same, htf, Option.map_some']
        · rw [statusOf_setFiber_other _ _ hxt]
      have hwf₃ := wf_setSync_same hwf₂ m (.semaphore M)
        (.semaphore { M with m_lock := true }) (by simpa only [setFiber_proj] using hM) rfl
      refine ⟨⟨_, wf_transfer hwf₃ hql hH hT (fun o => ?_) hfib⟩, ?_, Or.inr ⟨hr, ?_⟩⟩
      · by_cases hob : o = m
        · subst hob
          rw [hs, setSync_same]
        · rw [hoth o hob, setSync_other _ _ hob]
          simp only [setFiber_proj]
      · intro a ha
        have := hstat₂ a
        simp only [statusOf, hfib] at this ⊢
        rw [this, setFiber_other _ _ ha]
      · have := hstat₂ f
        simp only [statusOf, hfib] at this ⊢
        rw [this, setFiber_same]
        rfl

/-- A completed `signal` through a `Sync*` keeps a well-formed state
well-formed and changes no status. -/
theorem wf_sync_signal {s s' : State} {L : Option Nat → List Nat} (hwf : WellFormed s L)
    {sig : Nat} (h : Sync.signal sig s = .ok s') :
    (∃ L', WellFormed s' L') ∧ ∀ a, statusOf s' a = statusOf s a := by
  unfold Sync.signal at h
  split at h
  · exact wf_barrier_signal hwf h
  · exact wf_semaphore_signal hwf h
  · cases h

/-- The part of `execFiber` between the return of the task and the final
`yield`, for an `Active` fiber, keeps a well-formed state well-formed; the only
status it changes is the one of the fiber, which becomes `Done`. -/
theorem wf_execFiberDone {s s' : State} {L : Option Nat → List Nat} (hwf : WellFormed s L)
    {f : Nat} (hact : statusOf s f = some .Active)
    (h : execFiberDone (some f) s = .ok s') :
    (∃ L', WellFormed s' L') ∧ (∀ a, a ≠ f → statusOf s' a = statusOf s a) ∧
    statusOf s' f = some .Done := by
  obtain ⟨ff, s₁, ff₁, hf, hs, hf₁, e⟩ := execFiberDone_inv h
  subst e
  have key : (∃ L₁, WellFormed s₁ L₁) ∧ ∀ a, statusOf s₁ a = statusOf s a := by
    rcases hs with ⟨_, e⟩ | ⟨sig, _, hsg⟩
    · subst e
      exact ⟨⟨L, hwf⟩, fun _ => rfl⟩
    · exact wf_sync_signal hwf hsg
  obtain ⟨⟨L₁, hwf₁⟩, hst⟩ := key
  have hfl : ∀ i, f ∉ L₁ i := fun i =>
    wf_not_listed hwf₁ (by rw [hst f, hact]; simp) i
  refine ⟨⟨L₁, wf_setFiber_unlisted hwf₁ f _ hfl⟩, fun a ha => ?_, ?_⟩
  · rw [statusOf_setFiber_other _ _ ha, hst a]
  · exact statusOf_setFiber_same _ _ _

/-- A completed `runTasks` (fresh and distinct fiber addresses) keeps a
well-formed state well-formed: every fiber that existed keeps its status, and
the new fibers are `New`. -/
theorem wf_runTasks {s s' : State} {L : Option Nat → List Nat} (hwf : WellFormed s L)
    (alloc : Nat → Nat) (junk : Nat → Fiber) (balloc : Nat) (decl : List TaskDecl) (N : Nat)
    (p_barrier : Bool) (b : Option Nat) (hN64 : N < 2 ^ 64) (hdecl : decl.length = N)
    (hinj : ∀ i j, i < N → j < N → alloc i = alloc j → i = j)
    (hfresh : ∀ j, j < N → s.fibers (alloc j) = none)
    (h : runTasks alloc junk balloc decl N p_barrier s = .ok (s', b)) :
    (∃ L', WellFormed s' L') ∧
    ∀ a, statusOf s' a = statusOf s a ∨ (statusOf s a = none ∧ statusOf s' a = some .New) := by
  have hN : 1 ≤ N := by
    rcases Nat.eq_zero_or_pos N with h0 | hpos
    · subst h0
      have : runTasks alloc junk balloc decl 0 p_barrier s = .error .outOfBounds := by
        cases p_barrier <;> rfl
      rw [this] at h
      cases h
    · exact hpos
  set barrier : Option Nat := if p_barrier then some balloc else none with hbar
  set s₁ : State := if p_barrier then
      s.setSync balloc (.barrier { Barrier.new with m_value := N }) else s with hs₁
  have hs₁f : s₁.fibers = s.fibers := by
    rw [hs₁]; split <;> rfl
  obtain ⟨L₁, hwf₁, hL₁⟩ : ∃ L₁, WellFormed s₁ L₁ ∧ ∀ i a, a ∈ L₁ i → a ∈ L i := by
    rw [hs₁]
    split
    · refine ⟨_, wf_setSync hwf balloc (.barrier { Barrier.new with m_value := N }) []
        (isQueue_nil _) (fun a ha => absurd ha (List.not_mem_nil _)) (fun m hm => by cases hm),
        fun i a ha => ?_⟩
      by_cases hib : i = some balloc
      · subst hib
        rw [update_some_same] at ha
        exact absurd ha (List.not_mem_nil _)
      · rwa [update_some_other _ _ _ hib] at ha
    · exact ⟨L, hwf, fun _ _ ha => ha⟩
  have hinit : LoopInv alloc junk decl barrier N s₁ 0 (List.replicate N none) s₁ :=
    ⟨by simp, fun j hj => absurd hj (by omega), rfl, fun _ _ => rfl,
      fun j hj => absurd hj (by omega)⟩
  obtain ⟨fibers, sN, hloop, hlen, hslots, hframe, hold, hnew⟩ :=
    runTasksLoop_ok alloc junk decl barrier N s₁ hdecl hinj N 0 _ s₁ (by omega) hinit
  simp only [Nat.zero_add] at hslots hold hnew
  have hlisted : ∀ i a, a ∈ L₁ i → ∀ j, j < N → a ≠ alloc j := by
    intro i a ha j hj e
    have := wf_live hwf (hL₁ i a ha)
    rw [e, hfresh j hj] at this
    simp at this
  have hwfN : WellFormed sN L₁ := by
    refine wf_same_lists hwf₁ (by rw [hframe]; exact hwf₁.lock) (by rw [hframe])
      (by rw [hframe]) (fun o => by rw [hframe]) (fun i a ha => ?_)
    have e := hold a (hlisted i a ha)
    simp only [statusOf, nextOf, e]
    exact ⟨wf_live hwf₁ ha, trivial, fun _ => trivial⟩
  have hnext : ∀ j, j + 1 < N → nextOf sN.fibers (alloc j) = some (alloc (j + 1)) := by
    intro j hj
    obtain ⟨d, _, hf⟩ := hnew j (by omega)
    simp [nextOf, hf, hj]
  have hN0 : N ≠ 0 := by omega
  have hsegN : IsQueue sN.fibers (some (alloc 0)) (some (alloc (N - 1)))
      ((List.range N).map alloc) := by
    refine ⟨?_, ?_, ?_, ?_, linked_map_range alloc N hnext⟩
    · simp [List.head?_range, hN0]
    · simp [List.getLast?_range, hN0]
    · refine List.Nodup.map_on ?_ (List.nodup_range N)
      intro x hx y hy hxy
      exact hinj x y (List.mem_range.mp hx) (List.mem_range.mp hy) hxy
    · intro a ha
      obtain ⟨j, hj, rfl⟩ := List.mem_map.mp ha
      obtain ⟨d, _, hf⟩ := hnew j (List.mem_range.mp hj)
      simp [hf]
  have hstN : ∀ j, j < N → statusOf sN (alloc j) = some .New := by
    intro j hj
    obtain ⟨d, _, hf⟩ := hnew j hj
    simp [statusOf, hf, taskFiber]
  have hidx : (18446744073709551615 + N) % 18446744073709551616 = N - 1 := by omega
  have happ : append (some (alloc 0)) (some (alloc (N - 1))) sN = .ok s' := by
    have h0 : fibers[0]? = some (some (alloc 0)) := hslots 0 (by omega)
    have h1 : fibers[N - 1]? = some (some (alloc (N - 1))) := hslots (N - 1) (by omega)
    have e : (if p_barrier = true then
        (some balloc, s.setSync balloc (.barrier { Barrier.new with m_value := N }))
        else (none, s)) = (barrier, s₁) := by
      cases p_barrier <;> simp [hbar, hs₁]
    unfold runTasks at h
    rw [e] at h
    simp only [hloop, bind, Except.bind, pure, Except.pure, runTasksAppend, slot, h0, hidx, h1] at h
    norm_num at h
    simp only [hidx, h1] at h
    cases hap : append (some (alloc 0)) (some (alloc (N - 1))) sN with
    | error e => simp [hap] at h
    | ok s'' =>
      simp [hap] at h
      rw [h.1]
  obtain ⟨hwf', hst'⟩ := wf_append hwfN hsegN
    (fun a ha i hai => by
      obtain ⟨j, hj, rfl⟩ := List.mem_map.mp ha
      exact hlisted i _ hai j (List.mem_range.mp hj) rfl)
    (fun a ha => by
      obtain ⟨j, hj, rfl⟩ := List.mem_map.mp ha
      exact Or.inl (hstN j (List.mem_range.mp hj))) happ
  refine ⟨⟨_, hwf'⟩, fun a => ?_⟩
  rw [hst' a]
  by_cases hnew' : ∃ j, j < N ∧ a = alloc j
  · obtain ⟨j, hj, rfl⟩ := hnew'
    right
    exact ⟨by simp [statusOf, hfresh j hj], hstN j hj⟩
  · left
    push_neg at hnew'
    simp only [statusOf, hold a hnew', hs₁f]

/-! ## Status transitions -/

theorem allowed_refl (st : FiberStatus) : Allowed st st := Or.inl rfl

theorem allowed_done {st : FiberStatus} (h : Allowed .Done st) : st = .Done := by
  rcases h with h | ⟨h, _⟩ | ⟨h, _⟩ | ⟨h, _⟩ | ⟨h, _⟩
  · exact h.symm
  all_goals cases h

/-- In a well-formed state an `Active` fiber is on no list: not on the ready
queue and not on the waiter list of any object. -/
theorem wf_active_unlisted {s : State} {L : Option Nat → List Nat} (hwf : WellFormed s L)
    {a : Nat} (ha : statusOf s a = some .Active) :
    (∀ i, a ∉ L i) ∧ (∀ l, IsQueue s.fibers s.HEAD s.TAIL l → a ∉ l) ∧ ¬ OnWaiterList s a := by
  have hfl : ∀ i, a ∉ L i := fun i => wf_not_listed hwf (by simp [ha]) i
  refine ⟨hfl, fun l hl => ?_, ?_⟩
  · rw [isQueue_unique hl (hwf.queue none (s.HEAD, s.TAIL) rfl)]
    exact hfl none
  · rintro ⟨o, obj, l, ho, hl, hal⟩
    have := hwf.queue (some o) obj.waiters (by simp only [listPtrs, ho, Option.map_some'])
    rw [isQueue_unique hl this] at hal
    exact hfl (some o) hal

/-- The statuses across a completed `yield` that ends an operation: `t` is the
state in which `yield` is entered, and against the state `s` at the start of
the operation the only status that may differ in `t` is the one of an `Active`
fiber that the operation has marked `Blocked` or `Done`. -/
theorem status_after_yield {s t s' : State} {Lt : Option Nat → List Nat} {ty : YieldType}
    {c : Control} (hwf : WellFormed t Lt) (hy : yield ty t = .ok (s', c))
    (hrel : ∀ a, statusOf t a = statusOf s a ∨ (statusOf s a = some .Active ∧
      (statusOf t a = some .Blocked ∨ statusOf t a = some .Done))) :
    (∀ a st st', statusOf s a = some st → statusOf s' a = some st' → Allowed st st') ∧
    WellFormed s' (Function.update Lt none (Lt none).tail) ∧
    (∀ a, statusOf s a ≠ some .Active → statusOf s' a = some .Active →
      s'.EXEC_FIBER = some a ∧ t.HEAD = some a ∧
      Lt none = a :: Function.update Lt none (Lt none).tail none) := by
  refine ⟨fun a st st' hs hs' => ?_, wf_yield hwf hy, fun a hna ha' => ?_⟩
  · rcases yield_status hy a with h₁ | ⟨_, _, h₃, h₄⟩ | ⟨_, _, _, h₄⟩
    · rcases hrel a with h₂ | ⟨h₂, h₅ | h₅⟩
      · rw [h₁, h₂, hs] at hs'
        cases hs'
        exact allowed_refl _
      · rw [hs] at h₂
        cases h₂
        rw [h₁, h₅] at hs'
        cases hs'
        exact Or.inr (Or.inr (Or.inl ⟨rfl, rfl⟩))
      · rw [hs] at h₂
        cases h₂
        rw [h₁, h₅] at hs'
        cases hs'
        exact Or.inr (Or.inr (Or.inr (Or.inl ⟨rfl, rfl⟩)))
    · rw [h₃] at hs'
      cases hs'
      rcases hrel a with h₂ | ⟨h₂, _⟩
      · rw [h₂, hs] at h₄
        rcases h₄ with h₄ | h₄
        · cases h₄
          exact Or.inr (Or.inl ⟨rfl, rfl⟩)
        · cases h₄
          exact Or.inr (Or.inr (Or.inr (Or.inr ⟨rfl, rfl⟩)))
      · rw [hs] at h₂
        cases h₂
        exact allowed_refl _
    · rw [h₄] at hs'
      cases hs'
  · have hta : statusOf t a ≠ some .Active := by
      rcases hrel a with h₂ | ⟨h₂, _⟩
      · rw [h₂]; exact hna
      · exact absurd h₂ hna
    rcases yield_status hy a with h₁ | ⟨h₂, h₃, _, _⟩ | ⟨_, _, _, h₄⟩
    · rw [h₁] at ha'
      exact absurd ha' hta
    · refine ⟨h₃, h₂, ?_⟩
      have hq := hwf.queue none (t.HEAD, t.TAIL) rfl
      have hh : (Lt none).head? = some a := by rw [← hq.1, h₂]
      rw [update_none_none]
      cases hL : Lt none with
      | nil => rw [hL] at hh; cases hh
      | cons g r =>
        rw [hL] at hh
        simp only [List.head?_cons, Option.some.injEq] at hh
        rw [hh, List.tail_cons]
    · rw [h₄] at ha'
      cases ha'

/-- One completed operation on a well-formed state: the statuses move along the
allowed transitions, the state stays well-formed, and a fiber that became
`Active` is the new current fiber, popped from the head of the ready queue by
the `yield` that ends the operation. -/
theorem operation_step {s s' : State} {L : Option Nat → List Nat}
    (hwf : WellFormed s L) (hop : Operation s s') :
    (∀ a st st', statusOf s a = some st → statusOf s' a = some st' →
        Allowed st st') ∧
      (∃ L', WellFormed s' L' ∧
        (∀ a, statusOf s a ≠ some .Active → statusOf s' a = some .Active →
          s'.EXEC_FIBER = some a ∧ ∃ ty t Lt c, WellFormed t Lt ∧
            yield ty t = .ok (s', c) ∧ t.HEAD = some a ∧ Lt none = a :: L' none)) := by
  have quiet : ∀ {L' : Option Nat → List Nat}, WellFormed s' L' →
      (∀ a, statusOf s' a = statusOf s a ∨
        (statusOf s a = none ∧ statusOf s' a = some .New)) →
      (∀ a st st', statusOf s a = some st → statusOf s' a = some st' →
        Allowed st st') ∧
      (∃ L', WellFormed s' L' ∧
        (∀ a, statusOf s a ≠ some .Active → statusOf s' a = some .Active →
          s'.EXEC_FIBER = some a ∧ ∃ ty t Lt c, WellFormed t Lt ∧
            yield ty t = .ok (s', c) ∧ t.HEAD = some a ∧ Lt none = a :: L' none)) := by
    intro L' hwf' hst
    refine ⟨fun a st st' hs hs' => ?_, L', hwf', fun a hna ha' => ?_⟩
    · rcases hst a with h | ⟨h, _⟩
      · rw [h, hs] at hs'
        cases hs'
        exact allowed_refl _
      · rw [hs] at h
        cases h
    · rcases hst a with h | ⟨_, h⟩
      · rw [h] at ha'
        exact absurd ha' hna
      · rw [h] at ha'
        cases ha'
  have ended : ∀ {t : State} {Lt : Option Nat → List Nat} {ty : YieldType} {c : Control},
      WellFormed t Lt → yield ty t = .ok (s', c) →
      (∀ a, statusOf t a = statusOf s a ∨ (statusOf s a = some .Active ∧
        (statusOf t a = some .Blocked ∨ statusOf t a = some .Done))) →
      (∀ a st st', statusOf s a = some st → statusOf s' a = some st' →
        Allowed st st') ∧
      (∃ L', WellFormed s' L' ∧
        (∀ a, statusOf s a ≠ some .Active → statusOf s' a = some .Active →
          s'.EXEC_FIBER = some a ∧ ∃ ty t Lt c, WellFormed t Lt ∧
            yield ty t = .ok (s', c) ∧ t.HEAD = some a ∧ Lt none = a :: L' none)) := by
    intro t Lt ty c hwft hy hrel
    obtain ⟨h1, h2, h3⟩ := status_after_yield hwft hy hrel
    refine ⟨h1, _, h2, fun a hna ha' => ?_⟩
    obtain ⟨h4, h5, h6⟩ := h3 a hna ha'
    exact ⟨h4, ty, t, Lt, c, hwft, hy, h5, h6⟩
  cases hop with
  | runTasks alloc junk balloc decl N p_barrier b hN64 hdecl hinj hfresh h =>
    obtain ⟨⟨L', hwf'⟩, hst⟩ :=
      wf_runTasks hwf alloc junk balloc decl N p_barrier b hN64 hdecl hinj hfresh h
    exact quiet hwf' hst
  | yield ty c h => exact ended hwf h (fun _ => Or.inl rfl)
  | semaphoreWait m f c hE hact h =>
    unfold Semaphore.wait at h
    obtain ⟨⟨s₁, r⟩, hp, hy⟩ := bind_ok h
    obtain ⟨⟨L₁, hwf₁⟩, hoth, hc | hc⟩ := wf_semaphore_waitPark hwf hE hact hp
    · obtain ⟨hr, hst⟩ := hc
      subst hr
      obtain ⟨e, _⟩ := tailYield_none hy
      subst e
      exact quiet hwf₁ (fun a => Or.inl (hst a))
    · obtain ⟨hr, hfb⟩ := hc
      subst hr
      refine ended hwf₁ (show yield .Block s₁ = .ok (s', c) from hy) (fun a => ?_)
      by_cases haf : a = f
      · subst haf
        exact Or.inr ⟨hact, Or.inl hfb⟩
      · exact Or.inl (hoth a haf)
  | barrierWait b f c hE hact h =>
    unfold Barrier.wait at h
    obtain ⟨⟨s₁, r⟩, hp, hy⟩ := bind_ok h
    obtain ⟨⟨L₁, hwf₁⟩, hoth, hc | hc⟩ := wf_barrier_waitPark hwf hE hact hp
    · obtain ⟨hr, e⟩ := hc
      subst hr
      subst e
      obtain ⟨e, _⟩ := tailYield_none hy
      subst e
      exact quiet hwf (fun a => Or.inl rfl)
    · obtain ⟨hr, hfb⟩ := hc
      subst hr
      refine ended hwf₁ (show yield .Block s₁ = .ok (s', c) from hy) (fun a => ?_)
      by_cases haf : a = f
      · subst haf
        exact Or.inr ⟨hact, Or.inl hfb⟩
      · exact Or.inl (hoth a haf)
  | semaphoreSignal m h =>
    obtain ⟨⟨L', hwf'⟩, hst⟩ := wf_semaphore_signal hwf h
    exact quiet hwf' (fun a => Or.inl (hst a))
  | barrierSignal b h =>
    obtain ⟨⟨L', hwf'⟩, hst⟩ := wf_barrier_signal hwf h
    exact quiet hwf' (fun a => Or.inl (hst a))
  | execFiber f c hact h =>
    unfold execFiberEnd at h
    obtain ⟨t, hd, hy⟩ := bind_ok h
    obtain ⟨⟨Lt, hwft⟩, hoth, hfd⟩ := wf_execFiberDone hwf hact hd
    refine ended hwft hy (fun a => ?_)
    by_cases haf : a = f
    · subst haf
      exact Or.inr ⟨hact, Or.inr hfd⟩
    · exact Or.inl (hoth a haf)

/-- Every state reached from a well-formed state by completed operations is
well-formed. -/
theorem wellFormed_reachable {s₀ s : State} {L₀ : Option Nat → List Nat}
    (hwf : WellFormed s₀ L₀) (hreach : Relation.ReflTransGen Operation s₀ s) :
    ∃ L, WellFormed s L := by
  induction hreach with
  | refl => exact ⟨L₀, hwf⟩
  | tail _ hop ih =>
    obtain ⟨L, hL⟩ := ih
    obtain ⟨_, L', hL', _⟩ := operation_step hL hop
    exact ⟨L', hL'⟩

theorem demoLists_other {o : Nat} (h0 : o ≠ 0) : demoLists (some o) = [] := by
  cases o with
  | zero => exact absurd rfl h0
  | succ n => rfl

theorem demoState_syncs_other {o : Nat} (h0 : o ≠ 0) (h1 : o ≠ 1) : demoState.syncs o = none := by
  simp [demoState, h0, h1]

/-- The lists of `demoState` are intact. -/
theorem demo_wellFormed : WellFormed demoState demoLists := by
  refine ⟨?_, ?_, ?_, ?_, ?_, ?_, rfl⟩
  · intro i p hi
    cases i with
    | none =>
      cases hi
      decide
    | some o =>
      by_cases h0 : o = 0
      · subst h0
        cases hi
        decide
      · by_cases h1 : o = 1
        · subst h1
          cases hi
          decide
        · simp [listPtrs, demoState_syncs_other h0 h1] at hi
  · intro i hi
    cases i with
    | none => cases hi
    | some o =>
      by_cases h0 : o = 0
      · subst h0
        cases hi
      · exact demoLists_other h0
  · intro i j a hij hai haj
    have key : ∀ k, a ∈ demoLists k → (k = none ∧ (a = 1 ∨ a = 2)) ∨
        (k = some 0 ∧ (a = 3 ∨ a = 4)) := by
      intro k hk
      cases k with
      | none =>
        left
        simpa [demoLists] using hk
      | some o =>
        by_cases h0 : o = 0
        · subst h0
          right
          simpa [demoLists] using hk
        · rw [demoLists_other h0] at hk
          cases hk
    rcases key i hai with ⟨rfl, h1⟩ | ⟨rfl, h1⟩ <;> rcases key j haj with ⟨rfl, h2⟩ | ⟨rfl, h2⟩
    · exact hij rfl
    · omega
    · omega
    · exact hij rfl
  · intro a ha
    have : a = 1 ∨ a = 2 := by simpa [demoLists] using ha
    rcases this with rfl | rfl
    · exact Or.inl rfl
    · exact Or.inl rfl
  · intro o a ha
    by_cases h0 : o = 0
    · subst h0
      have : a = 3 ∨ a = 4 := by simpa [demoLists] using ha
      rcases this with rfl | rfl <;> rfl
    · rw [demoLists_other h0] at ha
      cases ha
  · intro o m hm
    by_cases h0 : o = 0
    · subst h0
      cases hm
    · by_cases h1 : o = 1
      · subst h1
        cases hm
        rfl
      · rw [demoState_syncs_other h0 h1] at hm
        cases hm

/-! ## Status changes of the operations, on any state -/

/-- The statuses after the park part of `Barrier::wait` called by the current
fiber `f`: only `f` changes, to `Blocked`, on the blocking path. -/
theorem barrier_waitPark_status {s s₁ : State} {b f : Nat} {r : Option YieldType}
    (hE : s.EXEC_FIBER = some f) (h : Barrier.waitPark b s = .ok (s₁, r)) :
    (∀ a, a ≠ f → statusOf s₁ a = statusOf s a) ∧
    ((r = none ∧ s₁ = s) ∨ (r = some .Block ∧ statusOf s₁ f = some .Blocked)) := by
  obtain ⟨B, _, _, hc | hc⟩ := barrier_waitPark_inv h
  · obtain ⟨_, hr, e⟩ := hc
    subst e
    exact ⟨fun _ _ => rfl, Or.inl ⟨hr, rfl⟩⟩
  · obtain ⟨_, hr, f', ff, hE', hf, _, _, _, _, _, _, _, _, _, _, hsub⟩ := hc
    rw [hE] at hE'
    cases hE'
    rcases hsub with ⟨_, _, hfib⟩ | ⟨t, tf, _, htf, _, hfib⟩
    · refine ⟨fun a ha => ?_, Or.inr ⟨hr, ?_⟩⟩
      · simp only [statusOf, hfib, setFiber_other _ _ ha]
      · simp only [statusOf, hfib, setFiber_same, Option.map_some']
    · have hstat₂ : ∀ x, statusOf s₁ x =
          statusOf (s.setFiber f { ff with m_status := .Blocked }) x := by
        intro x
        by_cases hxt : x = t
        · subst hxt
          simp only [statusOf, hfib, setFiber_same, htf, Option.map_some']
        · simp only [statusOf, hfib, setFiber_other _ _ hxt]
      refine ⟨fun a ha => ?_, Or.inr ⟨hr, ?_⟩⟩
      · rw [hstat₂ a, statusOf_setFiber_other _ _ ha]
      · rw [hstat₂ f, statusOf_setFiber_same]

/-- The statuses after the park part of `Semaphore::wait` called by the current
fiber `f`: only `f` changes, to `Blocked`, on the blocking path. -/
theorem semaphore_waitPark_status {s s₁ : State} {m f : Nat} {r : Option YieldType}
    (hE : s.EXEC_FIBER = some f) (h : Semaphore.waitPark m s = .ok (s₁, r)) :
    (∀ a, a ≠ f → statusOf s₁ a = statusOf s a) ∧
    ((r = none ∧ ∀ a, statusOf s₁ a = statusOf s a) ∨
      (r = some .Block ∧ statusOf s₁ f = some .Blocked)) := by
  obtain ⟨M, _, _, hc | hc⟩ := semaphore_waitPark_inv h
  · obtain ⟨_, hr, e⟩ := hc
    subst e
    exact ⟨fun _ _ => rfl, Or.inl ⟨hr, fun _ => rfl⟩⟩
  · obtain ⟨_, hr, f', ff, hE', hf, _, _, _, _, _, _, _, _, _, _, hsub⟩ := hc
    rw [hE] at hE'
    cases hE'
    rcases hsub with ⟨_, _, hfib⟩ | ⟨t, tf, _, htf, _, hfib⟩
    · refine ⟨fun a ha => ?_, Or.inr ⟨hr, ?_⟩⟩
      · simp only [statusOf, hfib, setFiber_other _ _ ha]
      · simp only [statusOf, hfib, setFiber_same, Option.map_some']
    · have hstat₂ : ∀ x, statusOf s₁ x =
          statusOf (s.setFiber f { ff with m_status := .Blocked }) x := by
        intro x
        by_cases hxt : x = t
        · subst hxt
          simp only [statusOf, hfib, setFiber_same, htf, Option.map_some']
        · simp only [statusOf, hfib, setFiber_other _ _ hxt]
      refine ⟨fun a ha => ?_, Or.inr ⟨hr, ?_⟩⟩
      · rw [hstat₂ a, statusOf_setFiber_other _ _ ha]
      · rw [hstat₂ f, statusOf_setFiber_same]

/-- A completed `signal` through a `Sync*` changes no status. -/
theorem sync_signal_status {s s' : State} {sig : Nat} (h : Sync.signal sig s = .ok s')
    (a : Nat) : statusOf s' a = statusOf s a := by
  unfold Sync.signal at h
  split at h
  · exact statusOf_of_same (barrier_signal_frame h).2.1 a
  · exact statusOf_of_same (semaphore_signal_frame h).2.1 a
  · cases h

/-- The statuses after the part of `execFiber` between the return of the task
and the final `yield`: only the fiber changes, to `Done`. -/
theorem execFiberDone_status {s s' : State} {f : Nat}
    (h : execFiberDone (some f) s = .ok s') :
    (∀ a, a ≠ f → statusOf s' a = statusOf s a) ∧ statusOf s' f = some .Done := by
  obtain ⟨ff, s₁, ff₁, _, hs, _, e⟩ := execFiberDone_inv h
  subst e
  have hst : ∀ a, statusOf s₁ a = statusOf s a := by
    rcases hs with ⟨_, e⟩ | ⟨sig, _, hsg⟩
    · subst e
      exact fun _ => rfl
    · exact sync_signal_status hsg
  exact ⟨fun a ha => by rw [statusOf_setFiber_other _ _ ha, hst a],
    statusOf_setFiber_same _ _ _⟩

/-- The statuses after a completed `runTasks` (fresh and distinct fiber
addresses): every fiber that existed keeps its status, and the new fibers are
`New`. -/
theorem runTasks_status {s s' : State} (alloc : Nat → Nat) (junk : Nat → Fiber)
    (balloc : Nat) (decl : List TaskDecl) (N : Nat) (p_barrier : Bool) (b : Option Nat)
    (hN64 : N < 2 ^ 64) (hdecl : decl.length = N)
    (hinj : ∀ i j, i < N → j < N → alloc i = alloc j → i = j)
    (hfresh : ∀ j, j < N → s.fibers (alloc j) = none)
    (h : runTasks alloc junk balloc decl N p_barrier s = .ok (s', b)) (a : Nat) :
    statusOf s' a = statusOf s a ∨ (statusOf s a = none ∧ statusOf s' a = some .New) := by
  have hN : 1 ≤ N := by
    rcases Nat.eq_zero_or_pos N with h0 | hpos
    · subst h0
      have : runTasks alloc junk balloc decl 0 p_barrier s = .error .outOfBounds := by
        cases p_barrier <;> rfl
      rw [this] at h
      cases h
    · exact hpos
  set barrier : Option Nat := if p_barrier then some balloc else none with hbar
  set s₁ : State := if p_barrier then
      s.setSync balloc (.barrier { Barrier.new with m_value := N }) else s with hs₁
  have hs₁f : s₁.fibers = s.fibers := by
    rw [hs₁]; split <;> rfl
  have hinit : LoopInv alloc junk decl barrier N s₁ 0 (List.replicate N none) s₁ :=
    ⟨by simp, fun j hj => absurd hj (by omega), rfl, fun _ _ => rfl,
      fun j hj => absurd hj (by omega)⟩
  obtain ⟨fibers, sN, hloop, hlen, hslots, hframe, hold, hnew⟩ :=
    runTasksLoop_ok alloc junk decl barrier N s₁ hdecl hinj N 0 _ s₁ (by omega) hinit
  simp only [Nat.zero_add] at hslots hold hnew
  have hstN : ∀ j, j < N → statusOf sN (alloc j) = some .New := by
    intro j hj
    obtain ⟨d, _, hf⟩ := hnew j hj
    simp [statusOf, hf, taskFiber]
  have hidx : (18446744073709551615 + N) % 18446744073709551616 = N - 1 := by omega
  have happ : append (some (alloc 0)) (some (alloc (N - 1))) sN = .ok s' := by
    have h0 : fibers[0]? = some (some (alloc 0)) := hslots 0 (by omega)
    have h1 : fibers[N - 1]? = some (some (alloc (N - 1))) := hslots (N - 1) (by omega)
    have e : (if p_barrier = true then
        (some balloc, s.setSync balloc (.barrier { Barrier.new with m_value := N }))
        else (none, s)) = (barrier, s₁) := by
      cases p_barrier <;> simp [hbar, hs₁]
    unfold runTasks at h
    rw [e] at h
    simp only [hloop, bind, Except.bind, pure, Except.pure, runTasksAppend, slot, h0, hidx, h1] at h
    norm_num at h
    simp only [hidx, h1] at h
    cases hap : append (some (alloc 0)) (some (alloc (N - 1))) sN with
    | error e => simp [hap] at h
    | ok s'' =>
      simp [hap] at h
      rw [h.1]
  have hst' : statusOf s' a = statusOf sN a :=
    statusOf_of_same (append_inv happ).2.2.2.2.2.2.2.2 a
  rw [hst']
  by_cases hnew' : ∃ j, j < N ∧ a = alloc j
  · obtain ⟨j, hj, rfl⟩ := hnew'
    right
    exact ⟨by simp [statusOf, hfresh j hj], hstN j hj⟩
  · left
    push_neg at hnew'
    simp only [statusOf, hold a hnew', hs₁f]

/-- The statuses across a completed `yield` that ends an operation, on any
state: `t` is the state in which `yield` is entered, and against the state `s`
at the start of the operation the only status that may differ in `t` is the
one of an `Active` fiber that the operation has marked `Blocked` or `Done`. -/
theorem status_across_yield {s t s' : State} {ty : YieldType} {c : Control}
    (hy : yield ty t = .ok (s', c))
    (hrel : ∀ a, statusOf t a = statusOf s a ∨ (statusOf s a = some .Active ∧
      (statusOf t a = some .Blocked ∨ statusOf t a = some .Done))) :
    (∀ a st st', statusOf s a = some st → statusOf s' a = some st' → Allowed st st') ∧
    (∀ a, statusOf s a ≠ some .Active → statusOf s' a = some .Active →
      s'.EXEC_FIBER = some a ∧ t.HEAD = some a) := by
  refine ⟨fun a st st' hs hs' => ?_, fun a hna ha' => ?_⟩
  · rcases yield_status hy a with h₁ | ⟨_, _, h₃, h₄⟩ | ⟨_, _, _, h₄⟩
    · rcases hrel a with h₂ | ⟨h₂, h₅ | h₅⟩
      · rw [h₁, h₂, hs] at hs'
        cases hs'
        exact allowed_refl _
      · rw [hs] at h₂
        cases h₂
        rw [h₁, h₅] at hs'
        cases hs'
        exact Or.inr (Or.inr (Or.inl ⟨rfl, rfl⟩))
      · rw [hs] at h₂
        cases h₂
        rw [h₁, h₅] at hs'
        cases hs'
        exact Or.inr (Or.inr (Or.inr (Or.inl ⟨rfl, rfl⟩)))
    · rw [h₃] at hs'
      cases hs'
      rcases hrel a with h₂ | ⟨h₂, _⟩
      · rw [h₂, hs] at h₄
        rcases h₄ with h₄ | h₄
        · cases h₄
          exact Or.inr (Or.inl ⟨rfl, rfl⟩)
        · cases h₄
          exact Or.inr (Or.inr (Or.inr (Or.inr ⟨rfl, rfl⟩)))
      · rw [hs] at h₂
        cases h₂
        exact allowed_refl _
    · rw [h₄] at hs'
      cases hs'
  · have hta : statusOf t a ≠ some .Active := by
      rcases hrel a with h₂ | ⟨h₂, _⟩
      · rw [h₂]; exact hna
      · exact absurd h₂ hna
    rcases yield_status hy a with h₁ | ⟨h₂, h₃, _, _⟩ | ⟨_, _, _, h₄⟩
    · rw [h₁] at ha'
      exact absurd ha' hta
    · exact ⟨h₃, h₂⟩
    · rw [h₄] at ha'
      cases ha'

/-- One completed operation, on any state: the statuses move along the allowed
transitions, and a fiber that became `Active` is the new current fiber and was
at the head of the ready queue when the `yield` that ends the operation was
entered. -/
theorem operation_status {s s' : State} (hop : Operation s s') :
    (∀ a st st', statusOf s a = some st → statusOf s' a = some st' → Allowed st st') ∧
    (∀ a, statusOf s a ≠ some .Active → statusOf s' a = some .Active →
      s'.EXEC_FIBER = some a ∧ ∃ ty t c, yield ty t = .ok (s', c) ∧ t.HEAD = some a) := by
  have quiet : (∀ a, statusOf s' a = statusOf s a ∨
        (statusOf s a = none ∧ statusOf s' a = some .New)) →
      (∀ a st st', statusOf s a = some st → statusOf s' a = some st' → Allowed st st') ∧
      (∀ a, statusOf s a ≠ some .Active → statusOf s' a = some .Active →
        s'.EXEC_FIBER = some a ∧ ∃ ty t c, yield ty t = .ok (s', c) ∧ t.HEAD = some a) := by
    intro hst
    refine ⟨fun a st st' hs hs' => ?_, fun a hna ha' => ?_⟩
    · rcases hst a with h | ⟨h, _⟩
      · rw [h, hs] at hs'
        cases hs'
        exact allowed_refl _
      · rw [hs] at h
        cases h
    · rcases hst a with h | ⟨_, h⟩
      · rw [h] at ha'
        exact absurd ha' hna
      · rw [h] at ha'
        cases ha'
  have ended : ∀ {t : State} {ty : YieldType} {c : Control}, yield ty t = .ok (s', c) →
      (∀ a, statusOf t a = statusOf s a ∨ (statusOf s a = some .Active ∧
        (statusOf t a = some .Blocked ∨ statusOf t a = some .Done))) →
      (∀ a st st', statusOf s a = some st → statusOf s' a = some st' → Allowed st st') ∧
      (∀ a, statusOf s a ≠ some .Active → statusOf s' a = some .Active →
        s'.EXEC_FIBER = some a ∧ ∃ ty t c, yield ty t = .ok (s', c) ∧ t.HEAD = some a) := by
    intro t ty c hy hrel
    obtain ⟨h1, h2⟩ := status_across_yield hy hrel
    exact ⟨h1, fun a hna ha' => ⟨(h2 a hna ha').1, ty, t, c, hy, (h2 a hna ha').2⟩⟩
  cases hop with
  | runTasks alloc junk balloc decl N p_barrier b hN64 hdecl hinj hfresh h =>
    exact quiet (runTasks_status alloc junk balloc decl N p_barrier b hN64 hdecl hinj hfresh h)
  | yield ty c h => exact ended h (fun _ => Or.inl rfl)
  | semaphoreWait m f c hE hact h =>
    unfold Semaphore.wait at h
    obtain ⟨⟨s₁, r⟩, hp, hy⟩ := bind_ok h
    obtain ⟨hoth, hc | hc⟩ := semaphore_waitPark_status hE hp
    · obtain ⟨hr, hst⟩ := hc
      subst hr
      obtain ⟨e, _⟩ := tailYield_none hy
      subst e
      exact quiet (fun a => Or.inl (hst a))
    · obtain ⟨hr, hfb⟩ := hc
      subst hr
      refine ended (show yield .Block s₁ = .ok (s', c) from hy) (fun a => ?_)
      by_cases haf : a = f
      · subst haf
        exact Or.inr ⟨hact, Or.inl hfb⟩
      · exact Or.inl (hoth a haf)
  | barrierWait b f c hE hact h =>
    unfold Barrier.wait at h
    obtain ⟨⟨s₁, r⟩, hp, hy⟩ := bind_ok h
    obtain ⟨hoth, hc | hc⟩ := barrier_waitPark_status hE hp
    · obtain ⟨hr, e⟩ := hc
      subst hr
      subst e
      obtain ⟨e, _⟩ := tailYield_none hy
      subst e
      exact quiet (fun a => Or.inl rfl)
    · obtain ⟨hr, hfb⟩ := hc
      subst hr
      refine ended (show yield .Block s₁ = .ok (s', c) from hy) (fun a => ?_)
      by_cases haf : a = f
      · subst haf
        exact Or.inr ⟨hact, Or.inl hfb⟩
      · exact Or.inl (hoth a haf)
  | semaphoreSignal m h =>
    exact quiet (fun a => Or.inl (statusOf_of_same (semaphore_signal_frame h).2.1 a))
  | barrierSignal b h =>
    exact quiet (fun a => Or.inl (statusOf_of_same (barrier_signal_frame h).2.1 a))
  | execFiber f c hact h =>
    unfold execFiberEnd at h
    obtain ⟨t, hd, hy⟩ := bind_ok h
    obtain ⟨hoth, hfd⟩ := execFiberDone_status hd
    refine ended hy (fun a => ?_)
    by_cases haf : a = f
    · subst haf
      exact Or.inr ⟨hact, Or.inr hfd⟩
    · exact Or.inl (hoth a haf)

/-- C16: take one completed operation: `runTasks` (fiber addresses from `new`
fresh and distinct), `yield` in any mode, `Semaphore::wait` or `Barrier::wait`
called by the worker's current fiber while it is `Active`, a `signal`, or the
end of `execFiber` for an `Active` fiber.  On any state, every fiber that has a
status before and after goes through one of `New → Active`, `Active → Blocked`,
`Active → Done`, `Blocked → Active` or keeps its status; a `Done` fiber stays
`Done`; and a fiber that became `Active` is the new current fiber and was at
the head of the ready queue when the `yield` that ends the operation was
entered (state `t`).  On a state whose lists are intact (`WellFormed`: the
ready queue and the waiter lists are well-formed and disjoint, the fibers on
the ready queue are `New` or `Blocked`, the waiting ones `Blocked`), the lists
are intact afterwards, that `yield` has removed the fiber that became `Active`
from the ready queue, and, before and after the operation, an `Active` fiber is
on no list: neither on the ready queue nor on a waiter list. -/
theorem fiber_status_transitions (s s' : State) (hop : Operation s s') :
    (∀ a st st', statusOf s a = some st → statusOf s' a = some st' → Allowed st st') ∧
    (∀ a st', statusOf s a = some .Done → statusOf s' a = some st' → st' = .Done) ∧
    (∀ a, statusOf s a ≠ some .Active → statusOf s' a = some .Active →
      s'.EXEC_FIBER = some a ∧ ∃ ty t c, yield ty t = .ok (s', c) ∧ t.HEAD = some a) ∧
    (∀ L, WellFormed s L →
      (∀ a, statusOf s a = some .Active → (∀ i, a ∉ L i) ∧
        (∀ l, IsQueue s.fibers s.HEAD s.TAIL l → a ∉ l) ∧ ¬ OnWaiterList s a) ∧
      ∃ L', WellFormed s' L' ∧
        (∀ a, statusOf s a ≠ some .Active → statusOf s' a = some .Active →
          ∃ ty t Lt c, WellFormed t Lt ∧ yield ty t = .ok (s', c) ∧
            t.HEAD = some a ∧ Lt none = a :: L' none) ∧
        (∀ a, statusOf s' a = some .Active → (∀ i, a ∉ L' i) ∧
          (∀ l, IsQueue s'.fibers s'.HEAD s'.TAIL l → a ∉ l) ∧ ¬ OnWaiterList s' a)) := by
  obtain ⟨h1, h2⟩ := operation_status hop
  refine ⟨h1, fun a st' hs hs' => allowed_done (h1 a _ _ hs hs'), h2, fun L hwf => ?_⟩
  obtain ⟨_, L', hwf', h3⟩ := operation_step hwf hop
  exact ⟨fun a ha => wf_active_unlisted hwf ha, L', hwf',
    fun a hna ha' => (h3 a hna ha').2, fun a ha => wf_active_unlisted hwf' ha⟩

/-- C16 for `yield()` called in `demoState`, whose ready queue is `[1, 2]`: the
statuses before and after are related by the allowed transitions, and the
`Active` fiber `5` is on no list. -/
theorem fiber_status_transitions_witness :
    (∀ a st st', statusOf demoState a = some st →
      statusOf (stateAfter (yield .Acquire demoState)) a = some st' → Allowed st st') ∧
    (∀ i, 5 ∉ demoLists i) :=
  have h := fiber_status_transitions demoState (stateAfter (yield .Acquire demoState))
    (Operation.yield .Acquire (.enter 1) rfl)
  ⟨h.1, ((h.2.2.2 demoLists demo_wellFormed).1 5 rfl).1⟩

end czsfiber
